import Mathlib

/-! sico: comparing a source sitemap with a new sitemap

A shallow embedding of `main.go` (package `main`) and a verification of its
specification.  Go strings and byte slices are byte sequences; they are
rendered as `List UInt8`, with the wrap-around arithmetic of Go's `byte`.
Go `int` counters are rendered as `Nat` (a counter is incremented at most
once per sitemap entry, far below `2^63`).  The libraries that `main.go`
calls are handled in two ways: `net/url`, on which the claims about
`replaceURL` depend, is embedded from its source; `net/http`,
`encoding/xml` and `regexp` are parameters (`World`), instantiated by a
small example web in the worked examples.
-/

set_option autoImplicit false

namespace Sico

/-! ## Strings and errors -/

/-- A Go `string` (or `[]byte`): a sequence of bytes. -/
abbrev GoString := List UInt8

/-- The bytes of a string literal (Go source text is UTF-8). -/
def bytes (s : String) : GoString :=
  s.toList.flatMap String.utf8EncodeChar

/-- Go `error` values.  `lib` stands for an error value made by a library
(`errors.New`, `encoding/xml`, `net/http`, `io`), `wrapped` for
`fmt.Errorf("<pfx>: %w", err)`, `status` for
`fmt.Errorf("status error: %v", code)`, and the remaining constructors for
the error types of `net/url`. -/
inductive Error where
  | lib (text : String)
  | wrapped (pfx : String) (inner : Error)
  | status (code : Int)
  | escapeError (s : GoString)
  | invalidHostError (s : GoString)
  | invalidPort (s : GoString)
  | urlError (op : String) (url : GoString) (err : Error)
  deriving DecidableEq, Repr

deriving instance DecidableEq for Except

/-- `bytes.Contains(b, subslice)` (also `strings.Contains`): some suffix of
`b` starts with `subslice`. -/
def contains : GoString → GoString → Bool
  | [], sub => sub.isPrefixOf []
  | c :: rest, sub => sub.isPrefixOf (c :: rest) || contains rest sub

/-! ## `strings` helpers used by `net/url` -/

/-- `strings.HasPrefix(s, prefix)`. -/
def hasPrefix (s pre : GoString) : Bool := pre.isPrefixOf s

/-- `strings.HasSuffix(s, suffix)`. -/
def hasSuffix (s suf : GoString) : Bool := suf.isSuffixOf s

/-- `strings.Index(s, substr)`; `none` renders `-1`. -/
def index : GoString → GoString → Option Nat
  | [], sub => if sub.isEmpty then some 0 else none
  | c :: rest, sub =>
    if sub.isPrefixOf (c :: rest) then some 0
    else (index rest sub).map (fun i => i + 1)

/-- `strings.LastIndex(s, substr)`; `none` renders `-1`. -/
def lastIndex : GoString → GoString → Option Nat
  | [], sub => if sub.isEmpty then some 0 else none
  | c :: rest, sub =>
    match lastIndex rest sub with
    | some i => some (i + 1)
    | none => if sub.isPrefixOf (c :: rest) then some 0 else none

/-- `strings.Cut(s, sep)`: `before, after, found`. -/
def cut (s sep : GoString) : GoString × GoString × Bool :=
  match index s sep with
  | some i => (s.take i, s.drop (i + sep.length), true)
  | none => (s, [], false)

/-- `strings.ToLower` on a string of ASCII bytes (the only use is on a
scheme, which `getScheme` restricts to ASCII letters, digits, `+`, `-`
and `.`). -/
def toLower (s : GoString) : GoString :=
  s.map (fun c => if 'A'.toUInt8 ≤ c ∧ c ≤ 'Z'.toUInt8 then c + ('a'.toUInt8 - 'A'.toUInt8) else c)

/-! ## `net/url` (Go standard library): `Parse` and `(*URL).String`

`replaceURL` calls `url.Parse` and `(*URL).String`.  Both are embedded from
the standard library source (`net/url/url.go`, Go 1.20), function by
function and under their Go names. -/

/-- `type encoding int` with its seven constants. -/
inductive Encoding where
  | encodePath
  | encodePathSegment
  | encodeHost
  | encodeZone
  | encodeUserPassword
  | encodeQueryComponent
  | encodeFragment
  deriving DecidableEq, Repr

open Encoding

/-- `type Userinfo struct`. -/
structure Userinfo where
  username : GoString
  password : GoString
  passwordSet : Bool
  deriving DecidableEq, Repr

/-- `type URL struct`; `User` is a pointer, `none` renders `nil`. -/
structure URL where
  Scheme : GoString
  Opaque : GoString
  User : Option Userinfo
  Host : GoString
  Path : GoString
  RawPath : GoString
  OmitHost : Bool
  ForceQuery : Bool
  RawQuery : GoString
  Fragment : GoString
  RawFragment : GoString
  deriving DecidableEq, Repr

/-- `new(URL)`: the zero value. -/
def URL.zero : URL :=
  { Scheme := [], Opaque := [], User := none, Host := [], Path := [], RawPath := [],
    OmitHost := false, ForceQuery := false, RawQuery := [], Fragment := [],
    RawFragment := [] }

/-- `const upperhex = "0123456789ABCDEF"`, indexed. -/
def upperhex (i : UInt8) : UInt8 := (bytes "0123456789ABCDEF").getD i.toNat 0

/-- `ishex`. -/
def ishex (c : UInt8) : Bool :=
  if '0'.toUInt8 ≤ c ∧ c ≤ '9'.toUInt8 then true
  else if 'a'.toUInt8 ≤ c ∧ c ≤ 'f'.toUInt8 then true
  else if 'A'.toUInt8 ≤ c ∧ c ≤ 'F'.toUInt8 then true
  else false

/-- `unhex`. -/
def unhex (c : UInt8) : UInt8 :=
  if '0'.toUInt8 ≤ c ∧ c ≤ '9'.toUInt8 then c - '0'.toUInt8
  else if 'a'.toUInt8 ≤ c ∧ c ≤ 'f'.toUInt8 then c - 'a'.toUInt8 + 10
  else if 'A'.toUInt8 ≤ c ∧ c ≤ 'F'.toUInt8 then c - 'A'.toUInt8 + 10
  else 0

/-- `shouldEscape`: whether byte `c` must be escaped in the URL part `mode`. -/
def shouldEscape (c : UInt8) (mode : Encoding) : Bool :=
  if ('a'.toUInt8 ≤ c ∧ c ≤ 'z'.toUInt8) ∨ ('A'.toUInt8 ≤ c ∧ c ≤ 'Z'.toUInt8) ∨
      ('0'.toUInt8 ≤ c ∧ c ≤ '9'.toUInt8) then false
  else if (mode = encodeHost ∨ mode = encodeZone) ∧ c ∈ bytes "!$&'()*+,;=:[]<>\"" then false
  else if c ∈ bytes "-_.~" then false
  else if c ∈ bytes "$&+,/:;=?@" ∧ mode = encodePath then c = '?'.toUInt8
  else if c ∈ bytes "$&+,/:;=?@" ∧ mode = encodePathSegment then
    c = '/'.toUInt8 ∨ c = ';'.toUInt8 ∨ c = ','.toUInt8 ∨ c = '?'.toUInt8
  else if c ∈ bytes "$&+,/:;=?@" ∧ mode = encodeUserPassword then
    c = '@'.toUInt8 ∨ c = '/'.toUInt8 ∨ c = '?'.toUInt8 ∨ c = ':'.toUInt8
  else if c ∈ bytes "$&+,/:;=?@" ∧ mode = encodeQueryComponent then true
  else if c ∈ bytes "$&+,/:;=?@" ∧ mode = encodeFragment then false
  else if mode = encodeFragment ∧ c ∈ bytes "!()*" then false
  else true

/-- The first loop of `unescape`: counts the `%` and validates; returns
`n` and `hasPlus`. -/
def unescapeScan (mode : Encoding) : GoString → Nat → Bool → Except Error (Nat × Bool)
  | [], n, hasPlus => .ok (n, hasPlus)
  | c :: rest, n, hasPlus =>
    if c = '%'.toUInt8 then
      match rest with
      | a :: b :: rest' =>
        if !ishex a || !ishex b then .error (.escapeError ((c :: rest).take 3))
        else if mode = encodeHost ∧ unhex a < 8 ∧ [c, a, b] ≠ bytes "%25" then
          .error (.escapeError [c, a, b])
        else if mode = encodeZone ∧ [c, a, b] ≠ bytes "%25" ∧
            (unhex a <<< 4 ||| unhex b) ≠ ' '.toUInt8 ∧
            shouldEscape (unhex a <<< 4 ||| unhex b) encodeHost then
          .error (.escapeError [c, a, b])
        else unescapeScan mode rest' (n + 1) hasPlus
      | _ => .error (.escapeError ((c :: rest).take 3))
    else if c = '+'.toUInt8 then
      unescapeScan mode rest n (decide (mode = encodeQueryComponent))
    else if (mode = encodeHost ∨ mode = encodeZone) ∧ c < 0x80 ∧
        shouldEscape c encodeHost then
      .error (.invalidHostError [c])
    else unescapeScan mode rest n hasPlus

/-- The second loop of `unescape`: builds the unescaped string.  (A `%`
with fewer than two bytes after it is not reached: the first loop rejects
it.) -/
def unescapeBuild (mode : Encoding) : GoString → GoString
  | [] => []
  | c :: rest =>
    if c = '%'.toUInt8 then
      match rest with
      | a :: b :: rest' => (unhex a <<< 4 ||| unhex b) :: unescapeBuild mode rest'
      | _ => []
    else if c = '+'.toUInt8 then
      (if mode = encodeQueryComponent then ' '.toUInt8 else '+'.toUInt8) ::
        unescapeBuild mode rest
    else c :: unescapeBuild mode rest

/-- `unescape`. -/
def unescape (s : GoString) (mode : Encoding) : Except Error GoString :=
  match unescapeScan mode s 0 false with
  | .error e => .error e
  | .ok (n, hasPlus) =>
    if n = 0 ∧ hasPlus = false then .ok s else .ok (unescapeBuild mode s)

/-- The test `p, err := unescape(s, mode); err == nil && p == t`. -/
def unescapesTo (s : GoString) (mode : Encoding) (t : GoString) : Bool :=
  match unescape s mode with
  | .error _ => false
  | .ok p => decide (p = t)

/-- The second loop of `escape`. -/
def escapeBuild (mode : Encoding) : GoString → GoString
  | [] => []
  | c :: rest =>
    if c = ' '.toUInt8 ∧ mode = encodeQueryComponent then
      '+'.toUInt8 :: escapeBuild mode rest
    else if shouldEscape c mode then
      '%'.toUInt8 :: upperhex (c >>> 4) :: upperhex (c &&& 15) :: escapeBuild mode rest
    else c :: escapeBuild mode rest

/-- `escape`: the first loop counts the bytes to escape (`spaceCount` and
`hexCount` are both zero exactly when no byte satisfies `shouldEscape`, and
then `s` is returned); the shortcut for `hexCount == 0`, which only turns
spaces into `+`, yields what the general loop `escapeBuild` yields. -/
def escape (s : GoString) (mode : Encoding) : GoString :=
  if s.all (fun c => !shouldEscape c mode) then s else escapeBuild mode s

/-- `validEncoded`. -/
def validEncoded (s : GoString) (mode : Encoding) : Bool :=
  s.all (fun c =>
    if c ∈ bytes "!$&'()*+,;=:@" then true
    else if c ∈ bytes "[]" then true
    else if c = '%'.toUInt8 then true
    else !shouldEscape c mode)

/-- `stringContainsCTLByte`. -/
def stringContainsCTLByte (s : GoString) : Bool :=
  s.any (fun b => decide (b < ' '.toUInt8 ∨ b = 0x7f))

/-- The loop of `getScheme`: `s` is `rawURL[i:]`. -/
def getSchemeLoop (rawURL : GoString) : GoString → Nat → Except Error (GoString × GoString)
  | [], _ => .ok ([], rawURL)
  | c :: s, i =>
    if ('a'.toUInt8 ≤ c ∧ c ≤ 'z'.toUInt8) ∨ ('A'.toUInt8 ≤ c ∧ c ≤ 'Z'.toUInt8) then
      getSchemeLoop rawURL s (i + 1)
    else if ('0'.toUInt8 ≤ c ∧ c ≤ '9'.toUInt8) ∨ c = '+'.toUInt8 ∨ c = '-'.toUInt8 ∨
        c = '.'.toUInt8 then
      if i = 0 then .ok ([], rawURL) else getSchemeLoop rawURL s (i + 1)
    else if c = ':'.toUInt8 then
      if i = 0 then .error (.lib "missing protocol scheme")
      else .ok (rawURL.take i, rawURL.drop (i + 1))
    else .ok ([], rawURL)

/-- `getScheme`: `scheme, path` or an error. -/
def getScheme (rawURL : GoString) : Except Error (GoString × GoString) :=
  getSchemeLoop rawURL rawURL 0

/-- `validOptionalPort`. -/
def validOptionalPort (port : GoString) : Bool :=
  match port with
  | [] => true
  | c :: rest =>
    if c ≠ ':'.toUInt8 then false
    else rest.all (fun b => !decide (b < '0'.toUInt8 ∨ b > '9'.toUInt8))

/-- `validUserinfo`. -/
def validUserinfo (s : GoString) : Bool :=
  s.all (fun r =>
    if 'A'.toUInt8 ≤ r ∧ r ≤ 'Z'.toUInt8 then true
    else if 'a'.toUInt8 ≤ r ∧ r ≤ 'z'.toUInt8 then true
    else if '0'.toUInt8 ≤ r ∧ r ≤ '9'.toUInt8 then true
    else decide (r ∈ bytes "-._:~!$&'()*+,;=%@"))

/-- `parseHost`. -/
def parseHost (host : GoString) : Except Error GoString :=
  let plain : Except Error GoString := unescape host encodeHost
  if hasPrefix host (bytes "[") then
    match lastIndex host (bytes "]") with
    | none => .error (.lib "missing ']' in host")
    | some i =>
      let colonPort := host.drop (i + 1)
      if !validOptionalPort colonPort then .error (.invalidPort colonPort)
      else
        match index (host.take i) (bytes "%25") with
        | some zone =>
          match unescape (host.take zone) encodeHost with
          | .error err => .error err
          | .ok host1 =>
            match unescape ((host.take i).drop zone) encodeZone with
            | .error err => .error err
            | .ok host2 =>
              match unescape (host.drop i) encodeHost with
              | .error err => .error err
              | .ok host3 => .ok (host1 ++ host2 ++ host3)
        | none => plain
  else
    match lastIndex host (bytes ":") with
    | some i =>
      let colonPort := host.drop i
      if !validOptionalPort colonPort then .error (.invalidPort colonPort)
      else plain
    | none => plain

/-- `parseAuthority`: `user, host` or an error. -/
def parseAuthority (authority : GoString) : Except Error (Option Userinfo × GoString) :=
  let i := lastIndex authority (bytes "@")
  let hostResult :=
    match i with
    | none => parseHost authority
    | some i => parseHost (authority.drop (i + 1))
  match hostResult with
  | .error err => .error err
  | .ok host =>
    match i with
    | none => .ok (none, host)
    | some i =>
      let userinfo := authority.take i
      if !validUserinfo userinfo then .error (.lib "net/url: invalid userinfo")
      else if !contains userinfo (bytes ":") then
        match unescape userinfo encodeUserPassword with
        | .error err => .error err
        | .ok userinfo => .ok (some ⟨userinfo, [], false⟩, host)
      else
        let c := cut userinfo (bytes ":")
        match unescape c.1 encodeUserPassword with
        | .error err => .error err
        | .ok username =>
          match unescape c.2.1 encodeUserPassword with
          | .error err => .error err
          | .ok password => .ok (some ⟨username, password, true⟩, host)

/-- `(*URL).setPath`. -/
def URL.setPath (u : URL) (p : GoString) : Except Error URL :=
  match unescape p encodePath with
  | .error err => .error err
  | .ok path =>
    if p = escape path encodePath then .ok { u with Path := path, RawPath := [] }
    else .ok { u with Path := path, RawPath := p }

/-- `(*URL).EscapedPath`. -/
def URL.EscapedPath (u : URL) : GoString :=
  if u.RawPath ≠ [] ∧ validEncoded u.RawPath encodePath ∧
      unescapesTo u.RawPath encodePath u.Path then u.RawPath
  else if u.Path = bytes "*" then bytes "*"
  else escape u.Path encodePath

/-- `(*URL).setFragment`. -/
def URL.setFragment (u : URL) (f : GoString) : Except Error URL :=
  match unescape f encodeFragment with
  | .error err => .error err
  | .ok frag =>
    if f = escape frag encodeFragment then .ok { u with Fragment := frag, RawFragment := [] }
    else .ok { u with Fragment := frag, RawFragment := f }

/-- `(*URL).EscapedFragment`. -/
def URL.EscapedFragment (u : URL) : GoString :=
  if u.RawFragment ≠ [] ∧ validEncoded u.RawFragment encodeFragment ∧
      unescapesTo u.RawFragment encodeFragment u.Fragment then u.RawFragment
  else escape u.Fragment encodeFragment

/-- `parse`: parses a URL without its fragment. -/
def parse (rawURL : GoString) (viaRequest : Bool) : Except Error URL :=
  if stringContainsCTLByte rawURL then
    .error (.lib "net/url: invalid control character in URL")
  else if rawURL = [] ∧ viaRequest then .error (.lib "empty url")
  else if rawURL = bytes "*" then .ok { URL.zero with Path := bytes "*" }
  else
    match getScheme rawURL with
    | .error err => .error err
    | .ok (scheme, rest) =>
      let url : URL := { URL.zero with Scheme := toLower scheme }
      let q : GoString × URL :=
        if hasSuffix rest (bytes "?") ∧ rest.count '?'.toUInt8 = 1 then
          (rest.take (rest.length - 1), { url with ForceQuery := true })
        else
          ((cut rest (bytes "?")).1, { url with RawQuery := (cut rest (bytes "?")).2.1 })
      let rest := q.1
      let url := q.2
      if !hasPrefix rest (bytes "/") ∧ url.Scheme ≠ [] then
        .ok { url with Opaque := rest }
      else if !hasPrefix rest (bytes "/") ∧ viaRequest then
        .error (.lib "invalid URI for request")
      else if !hasPrefix rest (bytes "/") ∧
          contains (cut rest (bytes "/")).1 (bytes ":") then
        .error (.lib "first path segment in URL cannot contain colon")
      else if (url.Scheme ≠ [] ∨ (!viaRequest ∧ !hasPrefix rest (bytes "///"))) ∧
          hasPrefix rest (bytes "//") then
        let authority := rest.drop 2
        let a : GoString × GoString :=
          match index authority (bytes "/") with
          | some i => (authority.take i, authority.drop i)
          | none => (authority, [])
        match parseAuthority a.1 with
        | .error err => .error err
        | .ok (user, host) => URL.setPath { url with User := user, Host := host } a.2
      else if url.Scheme ≠ [] ∧ hasPrefix rest (bytes "/") then
        URL.setPath { url with OmitHost := true } rest
      else URL.setPath url rest

/-- `url.Parse`. -/
def Parse (rawURL : GoString) : Except Error URL :=
  let c := cut rawURL (bytes "#")
  match parse c.1 false with
  | .error err => .error (.urlError "parse" c.1 err)
  | .ok url =>
    if c.2.1 = [] then .ok url
    else
      match url.setFragment c.2.1 with
      | .error err => .error (.urlError "parse" rawURL err)
      | .ok url => .ok url

/-- `(*Userinfo).String` for a non-nil receiver. -/
def Userinfo.String (u : Userinfo) : GoString :=
  let s := escape u.username encodeUserPassword
  if u.passwordSet then s ++ bytes ":" ++ escape u.password encodeUserPassword else s

/-- `(*URL).String`: the pieces are appended to `buf` in this order. -/
def URL.String (u : URL) : GoString :=
  let buf : GoString := if u.Scheme ≠ [] then u.Scheme ++ bytes ":" else []
  let buf : GoString :=
    if u.Opaque ≠ [] then buf ++ u.Opaque
    else
      let buf : GoString :=
        if u.Scheme ≠ [] ∨ u.Host ≠ [] ∨ u.User ≠ none then
          if u.OmitHost ∧ u.Host = [] ∧ u.User = none then buf
          else
            let buf := if u.Host ≠ [] ∨ u.Path ≠ [] ∨ u.User ≠ none then buf ++ bytes "//" else buf
            let buf :=
              match u.User with
              | some ui => buf ++ ui.String ++ bytes "@"
              | none => buf
            if u.Host ≠ [] then buf ++ escape u.Host encodeHost else buf
        else buf
      let path := u.EscapedPath
      let buf : GoString :=
        if path ≠ [] ∧ path.head? ≠ some '/'.toUInt8 ∧ u.Host ≠ [] then buf ++ bytes "/" else buf
      let buf : GoString :=
        if buf.length = 0 ∧ contains (cut path (bytes "/")).1 (bytes ":") then buf ++ bytes "./"
        else buf
      buf ++ path
  let buf : GoString :=
    if u.ForceQuery ∨ u.RawQuery ≠ [] then buf ++ bytes "?" ++ u.RawQuery else buf
  if u.Fragment ≠ [] then buf ++ bytes "#" ++ u.EscapedFragment else buf

/-! ## The URL rewriter (`replaceURL`, lines 236-260) -/

/-- `replaceURL(u, new)`: the returned string and error. -/
def replaceURL (u new : GoString) : GoString × Option Error :=
  if new.length = 0 then (u, none)
  else
    match Parse u with
    | .error err => (u, some err)
    | .ok uParsed =>
      match Parse new with
      | .error err => (u, some err)
      | .ok newParsed =>
        let uParsed := { uParsed with Scheme := newParsed.Scheme }
        let uParsed := { uParsed with Host := newParsed.Host }
        (uParsed.String, none)

/-! ## Data model (`main.go`, lines 15-34) -/

/-- `type URLEntry struct { Loc string }`. -/
structure URLEntry where
  Loc : GoString
  deriving DecidableEq, Repr

/-- `type Sitemap struct { URLs []URLEntry }`. -/
structure Sitemap where
  URLs : List URLEntry
  deriving DecidableEq, Repr

/-- `type SitemapIndex struct { Sitemaps []URLEntry }`. -/
structure SitemapIndex where
  Sitemaps : List URLEntry
  deriving DecidableEq, Repr

/-- `type URLMap map[string]struct{}`: the keys of the map, each key once
(the values carry no information; the iteration order of a Go map is
unspecified, the order kept here is the order of first insertion). -/
structure URLMap where
  keys : List GoString
  deriving DecidableEq, Repr

/-- `URLMap{}`. -/
def URLMap.empty : URLMap := ⟨[]⟩

/-- `_, ok := m[k]`. -/
def URLMap.has (m : URLMap) (k : GoString) : Bool := decide (k ∈ m.keys)

/-- `m[k] = struct{}{}`. -/
def URLMap.set (m : URLMap) (k : GoString) : URLMap :=
  if k ∈ m.keys then m else ⟨m.keys ++ [k]⟩

/-- `len(m)`. -/
def URLMap.len (m : URLMap) : Nat := m.keys.length

/-- A compiled `*regexp.Regexp`; `expr` is what `String()` returns. -/
structure Regexp where
  expr : GoString
  deriving DecidableEq, Repr

/-! ## The outside world

`net/http`, `encoding/xml` and `regexp` are libraries; what `main.go` reads
from them is taken as a parameter. -/

/-- What `readRemoteFile` reads from a `*http.Response`: the status code and
the result of `ioutil.ReadAll(resp.Body)`. -/
structure Response where
  StatusCode : Int
  Body : Except Error GoString

/-- The library calls of `main.go`: `http.Get`, `xml.Unmarshal` into a fresh
`SitemapIndex` and into a fresh `Sitemap` (the struct as filled, and the
error), `regexp.MustCompile` (`none` renders its panic) and `MatchString`.
The web is taken not to change during a run: `httpGet` is a function of the
URL. -/
structure World where
  httpGet : GoString → Except Error Response
  unmarshalSitemapIndex : GoString → SitemapIndex × Option Error
  unmarshalSitemap : GoString → Sitemap × Option Error
  mustCompile : GoString → Option Regexp
  MatchString : Regexp → GoString → Bool

/-! ## The remote fetcher (`readRemoteFile`, lines 216-234) -/

/-- `http.StatusOK`. -/
def StatusOK : Int := 200

/-- `readRemoteFile(u)`. -/
def readRemoteFile (w : World) (u : GoString) : Except Error GoString :=
  match w.httpGet u with
  | .error err => .error (.wrapped "get error" err)
  | .ok resp =>
    if resp.StatusCode ≠ StatusOK then .error (.status resp.StatusCode)
    else
      match resp.Body with
      | .error err => .error (.wrapped "read body" err)
      | .ok data => .ok data

/-! ## The sitemap resolver (`readSitemap`, lines 147-214) -/

/-- What a call of `readSitemap` returns: the `*Sitemap` (`none` renders
`nil`) and the `error` (`none` renders `nil`). -/
abbrev Returned := Option Sitemap × Option Error

/-- The loop over `sitemapIndex.Sitemaps` (lines 170-194), `merged` being
`mergedSitemap`; `recurse` is the recursive call of line 188, and `none`
means that the call has not returned.  (A nil sitemap with a nil error would
be dereferenced at line 193 and the run would stop there; no call returns
that pair, see `readSitemap_ne_nil_nil`.) -/
def mergeLoop (w : World) (newBaseURL : GoString) (recurse : GoString → Option Returned) :
    List URLEntry → Sitemap → Option Returned
  | [], merged => some (some merged, none)
  | sitemapURLs :: rest, merged =>
    match replaceURL sitemapURLs.Loc newBaseURL with
    | (_, some err) => some (none, some err)
    | (newUrl, none) =>
      match readRemoteFile w newUrl with
      | .error err => some (none, some err)
      | .ok sitemapContent =>
        match recurse sitemapContent with
        | none => none
        | some (_, some err) => some (none, some err)
        | some (some sitemap, none) =>
          mergeLoop w newBaseURL recurse rest ⟨merged.URLs ++ sitemap.URLs⟩
        | some (none, none) => none

/-- `readSitemap(data, newBaseURL)`.  The recursion of the source has no
bound; `fuel` bounds its depth here, and `none` means that the call has not
returned within that depth. -/
def readSitemap (w : World) : Nat → GoString → GoString → Option Returned
  | 0, _, _ => none
  | fuel + 1, data, newBaseURL =>
    if contains data (bytes "<sitemapindex") then
      match w.unmarshalSitemapIndex data with
      | (_, some err) => some (none, some err)
      | (sitemapIndex, none) =>
        mergeLoop w newBaseURL (fun content => readSitemap w fuel content newBaseURL)
          sitemapIndex.Sitemaps ⟨[]⟩
    else
      some (some (w.unmarshalSitemap data).1, (w.unmarshalSitemap data).2)

/-- The call `readSitemap(data, newBaseURL)` returns `r`: every
sufficiently deep unfolding of the recursion yields `r`. -/
def Returns (w : World) (data newBaseURL : GoString) (r : Returned) : Prop :=
  ∃ n, ∀ fuel, n ≤ fuel → readSitemap w fuel data newBaseURL = some r

/-- The entry `e` of an index is resolved to the sitemap `s`: rewrite, fetch
and recursive call all succeed. -/
def EntryResolves (w : World) (newBaseURL : GoString) (e : URLEntry) (s : Sitemap) : Prop :=
  ∃ content, (replaceURL e.Loc newBaseURL).2 = none ∧
    readRemoteFile w (replaceURL e.Loc newBaseURL).1 = .ok content ∧
    Returns w content newBaseURL (some s, none)

/-- The entry `e` of an index fails with `err`: in the rewrite, or in the
fetch of the rewritten URL, or in the recursive call on the fetched bytes. -/
def EntryFails (w : World) (newBaseURL : GoString) (e : URLEntry) (err : Error) : Prop :=
  (replaceURL e.Loc newBaseURL).2 = some err ∨
  ((replaceURL e.Loc newBaseURL).2 = none ∧
    readRemoteFile w (replaceURL e.Loc newBaseURL).1 = .error err) ∨
  ((replaceURL e.Loc newBaseURL).2 = none ∧
    ∃ content s, readRemoteFile w (replaceURL e.Loc newBaseURL).1 = .ok content ∧
      Returns w content newBaseURL (s, some err))

/-- While it resolves the index `data`, `readSitemap` makes a recursive call
on `content`: `data` holds the index marker and decodes without error, every
entry before some entry `e` resolves without error, the rewrite of `e`
succeeds, and the fetch of the rewritten URL yields `content`. -/
def Calls (w : World) (newBaseURL data content : GoString) : Prop :=
  contains data (bytes "<sitemapindex") = true ∧
  ∃ (sitemapIndex : SitemapIndex) (pre : List URLEntry) (e : URLEntry)
    (post : List URLEntry) (done : List Sitemap),
    w.unmarshalSitemapIndex data = (sitemapIndex, none) ∧
    sitemapIndex.Sitemaps = pre ++ e :: post ∧
    List.Forall₂ (EntryResolves w newBaseURL) pre done ∧
    (replaceURL e.Loc newBaseURL).2 = none ∧
    readRemoteFile w (replaceURL e.Loc newBaseURL).1 = .ok content

/-- The documents on which `readSitemap(data, newBaseURL)` is called in the
course of resolving `data`: `data` itself, and every document on which a
recursive call is made while one of them is resolved. -/
inductive Reaches (w : World) (newBaseURL : GoString) (data : GoString) : GoString → Prop where
  | self : Reaches w newBaseURL data data
  | call {content doc : GoString} : Reaches w newBaseURL data content →
      Calls w newBaseURL content doc → Reaches w newBaseURL data doc

/-! ## The comparator (`main`, lines 87-113) -/

/-- `sitemapToURLMap` (lines 137-145). -/
def sitemapToURLMap (s : Sitemap) : URLMap :=
  s.URLs.foldl (fun m entry => m.set entry.Loc) URLMap.empty

/-- The loop variables of `main` (lines 88-91). -/
structure Counters where
  missingURLsMap : URLMap
  excluded : Nat
  missing : Nat
  urlsChecked : Nat
  deriving DecidableEq, Repr

/-- The inner loop over `excludes` (lines 95-103): returns `skip` and the
updated `excluded` counter.  `MatchString` is `(*regexp.Regexp).MatchString`
of the standard library.  (The `log.Printf` of line 99 writes to the log
only and is left out.) -/
def excludeLoop (MatchString : Regexp → GoString → Bool) (loc : GoString) :
    List Regexp → Bool → Nat → Bool × Nat
  | [], skip, excluded => (skip, excluded)
  | exclude :: rest, _, excluded =>
    let skip := MatchString exclude loc
    if skip then (skip, excluded + 1)
    else excludeLoop MatchString loc rest skip excluded

/-- One iteration of the loop over `originalSitemap.URLs` (lines 92-113). -/
def checkEntry (MatchString : Regexp → GoString → Bool) (excludes : List Regexp)
    (newURLMap : URLMap) (st : Counters) (entry : URLEntry) : Counters :=
  let st := { st with urlsChecked := st.urlsChecked + 1 }
  let r := excludeLoop MatchString entry.Loc excludes false st.excluded
  let st := { st with excluded := r.2 }
  if r.1 then st
  else if !newURLMap.has entry.Loc then
    { st with missingURLsMap := st.missingURLsMap.set entry.Loc, missing := st.missing + 1 }
  else st

/-- Lines 87-113 of `main`: the comparison of the two resolved sitemaps. -/
def compare (MatchString : Regexp → GoString → Bool) (excludes : List Regexp)
    (originalSitemap newSitemap : Sitemap) : Counters :=
  let newURLMap := sitemapToURLMap newSitemap
  originalSitemap.URLs.foldl (checkEntry MatchString excludes newURLMap)
    { missingURLsMap := URLMap.empty, excluded := 0, missing := 0, urlsChecked := 0 }

/-- A matcher for the worked examples: for an expression without
metacharacters `MatchString` is substring search. -/
def literalMatch (re : Regexp) (s : GoString) : Bool := contains s re.expr

/-- Whether some exclusion rule matches `loc`. -/
def anyMatch (MatchString : Regexp → GoString → Bool) (excludes : List Regexp)
    (loc : GoString) : Bool :=
  excludes.any (fun re => MatchString re loc)

/-- An occurrence that is reported missing: no rule matches it and it is
not the `Loc` of an entry of the new sitemap. -/
def isMissing (MatchString : Regexp → GoString → Bool) (excludes : List Regexp)
    (newSitemap : Sitemap) (entry : URLEntry) : Bool :=
  !anyMatch MatchString excludes entry.Loc &&
    !decide (entry.Loc ∈ newSitemap.URLs.map URLEntry.Loc)

/-! ## The program (`main`, lines 45-132) -/

/-- The parsed command line: `--source`, `--new`, `--newBaseURL` and the
values of the repeatable `--exclude` (`excludeFlag`, filled by
`arrayFlags.Set`, one value per occurrence). -/
structure Flags where
  originalURL : GoString
  newUrl : GoString
  newBaseURL : GoString
  excludeFlag : List GoString

/-- `(*arrayFlags).Set` (lines 40-43). -/
def arrayFlags.Set (i : List GoString) (value : GoString) : List GoString := i ++ [value]

/-- The numbers and strings printed by lines 115-131; `missingURLs` is the
list printed under "Missing URLs in the new sitemap:" (empty when that
block is not printed). -/
structure Report where
  sourceSitemap : GoString
  urlsChecked : Nat
  newSitemap : GoString
  excludesConfigured : Nat
  excluded : Nat
  missing : Nat
  missingURLs : List GoString
  deriving DecidableEq, Repr

/-- How `main` ends: `log.Fatal(err)`, a panic of `regexp.MustCompile`, or
the printed report. -/
inductive Exit where
  | fatal (err : Error)
  | panicked
  | report (r : Report)
  deriving DecidableEq, Repr

/-- `excludesF` (lines 58-60). -/
def excludesF : List GoString := [bytes "andygrunwald\\.com/tags/"]

/-- The loop of lines 62-65: `excludes = append(excludes, regexp.MustCompile(s))`. -/
def compileExcludes (w : World) : List GoString → List Regexp → Option (List Regexp)
  | [], excludes => some excludes
  | s :: rest, excludes =>
    match w.mustCompile s with
    | none => none
    | some re => compileExcludes w rest (excludes ++ [re])

/-- `main`, after `flag.Parse()`.  `fuel` bounds the recursion depth of the
two `readSitemap` calls; `none` means that one of them has not returned. -/
def main (w : World) (fuel : Nat) (flags : Flags) : Option Exit :=
  match compileExcludes w flags.excludeFlag [] with
  | none => some .panicked
  | some excludes =>
    match readRemoteFile w flags.originalURL with
    | .error err => some (.fatal err)
    | .ok originalSitemapContent =>
      match readSitemap w fuel originalSitemapContent [] with
      | none => none
      | some (_, some err) => some (.fatal err)
      | some (none, none) => none
      | some (some originalSitemap, none) =>
        match readRemoteFile w flags.newUrl with
        | .error err => some (.fatal err)
        | .ok newSitemapContent =>
          match readSitemap w fuel newSitemapContent flags.newBaseURL with
          | none => none
          | some (_, some err) => some (.fatal err)
          | some (none, none) => none
          | some (some newSitemap, none) =>
            let c := compare w.MatchString excludes originalSitemap newSitemap
            some (.report
              { sourceSitemap := flags.originalURL,
                urlsChecked := c.urlsChecked,
                newSitemap := flags.newUrl,
                excludesConfigured := excludesF.length,
                excluded := c.excluded,
                missing := c.missing,
                missingURLs := if c.missing > 0 then c.missingURLsMap.keys else [] })

/-! ## Worked examples: a small web -/

/-- A page of the example web: its URL, its bytes, and the `loc` values
that `xml.Unmarshal` reads from those bytes (from the `sitemap` elements of
a `sitemapindex` document, from the `url` elements of a `urlset`
document). -/
structure Page where
  url : GoString
  body : GoString
  locs : List GoString

/-- The world in which exactly `pages` are served (any other URL answers
404 with an empty body), the decoder reads from each served body what the
page records and rejects every other input, and regular expressions are
plain substrings. -/
def webOf (pages : List Page) : World :=
  { httpGet := fun u =>
      match pages.find? (fun p => p.url = u) with
      | some p => .ok ⟨200, .ok p.body⟩
      | none => .ok ⟨404, .ok []⟩,
    unmarshalSitemapIndex := fun data =>
      match pages.find? (fun p => p.body = data) with
      | some p =>
        (⟨if contains data (bytes "<sitemapindex") then p.locs.map URLEntry.mk else []⟩, none)
      | none => (⟨[]⟩, some (.lib "XML syntax error")),
    unmarshalSitemap := fun data =>
      match pages.find? (fun p => p.body = data) with
      | some p =>
        (⟨if contains data (bytes "<sitemapindex") then [] else p.locs.map URLEntry.mk⟩, none)
      | none => (⟨[]⟩, some (.lib "XML syntax error")),
    mustCompile := fun s => some ⟨s⟩,
    MatchString := literalMatch }

/-- A simple sitemap listing `/a`. -/
def pageS0 : Page :=
  { url := bytes "https://example.com/s0.xml",
    body := bytes "<urlset><url><loc>/a</loc></url></urlset>",
    locs := [bytes "/a"] }

/-- A simple sitemap listing `/b`. -/
def pageS1 : Page :=
  { url := bytes "https://example.com/s1.xml",
    body := bytes "<urlset><url><loc>/b</loc></url></urlset>",
    locs := [bytes "/b"] }

/-- A sitemap index referencing `pageS0` and `pageS1`. -/
def pageIndex : Page :=
  { url := bytes "https://example.com/sitemap.xml",
    body := bytes ("<sitemapindex><sitemap><loc>https://example.com/s0.xml</loc></sitemap>" ++
      "<sitemap><loc>https://example.com/s1.xml</loc></sitemap></sitemapindex>"),
    locs := [bytes "https://example.com/s0.xml", bytes "https://example.com/s1.xml"] }

/-- A sitemap index whose second entry is not served. -/
def pageBroken : Page :=
  { url := bytes "https://example.com/broken.xml",
    body := bytes ("<sitemapindex><sitemap><loc>https://example.com/s0.xml</loc></sitemap>" ++
      "<sitemap><loc>https://example.com/gone.xml</loc></sitemap>" ++
      "<sitemap><loc>https://example.com/s1.xml</loc></sitemap></sitemapindex>"),
    locs := [bytes "https://example.com/s0.xml", bytes "https://example.com/gone.xml",
      bytes "https://example.com/s1.xml"] }

/-- A simple sitemap listing `/a` and `/b`. -/
def pageNew : Page :=
  { url := bytes "https://example-new.com/sitemap.xml",
    body := bytes "<urlset><url><loc>/a</loc></url><url><loc>/b</loc></url></urlset>",
    locs := [bytes "/a", bytes "/b"] }

/-- A sitemap index that references itself. -/
def pageLoop : Page :=
  { url := bytes "https://example.com/loop.xml",
    body := bytes "<sitemapindex><sitemap><loc>https://example.com/loop.xml</loc></sitemap></sitemapindex>",
    locs := [bytes "https://example.com/loop.xml"] }

/-- A sitemap index on the staging host, referencing two sub-sitemaps by
their staging URLs. -/
def pageStaging : Page :=
  { url := bytes "https://staging.example/sitemap.xml",
    body := bytes ("<sitemapindex><sitemap><loc>https://staging.example/sub.xml</loc></sitemap>" ++
      "<sitemap><loc>https://staging.example/sub2.xml</loc></sitemap></sitemapindex>"),
    locs := [bytes "https://staging.example/sub.xml", bytes "https://staging.example/sub2.xml"] }

/-- A simple sitemap on the production host, listing `/p` and `/q`. -/
def pageProdSub : Page :=
  { url := bytes "https://prod.example/sub.xml",
    body := bytes "<urlset><url><loc>/p</loc></url><url><loc>/q</loc></url></urlset>",
    locs := [bytes "/p", bytes "/q"] }

/-- A simple sitemap on the production host, listing `/r`. -/
def pageProdSub2 : Page :=
  { url := bytes "https://prod.example/sub2.xml",
    body := bytes "<urlset><url><loc>/r</loc></url></urlset>",
    locs := [bytes "/r"] }

/-- The pages of the example web: two indexes over simple sitemaps, one of
them with a dead reference, the new site, and an index on a staging host
whose sub-sitemaps are served by the production host only. -/
def examplePages : List Page :=
  [pageS0, pageS1, pageIndex, pageBroken, pageNew, pageStaging, pageProdSub, pageProdSub2]

/-- The example web. -/
def exampleWeb : World := webOf examplePages

/-- A web serving only the self-referencing index. -/
def loopWeb : World := webOf [pageLoop]

/-- A sitemap index whose first entry is the self-referencing index and whose
second entry is not served. -/
def pageMixed : Page :=
  { url := bytes "https://example.com/mixed.xml",
    body := bytes ("<sitemapindex><sitemap><loc>https://example.com/loop.xml</loc></sitemap>" ++
      "<sitemap><loc>https://example.com/gone.xml</loc></sitemap></sitemapindex>"),
    locs := [bytes "https://example.com/loop.xml", bytes "https://example.com/gone.xml"] }

/-- The pages of a web that serves, next to an index over two simple
sitemaps, the self-referencing index and an index that references it. -/
def tangledPages : List Page := [pageLoop, pageMixed, pageS0, pageS1, pageIndex]

/-- The web serving `tangledPages`. -/
def tangledWeb : World := webOf tangledPages

/-- A rank for the documents of the example webs: one for an index, zero for
a simple sitemap. -/
def exampleRank (data : GoString) : Nat :=
  if contains data (bytes "<sitemapindex") then 1 else 0

/-! ## Auxiliary definitions for the proofs about `net/url` -/

/-- The bytes that `getScheme` accepts at every position: ASCII letters. -/
def isLetter (c : UInt8) : Bool :=
  decide (('a'.toUInt8 ≤ c ∧ c ≤ 'z'.toUInt8) ∨ ('A'.toUInt8 ≤ c ∧ c ≤ 'Z'.toUInt8))

/-- The bytes that `getScheme` accepts after the first position only:
digits, `+`, `-` and `.`. -/
def isSchemeTail (c : UInt8) : Bool :=
  decide (('0'.toUInt8 ≤ c ∧ c ≤ '9'.toUInt8) ∨ c = '+'.toUInt8 ∨ c = '-'.toUInt8 ∨
    c = '.'.toUInt8)

/-- A scheme as `getScheme` returns it when it finds one: a letter followed
by letters, digits, `+`, `-` and `.`. -/
def isRawScheme : GoString → Bool
  | [] => false
  | c :: t => isLetter c && t.all (fun x => isLetter x || isSchemeTail x)

/-- A scheme as `Parse` stores it: a raw scheme without upper-case letters. -/
def isScheme (s : GoString) : Bool :=
  isRawScheme s && s.all (fun c => !decide ('A'.toUInt8 ≤ c ∧ c ≤ 'Z'.toUInt8))

/-- What `String` writes for `User`: the user-info and `@`, or nothing. -/
def userPart : Option Userinfo → GoString
  | none => []
  | some ui => ui.String ++ bytes "@"

/-- What `String` writes for the path of a URL with a host: the escaped
path, after a `/` when it does not start with one. -/
def pathPart (path : GoString) : GoString :=
  (if path ≠ [] ∧ path.head? ≠ some '/'.toUInt8 then bytes "/" else []) ++ path

/-- What `String` writes for the query. -/
def queryPart (forceQuery : Bool) (rawQuery : GoString) : GoString :=
  if forceQuery ∨ rawQuery ≠ [] then bytes "?" ++ rawQuery else []

/-- What `String` writes for the fragment. -/
def fragmentPart (u : URL) : GoString :=
  if u.Fragment ≠ [] then bytes "#" ++ u.EscapedFragment else []

/-- What `String` writes between the scheme and the query for a URL with a
host. -/
def hierPart (u : URL) : GoString :=
  if u.Opaque ≠ [] then u.Opaque
  else bytes "//" ++ userPart u.User ++ escape u.Host encodeHost ++ pathPart u.EscapedPath

/-- How `parse` splits off the query: `rest` becomes `rest1`, with
`ForceQuery = fq` and `RawQuery = rq`. -/
def QuerySplit (rest rest1 : GoString) (fq : Bool) (rq : GoString) : Prop :=
  (hasSuffix rest (bytes "?") = true ∧ rest.count '?'.toUInt8 = 1 ∧
    rest1 = rest.take (rest.length - 1) ∧ fq = true ∧ rq = []) ∨
  (¬ (hasSuffix rest (bytes "?") = true ∧ rest.count '?'.toUInt8 = 1) ∧
    rest1 = (cut rest (bytes "?")).1 ∧ fq = false ∧ rq = (cut rest (bytes "?")).2.1)

/-- How `parse` splits what follows `//` into authority and path. -/
def splitAuthority (authority : GoString) : GoString × GoString :=
  match index authority (bytes "/") with
  | some i => (authority.take i, authority.drop i)
  | none => (authority, [])

/-- What `String` writes for the scheme. -/
def schemePart (scheme : GoString) : GoString :=
  if scheme ≠ [] then scheme ++ bytes ":" else []

/-- The `/` that `String` writes between a host and an escaped path that
does not start with one. -/
def slashPart (path : GoString) : GoString :=
  if path ≠ [] ∧ path.head? ≠ some '/'.toUInt8 then bytes "/" else []

/-! ## Theorems: the comparator -/

theorem excludeLoop_eq (MatchString : Regexp → GoString → Bool) (loc : GoString)
    (excludes : List Regexp) (excluded : Nat) :
    excludeLoop MatchString loc excludes false excluded =
      (anyMatch MatchString excludes loc,
        if anyMatch MatchString excludes loc then excluded + 1 else excluded) := by
  induction excludes with
  | nil => simp [excludeLoop, anyMatch]
  | cons re rest ih =>
    unfold excludeLoop
    cases h : MatchString re loc with
    | true => simp [anyMatch, h]
    | false =>
      simp only [Bool.false_eq_true, if_false]
      rw [ih]
      simp [anyMatch, h]

theorem URLMap.mem_set (m : URLMap) (k k' : GoString) :
    k' ∈ (m.set k).keys ↔ k' ∈ m.keys ∨ k' = k := by
  unfold URLMap.set
  split
  · constructor
    · intro h; exact Or.inl h
    · rintro (h | h)
      · exact h
      · subst h; assumption
  · simp

theorem URLMap.nodup_set (m : URLMap) (k : GoString) (h : m.keys.Nodup) :
    (m.set k).keys.Nodup := by
  unfold URLMap.set
  split
  · exact h
  · rename_i hk
    exact List.Nodup.append h (List.nodup_singleton k) (by simpa using hk)

theorem foldl_set_mem (l : List URLEntry) (m : URLMap) (k : GoString) :
    k ∈ (l.foldl (fun m entry => m.set entry.Loc) m).keys ↔
      k ∈ m.keys ∨ k ∈ l.map URLEntry.Loc := by
  induction l generalizing m with
  | nil => simp
  | cons e rest ih =>
    simp only [List.foldl_cons, List.map_cons, List.mem_cons]
    rw [ih, URLMap.mem_set]
    constructor
    · rintro ((h | h) | h)
      · exact Or.inl h
      · exact Or.inr (Or.inl h)
      · exact Or.inr (Or.inr h)
    · rintro (h | h | h)
      · exact Or.inl (Or.inl h)
      · exact Or.inl (Or.inr h)
      · exact Or.inr h

theorem sitemapToURLMap_keys (s : Sitemap) (k : GoString) :
    k ∈ (sitemapToURLMap s).keys ↔ k ∈ s.URLs.map URLEntry.Loc := by
  unfold sitemapToURLMap
  rw [foldl_set_mem]
  simp [URLMap.empty]

theorem checkEntry_eq (MatchString : Regexp → GoString → Bool) (excludes : List Regexp)
    (newSitemap : Sitemap) (st : Counters) (entry : URLEntry) :
    checkEntry MatchString excludes (sitemapToURLMap newSitemap) st entry =
      { missingURLsMap :=
          if isMissing MatchString excludes newSitemap entry then
            st.missingURLsMap.set entry.Loc else st.missingURLsMap,
        excluded :=
          if anyMatch MatchString excludes entry.Loc then st.excluded + 1 else st.excluded,
        missing :=
          if isMissing MatchString excludes newSitemap entry then
            st.missing + 1 else st.missing,
        urlsChecked := st.urlsChecked + 1 } := by
  unfold checkEntry
  simp only [excludeLoop_eq]
  have hhas : (sitemapToURLMap newSitemap).has entry.Loc =
      decide (entry.Loc ∈ newSitemap.URLs.map URLEntry.Loc) := by
    unfold URLMap.has
    exact decide_eq_decide.mpr (sitemapToURLMap_keys newSitemap entry.Loc)
  rw [hhas]
  unfold isMissing
  cases anyMatch MatchString excludes entry.Loc <;>
    cases decide (entry.Loc ∈ newSitemap.URLs.map URLEntry.Loc) <;> simp

theorem foldl_checkEntry (MatchString : Regexp → GoString → Bool) (excludes : List Regexp)
    (newSitemap : Sitemap) (l : List URLEntry) (st : Counters) :
    let r := l.foldl (checkEntry MatchString excludes (sitemapToURLMap newSitemap)) st
    r.urlsChecked = st.urlsChecked + l.length ∧
    r.excluded = st.excluded +
      (l.filter (fun e => anyMatch MatchString excludes e.Loc)).length ∧
    r.missing = st.missing +
      (l.filter (isMissing MatchString excludes newSitemap)).length ∧
    (∀ k, k ∈ r.missingURLsMap.keys ↔ k ∈ st.missingURLsMap.keys ∨
      k ∈ (l.filter (isMissing MatchString excludes newSitemap)).map URLEntry.Loc) ∧
    (st.missingURLsMap.keys.Nodup → r.missingURLsMap.keys.Nodup) := by
  induction l generalizing st with
  | nil => simp
  | cons e rest ih =>
    simp only [List.foldl_cons]
    have h := ih (checkEntry MatchString excludes (sitemapToURLMap newSitemap) st e)
    simp only [checkEntry_eq] at h ⊢
    obtain ⟨h1, h2, h3, h4, h5⟩ := h
    refine ⟨?_, ?_, ?_, ?_, ?_⟩
    · rw [h1]; simp; omega
    · rw [h2]
      cases hm : anyMatch MatchString excludes e.Loc
      · simp [List.filter_cons, hm]
      · simp [List.filter_cons, hm]; omega
    · rw [h3]
      cases hm : isMissing MatchString excludes newSitemap e
      · simp [List.filter_cons, hm]
      · simp [List.filter_cons, hm]; omega
    · intro k
      rw [h4]
      cases hm : isMissing MatchString excludes newSitemap e
      · simp [List.filter_cons, hm]
      · simp only [if_true, List.filter_cons, hm, List.map_cons, List.mem_cons,
          URLMap.mem_set]
        tauto
    · intro hnd
      apply h5
      cases hm : isMissing MatchString excludes newSitemap e
      · simpa using hnd
      · simpa using URLMap.nodup_set _ _ hnd

theorem compare_eq (MatchString : Regexp → GoString → Bool) (excludes : List Regexp)
    (originalSitemap newSitemap : Sitemap) :
    let r := compare MatchString excludes originalSitemap newSitemap
    r.urlsChecked = originalSitemap.URLs.length ∧
    r.excluded =
      (originalSitemap.URLs.filter (fun e => anyMatch MatchString excludes e.Loc)).length ∧
    r.missing =
      (originalSitemap.URLs.filter (isMissing MatchString excludes newSitemap)).length ∧
    (∀ k, k ∈ r.missingURLsMap.keys ↔
      k ∈ (originalSitemap.URLs.filter
        (isMissing MatchString excludes newSitemap)).map URLEntry.Loc) ∧
    r.missingURLsMap.keys.Nodup := by
  have h := foldl_checkEntry MatchString excludes newSitemap originalSitemap.URLs
    { missingURLsMap := URLMap.empty, excluded := 0, missing := 0, urlsChecked := 0 }
  simp only [URLMap.empty, Nat.zero_add, List.not_mem_nil, false_or, List.nodup_nil,
    true_implies] at h
  exact h

theorem filter_disjoint_length {α : Type} (p q : α → Bool) (l : List α)
    (h : ∀ a, p a = true → q a = false) :
    (l.filter p).length + (l.filter q).length ≤ l.length := by
  induction l with
  | nil => simp
  | cons a rest ih =>
    cases hp : p a
    · cases hq : q a <;> simp [List.filter_cons, hp, hq] <;> omega
    · have hq := h a hp
      simp [List.filter_cons, hp, hq]; omega

theorem isMissing_not_anyMatch (MatchString : Regexp → GoString → Bool)
    (excludes : List Regexp) (newSitemap : Sitemap) (e : URLEntry)
    (h : isMissing MatchString excludes newSitemap e = true) :
    anyMatch MatchString excludes e.Loc = false := by
  unfold isMissing at h
  cases hm : anyMatch MatchString excludes e.Loc
  · rfl
  · simp [hm] at h

/-- C1. A URL string is a key of the missing map exactly when it occurs in the
source list, no exclusion rule matches it, and the lookup in the map built by
`sitemapToURLMap` from the new list fails; the keys of that map are exactly
the `Loc` strings of the new list. -/
theorem compare_missing_iff (MatchString : Regexp → GoString → Bool)
    (excludes : List Regexp) (originalSitemap newSitemap : Sitemap) (u : GoString) :
    (u ∈ (compare MatchString excludes originalSitemap newSitemap).missingURLsMap.keys ↔
      (u ∈ originalSitemap.URLs.map URLEntry.Loc ∧
        (∀ re ∈ excludes, MatchString re u = false) ∧
        (sitemapToURLMap newSitemap).has u = false)) ∧
    ((sitemapToURLMap newSitemap).has u = true ↔
      u ∈ newSitemap.URLs.map URLEntry.Loc) := by
  have hhas : (sitemapToURLMap newSitemap).has u = true ↔
      u ∈ newSitemap.URLs.map URLEntry.Loc := by
    unfold URLMap.has
    rw [decide_eq_true_iff]
    exact sitemapToURLMap_keys newSitemap u
  refine ⟨?_, hhas⟩
  have hkeys := (compare_eq MatchString excludes originalSitemap newSitemap).2.2.2.1 u
  rw [hkeys]
  have hhas' : (sitemapToURLMap newSitemap).has u = false ↔
      u ∉ newSitemap.URLs.map URLEntry.Loc := by
    rw [← hhas]; simp
  rw [hhas']
  simp only [List.mem_map, List.mem_filter]
  constructor
  · rintro ⟨e, ⟨he, hm⟩, rfl⟩
    refine ⟨⟨e, he, rfl⟩, ?_, ?_⟩
    · intro re hre
      have := isMissing_not_anyMatch MatchString excludes newSitemap e hm
      unfold anyMatch at this
      rw [List.any_eq_false] at this
      simpa using this re hre
    · unfold isMissing at hm
      simp only [Bool.and_eq_true, Bool.not_eq_true', decide_eq_false_iff_not] at hm
      simpa [List.mem_map] using hm.2
  · rintro ⟨⟨e, he, rfl⟩, hex, hnew⟩
    refine ⟨e, ⟨he, ?_⟩, rfl⟩
    unfold isMissing anyMatch
    simp only [Bool.and_eq_true, Bool.not_eq_true', decide_eq_false_iff_not]
    refine ⟨?_, by simpa [List.mem_map] using hnew⟩
    rw [List.any_eq_false]
    intro re hre
    simpa using hex re hre

/-- C2. Every occurrence of a source URL adds one to `urlsChecked`; an
occurrence matched by at least one rule adds exactly one to `excluded` and
leaves the missing counter and the missing map untouched, whatever the new
list holds; an occurrence matched by no rule leaves `excluded` untouched.  In
total `urlsChecked` is the length of the source list, `excluded` the number of
matched occurrences, no key of the missing map is matched by a rule, and
`missing + excluded ≤ urlsChecked`.  For source `[/a, /tags/x]`, an empty
new list and the rule `/tags/` the result is checked 2, excluded 1,
missing 1. -/
theorem compare_exclusion_dominates (MatchString : Regexp → GoString → Bool)
    (excludes : List Regexp) (originalSitemap newSitemap : Sitemap) :
    (∀ (st : Counters) (entry : URLEntry),
      checkEntry MatchString excludes (sitemapToURLMap newSitemap) st entry =
        if anyMatch MatchString excludes entry.Loc then
          { st with urlsChecked := st.urlsChecked + 1, excluded := st.excluded + 1 }
        else if (sitemapToURLMap newSitemap).has entry.Loc then
          { st with urlsChecked := st.urlsChecked + 1 }
        else
          { st with urlsChecked := st.urlsChecked + 1, missing := st.missing + 1,
                    missingURLsMap := st.missingURLsMap.set entry.Loc }) ∧
    (compare MatchString excludes originalSitemap newSitemap).urlsChecked =
      originalSitemap.URLs.length ∧
    (compare MatchString excludes originalSitemap newSitemap).excluded =
      (originalSitemap.URLs.filter
        (fun e => anyMatch MatchString excludes e.Loc)).length ∧
    (compare MatchString excludes originalSitemap newSitemap).missingURLsMap.keys.all
      (fun u => !anyMatch MatchString excludes u) = true ∧
    (compare MatchString excludes originalSitemap newSitemap).missing +
      (compare MatchString excludes originalSitemap newSitemap).excluded ≤
      (compare MatchString excludes originalSitemap newSitemap).urlsChecked ∧
    compare literalMatch [⟨bytes "/tags/"⟩]
      ⟨[⟨bytes "/a"⟩, ⟨bytes "/tags/x"⟩]⟩ ⟨[]⟩ =
      { missingURLsMap := ⟨[bytes "/a"]⟩, excluded := 1, missing := 1, urlsChecked := 2 } := by
  obtain ⟨h1, h2, h3, h4, _⟩ := compare_eq MatchString excludes originalSitemap newSitemap
  refine ⟨?_, h1, h2, ?_, ?_, by decide⟩
  · intro st entry
    unfold checkEntry
    simp only [excludeLoop_eq]
    cases anyMatch MatchString excludes entry.Loc <;>
      cases (sitemapToURLMap newSitemap).has entry.Loc <;> simp
  · rw [List.all_eq_true]
    intro u hu
    rw [h4] at hu
    simp only [List.mem_map, List.mem_filter] at hu
    obtain ⟨e, ⟨_, hm⟩, rfl⟩ := hu
    simp [isMissing_not_anyMatch MatchString excludes newSitemap e hm]
  · rw [h1, h2, h3]
    exact filter_disjoint_length _ _ _
      (fun e he => isMissing_not_anyMatch MatchString excludes newSitemap e he)

/-- C3 (as stated, refuted). For source `[/a, /a]`, an empty new list and no
rules the code checks 2 occurrences and keeps the single key `/a`, but the
missing counter is 2, not 1: it differs from the size of the missing map. -/
theorem compare_duplicate_count_differs :
    (compare literalMatch [] ⟨[⟨bytes "/a"⟩, ⟨bytes "/a"⟩]⟩ ⟨[]⟩).urlsChecked = 2 ∧
    (compare literalMatch [] ⟨[⟨bytes "/a"⟩, ⟨bytes "/a"⟩]⟩ ⟨[]⟩).missingURLsMap =
      ⟨[bytes "/a"]⟩ ∧
    (compare literalMatch [] ⟨[⟨bytes "/a"⟩, ⟨bytes "/a"⟩]⟩ ⟨[]⟩).missing = 2 ∧
    (compare literalMatch [] ⟨[⟨bytes "/a"⟩, ⟨bytes "/a"⟩]⟩ ⟨[]⟩).missing ≠
      (compare literalMatch [] ⟨[⟨bytes "/a"⟩, ⟨bytes "/a"⟩]⟩ ⟨[]⟩).missingURLsMap.len := by
  decide

/-- C3 (amended). A source URL listed several times is checked once per
occurrence and counted as missing once per occurrence, while the missing map
holds it once: `urlsChecked` is the length of the source list, `missing` is
the number of occurrences that no rule matches and that are absent from the
new list, the size of the missing map is the number of distinct URLs among
those occurrences, hence at most `missing`.  For source `[/a, /a]`, an empty
new list and no rules: checked 2, missing map `{/a}`, missing count 2. -/
theorem compare_duplicates (MatchString : Regexp → GoString → Bool)
    (excludes : List Regexp) (originalSitemap newSitemap : Sitemap) :
    (compare MatchString excludes originalSitemap newSitemap).urlsChecked =
      originalSitemap.URLs.length ∧
    (compare MatchString excludes originalSitemap newSitemap).missing =
      (originalSitemap.URLs.filter
        (isMissing MatchString excludes newSitemap)).length ∧
    (compare MatchString excludes originalSitemap newSitemap).missingURLsMap.len =
      ((originalSitemap.URLs.filter
        (isMissing MatchString excludes newSitemap)).map URLEntry.Loc).dedup.length ∧
    (compare MatchString excludes originalSitemap newSitemap).missingURLsMap.len ≤
      (compare MatchString excludes originalSitemap newSitemap).missing ∧
    compare literalMatch [] ⟨[⟨bytes "/a"⟩, ⟨bytes "/a"⟩]⟩ ⟨[]⟩ =
      { missingURLsMap := ⟨[bytes "/a"]⟩, excluded := 0, missing := 2, urlsChecked := 2 } := by
  obtain ⟨h1, _, h3, h4, h5⟩ := compare_eq MatchString excludes originalSitemap newSitemap
  have hlen : (compare MatchString excludes originalSitemap newSitemap).missingURLsMap.len =
      ((originalSitemap.URLs.filter
        (isMissing MatchString excludes newSitemap)).map URLEntry.Loc).dedup.length := by
    unfold URLMap.len
    apply List.Perm.length_eq
    rw [List.perm_ext_iff_of_nodup h5 (List.nodup_dedup _)]
    intro k
    rw [h4 k, List.mem_dedup]
  refine ⟨h1, h3, hlen, ?_, by decide⟩
  rw [hlen, h3]
  calc _ ≤ ((originalSitemap.URLs.filter
        (isMissing MatchString excludes newSitemap)).map URLEntry.Loc).length :=
        (List.dedup_sublist _).length_le
    _ = _ := by simp

/-! ## Theorems: the sitemap resolver -/

theorem mergeLoop_mono (w : World) (newBaseURL : GoString)
    (f g : GoString → Option Returned)
    (hfg : ∀ content r, f content = some r → g content = some r)
    (entries : List URLEntry) (merged : Sitemap) (r : Returned)
    (h : mergeLoop w newBaseURL f entries merged = some r) :
    mergeLoop w newBaseURL g entries merged = some r := by
  induction entries generalizing merged with
  | nil => simpa [mergeLoop] using h
  | cons e rest ih =>
    unfold mergeLoop at h ⊢
    rcases hre : replaceURL e.Loc newBaseURL with ⟨newUrl, _ | err⟩
    · rw [hre] at h
      simp only at h ⊢
      cases hfetch : readRemoteFile w newUrl with
      | error err => rw [hfetch] at h; simpa using h
      | ok content =>
        rw [hfetch] at h
        simp only at h ⊢
        cases hf : f content with
        | none => rw [hf] at h; simp at h
        | some rf =>
          rw [hf] at h
          rw [hfg content rf hf]
          rcases rf with ⟨_ | s, _ | err⟩
          · simp at h
          · simpa using h
          · simp only at h ⊢
            exact ih _ h
          · simpa using h
    · rw [hre] at h
      simpa using h

theorem readSitemap_succ (w : World) (fuel : Nat) (data newBaseURL : GoString) (r : Returned)
    (h : readSitemap w fuel data newBaseURL = some r) :
    readSitemap w (fuel + 1) data newBaseURL = some r := by
  induction fuel generalizing data r with
  | zero => simp [readSitemap] at h
  | succ n ih =>
    unfold readSitemap at h ⊢
    split
    · rename_i hm
      rw [if_pos hm] at h
      rcases hidx : w.unmarshalSitemapIndex data with ⟨idx, _ | err⟩
      · rw [hidx] at h
        simp only at h ⊢
        exact mergeLoop_mono w newBaseURL _ _ (fun c r hc => ih c r hc) _ _ _ h
      · rw [hidx] at h
        simpa using h
    · rename_i hm
      rw [if_neg hm] at h
      exact h

theorem readSitemap_mono (w : World) (n m : Nat) (hnm : n ≤ m)
    (data newBaseURL : GoString) (r : Returned)
    (h : readSitemap w n data newBaseURL = some r) :
    readSitemap w m data newBaseURL = some r := by
  induction hnm with
  | refl => exact h
  | step _ ih => exact readSitemap_succ w _ data newBaseURL r ih

theorem returns_of_eq (w : World) (n : Nat) (data newBaseURL : GoString) (r : Returned)
    (h : readSitemap w n data newBaseURL = some r) : Returns w data newBaseURL r :=
  ⟨n, fun m hm => readSitemap_mono w n m hm data newBaseURL r h⟩

theorem returns_unique (w : World) (data newBaseURL : GoString) (r r' : Returned)
    (h : Returns w data newBaseURL r) (h' : Returns w data newBaseURL r') : r = r' := by
  obtain ⟨n, hn⟩ := h
  obtain ⟨m, hm⟩ := h'
  have h1 := hn (max n m) (le_max_left n m)
  have h2 := hm (max n m) (le_max_right n m)
  rw [h1] at h2
  exact Option.some.inj h2

theorem mergeLoop_shape (w : World) (newBaseURL : GoString)
    (f : GoString → Option Returned) (entries : List URLEntry) (merged : Sitemap)
    (r : Returned) (h : mergeLoop w newBaseURL f entries merged = some r) :
    (∃ s, r = (some s, none)) ∨ (∃ err, r = (none, some err)) := by
  induction entries generalizing merged with
  | nil =>
    simp only [mergeLoop, Option.some.injEq] at h
    exact Or.inl ⟨merged, h.symm⟩
  | cons e rest ih =>
    unfold mergeLoop at h
    rcases hre : replaceURL e.Loc newBaseURL with ⟨newUrl, _ | err⟩
    · rw [hre] at h
      simp only at h
      cases hfetch : readRemoteFile w newUrl with
      | error err =>
        rw [hfetch] at h
        simp only [Option.some.injEq] at h
        exact Or.inr ⟨err, h.symm⟩
      | ok content =>
        rw [hfetch] at h
        simp only at h
        cases hf : f content with
        | none => rw [hf] at h; simp at h
        | some rf =>
          rw [hf] at h
          rcases rf with ⟨_ | s, _ | err⟩
          · simp at h
          · simp only [Option.some.injEq] at h
            exact Or.inr ⟨err, h.symm⟩
          · exact ih _ h
          · simp only [Option.some.injEq] at h
            exact Or.inr ⟨err, h.symm⟩
    · rw [hre] at h
      simp only [Option.some.injEq] at h
      exact Or.inr ⟨err, h.symm⟩

theorem readSitemap_ne_nil_nil (w : World) (fuel : Nat) (data newBaseURL : GoString) :
    readSitemap w fuel data newBaseURL ≠ some (none, none) := by
  intro h
  cases fuel with
  | zero => simp [readSitemap] at h
  | succ n =>
    unfold readSitemap at h
    split at h
    · rcases hidx : w.unmarshalSitemapIndex data with ⟨idx, _ | err⟩
      · rw [hidx] at h
        simp only at h
        rcases mergeLoop_shape w newBaseURL _ _ _ _ h with ⟨s, hs⟩ | ⟨err, herr⟩
        · simp at hs
        · simp at herr
      · rw [hidx] at h
        simp at h
    · simp at h

/-- The loop succeeds when every entry is rewritten, fetched and resolved
by `f` without error: the result is `merged` followed by the resolved
lists in order. -/
theorem mergeLoop_ok (w : World) (newBaseURL : GoString)
    (f : GoString → Option Returned) (entries : List URLEntry) (subs : List Sitemap)
    (h : List.Forall₂ (fun e s => ∃ content,
      replaceURL e.Loc newBaseURL = ((replaceURL e.Loc newBaseURL).1, none) ∧
      readRemoteFile w (replaceURL e.Loc newBaseURL).1 = .ok content ∧
      f content = some (some s, none)) entries subs)
    (merged : Sitemap) :
    mergeLoop w newBaseURL f entries merged =
      some (some ⟨merged.URLs ++ (subs.map Sitemap.URLs).flatten⟩, none) := by
  induction h generalizing merged with
  | nil => simp [mergeLoop]
  | cons hes _ ih =>
    obtain ⟨content, hre, hfetch, hf⟩ := hes
    unfold mergeLoop
    rw [hre]
    simp only
    rw [hfetch]
    simp only
    rw [hf]
    simp only
    rw [ih]
    simp

/-- The loop fails with the error of the first failing entry. -/
theorem mergeLoop_fail (w : World) (newBaseURL : GoString)
    (f : GoString → Option Returned) (pre : List URLEntry) (done : List Sitemap)
    (e : URLEntry) (post : List URLEntry) (err : Error)
    (hpre : List.Forall₂ (fun e s => ∃ content,
      replaceURL e.Loc newBaseURL = ((replaceURL e.Loc newBaseURL).1, none) ∧
      readRemoteFile w (replaceURL e.Loc newBaseURL).1 = .ok content ∧
      f content = some (some s, none)) pre done)
    (hfail : (replaceURL e.Loc newBaseURL).2 = some err ∨
      ((replaceURL e.Loc newBaseURL).2 = none ∧
        readRemoteFile w (replaceURL e.Loc newBaseURL).1 = .error err) ∨
      ((replaceURL e.Loc newBaseURL).2 = none ∧
        ∃ content s, readRemoteFile w (replaceURL e.Loc newBaseURL).1 = .ok content ∧
          f content = some (s, some err)))
    (merged : Sitemap) :
    mergeLoop w newBaseURL f (pre ++ e :: post) merged = some (none, some err) := by
  induction hpre generalizing merged with
  | nil =>
    simp only [List.nil_append]
    unfold mergeLoop
    rcases hre : replaceURL e.Loc newBaseURL with ⟨newUrl, _ | err'⟩
    · rw [hre] at hfail
      simp only at hfail ⊢
      rcases hfail with h | ⟨_, h⟩ | ⟨_, content, s, h, hf⟩
      · simp at h
      · rw [h]
      · rw [h]
        simp only
        rw [hf]
        cases s <;> rfl
    · rw [hre] at hfail
      simp only at hfail ⊢
      rcases hfail with h | ⟨h, _⟩ | ⟨h, _⟩
      · simp only [Option.some.injEq] at h
        rw [h]
      · simp at h
      · simp at h
  | cons hes _ ih =>
    obtain ⟨content, hre, hfetch, hf⟩ := hes
    simp only [List.cons_append]
    unfold mergeLoop
    rw [hre]
    simp only
    rw [hfetch]
    simp only
    rw [hf]
    simp only
    exact ih _

theorem forall₂_entryResolves_bound (w : World) (newBaseURL : GoString)
    (entries : List URLEntry) (subs : List Sitemap)
    (h : List.Forall₂ (EntryResolves w newBaseURL) entries subs) :
    ∃ n, ∀ fuel, n ≤ fuel → List.Forall₂ (fun e s => ∃ content,
      (replaceURL e.Loc newBaseURL).2 = none ∧
      readRemoteFile w (replaceURL e.Loc newBaseURL).1 = .ok content ∧
      readSitemap w fuel content newBaseURL = some (some s, none)) entries subs := by
  induction h with
  | nil => exact ⟨0, fun _ _ => List.Forall₂.nil⟩
  | cons hes _ ih =>
    obtain ⟨content, hre, hfetch, n, hn⟩ := hes
    obtain ⟨m, hm⟩ := ih
    refine ⟨max n m, fun fuel hfuel => List.Forall₂.cons ?_ (hm fuel (le_of_max_le_right hfuel))⟩
    exact ⟨content, hre, hfetch, hn fuel (le_of_max_le_left hfuel)⟩

theorem Reaches.head (w : World) (newBaseURL data content doc : GoString)
    (h : Calls w newBaseURL data content) (hr : Reaches w newBaseURL content doc) :
    Reaches w newBaseURL data doc := by
  induction hr with
  | self => exact Reaches.call Reaches.self h
  | call _ hc ih => exact Reaches.call ih hc

theorem forall₂_snoc {α β : Type} (R : α → β → Prop) (l : List α) (m : List β) (a : α) (b : β)
    (h : List.Forall₂ R l m) (hab : R a b) : List.Forall₂ R (l ++ [a]) (m ++ [b]) := by
  induction h with
  | nil => exact List.Forall₂.cons hab List.Forall₂.nil
  | cons h1 _ ih => exact List.Forall₂.cons h1 ih

/-- The loop returns when every recursive call it makes returns. -/
theorem mergeLoop_isSome_of_calls (w : World) (newBaseURL data : GoString) (n : Nat)
    (sitemapIndex : SitemapIndex)
    (hmark : contains data (bytes "<sitemapindex") = true)
    (hparse : w.unmarshalSitemapIndex data = (sitemapIndex, none))
    (hcalls : ∀ content, Calls w newBaseURL data content →
      ∃ r, readSitemap w n content newBaseURL = some r)
    (entries pre : List URLEntry) (done : List Sitemap) (merged : Sitemap)
    (hsplit : sitemapIndex.Sitemaps = pre ++ entries)
    (hpre : List.Forall₂ (EntryResolves w newBaseURL) pre done) :
    ∃ r, mergeLoop w newBaseURL (fun content => readSitemap w n content newBaseURL)
      entries merged = some r := by
  induction entries generalizing pre done merged with
  | nil => exact ⟨_, rfl⟩
  | cons e rest ih =>
    unfold mergeLoop
    rcases hre : replaceURL e.Loc newBaseURL with ⟨newUrl, _ | err⟩
    · simp only
      cases hfetch : readRemoteFile w newUrl with
      | error err => exact ⟨_, rfl⟩
      | ok content =>
        simp only
        have hre2 : (replaceURL e.Loc newBaseURL).2 = none := by rw [hre]
        have hfetch2 : readRemoteFile w (replaceURL e.Loc newBaseURL).1 = .ok content := by
          rw [hre]; exact hfetch
        have hcall : Calls w newBaseURL data content :=
          ⟨hmark, sitemapIndex, pre, e, rest, done, hparse, hsplit, hpre, hre2, hfetch2⟩
        obtain ⟨r, hr⟩ := hcalls content hcall
        rw [hr]
        rcases r with ⟨_ | s, _ | err⟩
        · exact absurd hr (readSitemap_ne_nil_nil w n content newBaseURL)
        · exact ⟨_, rfl⟩
        · simp only
          have hres : EntryResolves w newBaseURL e s :=
            ⟨content, hre2, hfetch2, returns_of_eq w n _ _ _ hr⟩
          exact ih (pre ++ [e]) (done ++ [s]) _ (by rw [hsplit]; simp)
            (forall₂_snoc _ _ _ _ _ hpre hres)
        · exact ⟨_, rfl⟩
    · exact ⟨_, rfl⟩

/-- With a rank that decreases along the recursive calls made from the
documents reached from `data`, the call on a reached document of rank below
`n` returns within depth `n`. -/
theorem readSitemap_isSome_of_call_rank (w : World) (newBaseURL data : GoString)
    (rank : GoString → Nat)
    (hrank : ∀ d c, Reaches w newBaseURL data d → Calls w newBaseURL d c → rank c < rank d)
    (n : Nat) (d : GoString) (hd : Reaches w newBaseURL data d) (hn : rank d < n) :
    ∃ r, readSitemap w n d newBaseURL = some r := by
  induction n generalizing d with
  | zero => omega
  | succ m ih =>
    unfold readSitemap
    split
    · rename_i hm
      rcases hidx : w.unmarshalSitemapIndex d with ⟨idx, _ | err⟩
      · simp only
        refine mergeLoop_isSome_of_calls w newBaseURL d m idx hm hidx ?_ idx.Sitemaps [] []
          _ rfl List.Forall₂.nil
        intro content hcall
        have hlt := hrank d content hd hcall
        exact ih content (Reaches.call hd hcall) (by omega)
      · exact ⟨_, rfl⟩
    · exact ⟨_, rfl⟩

/-- A recursive call made while resolving `d` returns within the depth left
when `d` returns. -/
theorem calls_returns (w : World) (newBaseURL d c : GoString) (n : Nat) (r : Returned)
    (hcall : Calls w newBaseURL d c) (hr : readSitemap w (n + 1) d newBaseURL = some r) :
    ∃ r', readSitemap w n c newBaseURL = some r' := by
  obtain ⟨hmark, idx, pre, e, post, done, hparse, hsplit, hpre, hre, hfetch⟩ := hcall
  unfold readSitemap at hr
  rw [if_pos hmark, hparse] at hr
  simp only at hr
  rw [hsplit] at hr
  have key : ∀ (merged : Sitemap),
      mergeLoop w newBaseURL (fun content => readSitemap w n content newBaseURL)
        (pre ++ e :: post) merged = some r →
      ∃ r', readSitemap w n c newBaseURL = some r' := by
    clear hr hsplit
    induction hpre with
    | nil =>
      intro merged hm
      simp only [List.nil_append] at hm
      unfold mergeLoop at hm
      rw [show replaceURL e.Loc newBaseURL = ((replaceURL e.Loc newBaseURL).1, none) from
        Prod.ext rfl hre] at hm
      simp only at hm
      rw [hfetch] at hm
      simp only at hm
      cases hc : readSitemap w n c newBaseURL with
      | none => rw [hc] at hm; simp at hm
      | some r' => exact ⟨r', rfl⟩
    | @cons x s rest done' hx _ ih =>
      intro merged hm
      obtain ⟨content, hxre, hxfetch, hxret⟩ := hx
      simp only [List.cons_append] at hm
      unfold mergeLoop at hm
      rw [show replaceURL x.Loc newBaseURL = ((replaceURL x.Loc newBaseURL).1, none) from
        Prod.ext rfl hxre] at hm
      simp only at hm
      rw [hxfetch] at hm
      simp only at hm
      cases hc : readSitemap w n content newBaseURL with
      | none => rw [hc] at hm; simp at hm
      | some rx =>
        have hu := returns_unique w _ _ _ _ (returns_of_eq w n _ _ _ hc) hxret
        rw [hc, hu] at hm
        simp only at hm
        exact ih _ hm
  exact key _ hr

/-- Every URL of a returned sitemap is a URL entry read from a simple
sitemap document (one without the index marker) that is reached from the
input. -/
theorem readSitemap_from_reached_leaves (w : World) (fuel : Nat) (data newBaseURL : GoString)
    (s : Sitemap) (err : Option Error)
    (h : readSitemap w fuel data newBaseURL = some (some s, err)) :
    ∀ e ∈ s.URLs, ∃ doc, Reaches w newBaseURL data doc ∧
      contains doc (bytes "<sitemapindex") = false ∧
      e ∈ (w.unmarshalSitemap doc).1.URLs := by
  induction fuel generalizing data s err with
  | zero => simp [readSitemap] at h
  | succ n ih =>
    unfold readSitemap at h
    split at h
    · rename_i hmark
      rcases hidx : w.unmarshalSitemapIndex data with ⟨idx, _ | err'⟩
      · rw [hidx] at h
        simp only at h
        have key : ∀ (entries pre : List URLEntry) (done : List Sitemap) (merged : Sitemap)
            (s : Sitemap) (err : Option Error),
            idx.Sitemaps = pre ++ entries →
            List.Forall₂ (EntryResolves w newBaseURL) pre done →
            (∀ e ∈ merged.URLs, ∃ doc, Reaches w newBaseURL data doc ∧
              contains doc (bytes "<sitemapindex") = false ∧
              e ∈ (w.unmarshalSitemap doc).1.URLs) →
            mergeLoop w newBaseURL (fun content => readSitemap w n content newBaseURL)
              entries merged = some (some s, err) →
            ∀ e ∈ s.URLs, ∃ doc, Reaches w newBaseURL data doc ∧
              contains doc (bytes "<sitemapindex") = false ∧
              e ∈ (w.unmarshalSitemap doc).1.URLs := by
          intro entries
          induction entries with
          | nil =>
            intro pre done merged s err _ _ hm hl
            simp only [mergeLoop, Option.some.injEq, Prod.mk.injEq] at hl
            rw [← hl.1]
            exact hm
          | cons x rest ihl =>
            intro pre done merged s err hsplit hpre hm hl
            unfold mergeLoop at hl
            rcases hre : replaceURL x.Loc newBaseURL with ⟨newUrl, _ | err''⟩
            · rw [hre] at hl
              simp only at hl
              cases hfetch : readRemoteFile w newUrl with
              | error e' => rw [hfetch] at hl; simp at hl
              | ok content =>
                rw [hfetch] at hl
                simp only at hl
                have hre2 : (replaceURL x.Loc newBaseURL).2 = none := by rw [hre]
                have hfetch2 : readRemoteFile w (replaceURL x.Loc newBaseURL).1 =
                    .ok content := by rw [hre]; exact hfetch
                have hcall : Calls w newBaseURL data content :=
                  ⟨hmark, idx, pre, x, rest, done, hidx, hsplit, hpre, hre2, hfetch2⟩
                cases hf : readSitemap w n content newBaseURL with
                | none => rw [hf] at hl; simp at hl
                | some rf =>
                  rw [hf] at hl
                  rcases rf with ⟨_ | s', _ | e'⟩
                  · simp at hl
                  · simp at hl
                  · simp only at hl
                    have hres : EntryResolves w newBaseURL x s' :=
                      ⟨content, hre2, hfetch2, returns_of_eq w n _ _ _ hf⟩
                    refine ihl (pre ++ [x]) (done ++ [s']) _ s err (by rw [hsplit]; simp)
                      (forall₂_snoc _ _ _ _ _ hpre hres) ?_ hl
                    intro e he
                    simp only [List.mem_append] at he
                    rcases he with he | he
                    · exact hm e he
                    · obtain ⟨doc, hdoc, hleaf, hmem⟩ := ih content s' none hf e he
                      exact ⟨doc, Reaches.head w newBaseURL data content doc hcall hdoc,
                        hleaf, hmem⟩
                  · simp at hl
            · rw [hre] at hl
              simp at hl
        exact key idx.Sitemaps [] [] ⟨[]⟩ s err rfl List.Forall₂.nil (by simp) h
      · rw [hidx] at h
        simp at h
    · rename_i hm
      simp only [Option.some.injEq, Prod.mk.injEq] at h
      intro e he
      refine ⟨data, Reaches.self, by simpa using hm, ?_⟩
      rw [h.1]
      exact he

/-- Every document reached from an input on which the call returns is one on
which the call returns. -/
theorem reaches_returns (w : World) (newBaseURL data d : GoString)
    (h : ∃ n, (readSitemap w n data newBaseURL).isSome = true)
    (hd : Reaches w newBaseURL data d) :
    ∃ n, (readSitemap w n d newBaseURL).isSome = true := by
  induction hd with
  | self => exact h
  | @call content doc _ hc ih =>
    obtain ⟨n, hn⟩ := ih
    cases n with
    | zero => simp [readSitemap] at hn
    | succ m =>
      obtain ⟨r, hr⟩ := Option.isSome_iff_exists.mp hn
      obtain ⟨r', hr'⟩ := calls_returns w newBaseURL content doc m r hc hr
      exact ⟨m, by rw [hr']; rfl⟩

theorem forall₂_ok_of_fuel (w : World) (newBaseURL : GoString) (fuel : Nat)
    (entries : List URLEntry) (subs : List Sitemap)
    (h : List.Forall₂ (fun e s => ∃ content,
      (replaceURL e.Loc newBaseURL).2 = none ∧
      readRemoteFile w (replaceURL e.Loc newBaseURL).1 = .ok content ∧
      readSitemap w fuel content newBaseURL = some (some s, none)) entries subs) :
    List.Forall₂ (fun e s => ∃ content,
      replaceURL e.Loc newBaseURL = ((replaceURL e.Loc newBaseURL).1, none) ∧
      readRemoteFile w (replaceURL e.Loc newBaseURL).1 = .ok content ∧
      (fun content => readSitemap w fuel content newBaseURL) content = some (some s, none))
      entries subs := by
  induction h with
  | nil => exact List.Forall₂.nil
  | cons hes _ ih =>
    obtain ⟨content, hre, hfetch, hf⟩ := hes
    exact List.Forall₂.cons ⟨content, Prod.ext rfl hre, hfetch, hf⟩ ih

/-- C6. For a document holding the marker `<sitemapindex` that decodes to the
entries `l1..ln`: when the rewrite of every `li` with the base succeeds, the
fetch of the rewritten URL succeeds, and the recursive call on the fetched
bytes with the same base returns the sitemap `si` without error, the call
returns, without error, the concatenation of the URL lists of `s1..sn` in
index order, each list in its own order, and returns nothing else. -/
theorem readSitemap_index_flattens (w : World) (data newBaseURL : GoString)
    (sitemapIndex : SitemapIndex) (subs : List Sitemap)
    (hmark : contains data (bytes "<sitemapindex") = true)
    (hparse : w.unmarshalSitemapIndex data = (sitemapIndex, none))
    (hsubs : List.Forall₂ (EntryResolves w newBaseURL) sitemapIndex.Sitemaps subs) :
    Returns w data newBaseURL (some ⟨(subs.map Sitemap.URLs).flatten⟩, none) ∧
    ∀ r, Returns w data newBaseURL r →
      r = (some ⟨(subs.map Sitemap.URLs).flatten⟩, none) := by
  have hret : Returns w data newBaseURL (some ⟨(subs.map Sitemap.URLs).flatten⟩, none) := by
    obtain ⟨n, hn⟩ := forall₂_entryResolves_bound w newBaseURL _ _ hsubs
    refine ⟨n + 1, fun fuel hfuel => ?_⟩
    obtain ⟨k, rfl⟩ : ∃ k, fuel = k + 1 := ⟨fuel - 1, by omega⟩
    unfold readSitemap
    rw [if_pos hmark, hparse]
    simp only
    rw [mergeLoop_ok w newBaseURL _ _ subs
      (forall₂_ok_of_fuel w newBaseURL k _ _ (hn k (by omega)))]
    simp
  exact ⟨hret, fun r hr => returns_unique w data newBaseURL _ _ hr hret⟩

/-- C6, on the example web: the index at `staging.example`, resolved with the
base `https://prod.example/`, yields the two lists fetched from
`prod.example`, in index order. -/
theorem readSitemap_index_flattens_witness :
    contains pageStaging.body (bytes "<sitemapindex") = true ∧
    replaceURL (bytes "https://staging.example/sub.xml") (bytes "https://prod.example/") =
      (pageProdSub.url, none) ∧
    Returns exampleWeb pageStaging.body (bytes "https://prod.example/")
      (some ⟨[⟨bytes "/p"⟩, ⟨bytes "/q"⟩, ⟨bytes "/r"⟩]⟩, none) :=
  ⟨by decide, by decide,
    (readSitemap_index_flattens exampleWeb pageStaging.body (bytes "https://prod.example/")
      ⟨[⟨bytes "https://staging.example/sub.xml"⟩, ⟨bytes "https://staging.example/sub2.xml"⟩]⟩
      [⟨[⟨bytes "/p"⟩, ⟨bytes "/q"⟩]⟩, ⟨[⟨bytes "/r"⟩]⟩]
      (by decide) (by decide)
      (List.Forall₂.cons
        ⟨pageProdSub.body, by decide, by decide,
          returns_of_eq exampleWeb 1 _ _ _ (by decide)⟩
        (List.Forall₂.cons
          ⟨pageProdSub2.body, by decide, by decide,
            returns_of_eq exampleWeb 1 _ _ _ (by decide)⟩
          List.Forall₂.nil))).1⟩

/-- For a document holding the marker `<sitemapindex` that decodes to the
entries `pre ++ e :: post`: when every entry of `pre` resolves without error
and the rewrite, the fetch or the recursive call of `e` fails with `err`, the
call returns the nil sitemap together with `err`, and nothing else. -/
theorem readSitemap_index_error_after_resolved (w : World) (data newBaseURL : GoString)
    (sitemapIndex : SitemapIndex) (pre : List URLEntry) (done : List Sitemap)
    (e : URLEntry) (post : List URLEntry) (err : Error)
    (hmark : contains data (bytes "<sitemapindex") = true)
    (hparse : w.unmarshalSitemapIndex data = (sitemapIndex, none))
    (hentries : sitemapIndex.Sitemaps = pre ++ e :: post)
    (hpre : List.Forall₂ (EntryResolves w newBaseURL) pre done)
    (hfail : EntryFails w newBaseURL e err) :
    Returns w data newBaseURL (none, some err) ∧
    ∀ r, Returns w data newBaseURL r → r = (none, some err) := by
  suffices hret : Returns w data newBaseURL (none, some err) from
    ⟨hret, fun r hr => returns_unique w data newBaseURL _ _ hr hret⟩
  obtain ⟨n, hn⟩ := forall₂_entryResolves_bound w newBaseURL _ _ hpre
  have hfail' : ∃ m, ∀ fuel, m ≤ fuel →
      ((replaceURL e.Loc newBaseURL).2 = some err ∨
      ((replaceURL e.Loc newBaseURL).2 = none ∧
        readRemoteFile w (replaceURL e.Loc newBaseURL).1 = .error err) ∨
      ((replaceURL e.Loc newBaseURL).2 = none ∧
        ∃ content s, readRemoteFile w (replaceURL e.Loc newBaseURL).1 = .ok content ∧
          (fun content => readSitemap w fuel content newBaseURL) content =
            some (s, some err))) := by
    rcases hfail with h | h | ⟨h, content, s, hfetch, m, hm⟩
    · exact ⟨0, fun _ _ => Or.inl h⟩
    · exact ⟨0, fun _ _ => Or.inr (Or.inl h)⟩
    · exact ⟨m, fun fuel hfuel => Or.inr (Or.inr ⟨h, content, s, hfetch, hm fuel hfuel⟩)⟩
  obtain ⟨m, hm⟩ := hfail'
  refine ⟨max n m + 1, fun fuel hfuel => ?_⟩
  obtain ⟨k, rfl⟩ : ∃ k, fuel = k + 1 := ⟨fuel - 1, by omega⟩
  have hk1 : n ≤ k := by have := le_max_left n m; omega
  have hk2 : m ≤ k := by have := le_max_right n m; omega
  unfold readSitemap
  rw [if_pos hmark, hparse]
  simp only
  rw [hentries]
  exact mergeLoop_fail w newBaseURL _ pre done e post err
    (forall₂_ok_of_fuel w newBaseURL k _ _ (hn k hk1)) (hm k hk2) _

theorem first_failure_exists (w : World) (newBaseURL : GoString) (pre : List URLEntry)
    (e : URLEntry) (post : List URLEntry) (err : Error)
    (hpre : ∀ x ∈ pre, (∃ s, EntryResolves w newBaseURL x s) ∨
      ∃ err', EntryFails w newBaseURL x err')
    (hfail : EntryFails w newBaseURL e err) :
    ∃ pre1 first post1 done err1, pre ++ e :: post = pre1 ++ first :: post1 ∧
      pre1.length ≤ pre.length ∧
      List.Forall₂ (EntryResolves w newBaseURL) pre1 done ∧
      EntryFails w newBaseURL first err1 := by
  induction pre with
  | nil => exact ⟨[], e, post, [], err, rfl, le_refl _, List.Forall₂.nil, hfail⟩
  | cons x rest ih =>
    rcases hpre x (List.mem_cons_self _ _) with ⟨s, hs⟩ | ⟨err', hx⟩
    · obtain ⟨pre1, first, post1, done, err1, heq, hlen, hres, hf⟩ :=
        ih (fun y hy => hpre y (List.mem_cons_of_mem _ hy))
      refine ⟨x :: pre1, first, post1, s :: done, err1, ?_, ?_, List.Forall₂.cons hs hres, hf⟩
      · simp only [List.cons_append, heq]
      · simp only [List.length_cons]; omega
    · exact ⟨[], x, rest ++ e :: post, [], err', rfl, Nat.zero_le _, List.Forall₂.nil, hx⟩

theorem entry_resolves_not_fails (w : World) (newBaseURL : GoString) (e : URLEntry)
    (s : Sitemap) (err : Error) (hs : EntryResolves w newBaseURL e s)
    (hf : EntryFails w newBaseURL e err) : False := by
  obtain ⟨content, h1, h2, h3⟩ := hs
  rcases hf with h | ⟨_, h⟩ | ⟨_, content', s', h, hr⟩
  · rw [h1] at h; exact Option.noConfusion h
  · rw [h2] at h; exact Except.noConfusion h
  · rw [h2] at h
    simp only [Except.ok.injEq] at h
    subst h
    have := returns_unique w _ _ _ _ h3 hr
    simp at this

theorem entry_fails_unique (w : World) (newBaseURL : GoString) (e : URLEntry)
    (err err' : Error) (h : EntryFails w newBaseURL e err)
    (h' : EntryFails w newBaseURL e err') : err = err' := by
  rcases h with h | ⟨h0, h⟩ | ⟨h0, c, s, h, hr⟩ <;>
    rcases h' with g | ⟨g0, g⟩ | ⟨g0, c', s', g, gr⟩
  · rw [h] at g; exact Option.some.inj g
  · rw [h] at g0; exact Option.noConfusion g0
  · rw [h] at g0; exact Option.noConfusion g0
  · rw [h0] at g; exact Option.noConfusion g
  · rw [h] at g; exact Except.error.inj g
  · rw [h] at g; exact Except.noConfusion g
  · rw [h0] at g; exact Option.noConfusion g
  · rw [h] at g; exact Except.noConfusion g
  · rw [h] at g
    simp only [Except.ok.injEq] at g
    subst g
    have := returns_unique w _ _ _ _ hr gr
    simp only [Prod.mk.injEq, Option.some.injEq] at this
    exact this.2

theorem forall₂_resolves_mem (w : World) (newBaseURL : GoString) (l : List URLEntry)
    (done : List Sitemap) (h : List.Forall₂ (EntryResolves w newBaseURL) l done)
    (x : URLEntry) (hx : x ∈ l) : ∃ s, EntryResolves w newBaseURL x s := by
  induction h with
  | nil => simp at hx
  | cons hes _ ih =>
    simp only [List.mem_cons] at hx
    rcases hx with rfl | hx
    · exact ⟨_, hes⟩
    · exact ih hx

theorem tangledWeb_loop_diverges (fuel : Nat) :
    readSitemap tangledWeb fuel pageLoop.body [] = none := by
  induction fuel with
  | zero => rfl
  | succ n ih =>
    have h1 : contains pageLoop.body (bytes "<sitemapindex") = true := by decide
    have h2 : tangledWeb.unmarshalSitemapIndex pageLoop.body =
        (⟨[⟨pageLoop.url⟩]⟩, none) := by decide
    have h3 : replaceURL pageLoop.url [] = (pageLoop.url, none) := by decide
    have h4 : readRemoteFile tangledWeb pageLoop.url = .ok pageLoop.body := by decide
    unfold readSitemap
    rw [if_pos h1, h2]
    simp only
    unfold mergeLoop
    simp only [h3, h4, ih]

set_option maxRecDepth 4000 in
/-- C7 (as stated, refuted). On the index whose first entry is the
self-referencing index and whose second entry is not served, the fetch of
the second entry fails with the status error 404, yet `readSitemap` returns
nothing at any recursion depth: it never gets past the first entry. -/
theorem readSitemap_failing_entry_not_reached :
    contains pageMixed.body (bytes "<sitemapindex") = true ∧
    tangledWeb.unmarshalSitemapIndex pageMixed.body =
      (⟨[⟨bytes "https://example.com/loop.xml"⟩, ⟨bytes "https://example.com/gone.xml"⟩]⟩,
        none) ∧
    EntryFails tangledWeb [] ⟨bytes "https://example.com/gone.xml"⟩ (.status 404) ∧
    (∀ fuel, readSitemap tangledWeb fuel pageMixed.body [] = none) ∧
    ¬ ∃ r, Returns tangledWeb pageMixed.body [] r := by
  have hall : ∀ fuel, readSitemap tangledWeb fuel pageMixed.body [] = none := by
    intro fuel
    cases fuel with
    | zero => rfl
    | succ n =>
      have h1 : contains pageMixed.body (bytes "<sitemapindex") = true := by decide
      have h2 : tangledWeb.unmarshalSitemapIndex pageMixed.body =
          (⟨[⟨pageLoop.url⟩, ⟨bytes "https://example.com/gone.xml"⟩]⟩, none) := by decide
      have h3 : replaceURL pageLoop.url [] = (pageLoop.url, none) := by decide
      have h4 : readRemoteFile tangledWeb pageLoop.url = .ok pageLoop.body := by decide
      unfold readSitemap
      rw [if_pos h1, h2]
      simp only
      unfold mergeLoop
      simp only [h3, h4, tangledWeb_loop_diverges n]
  refine ⟨by decide, by decide, Or.inr (Or.inl ⟨by decide, by decide⟩), hall, ?_⟩
  rintro ⟨r, n, hn⟩
  have := hn n (le_refl n)
  rw [hall n] at this
  exact Option.noConfusion this


/-- C7 (amended). For a document holding the marker `<sitemapindex` that
decodes to the entries `pre ++ e :: post`: when every entry of `pre` returns,
with a sitemap or with an error, and the rewrite, the fetch or the recursive
call of `e` fails, the index has a first failing entry `first` (at `e` or
before it, every entry before `first` resolving without error), and the call
returns the nil sitemap together with the error of `first`, and nothing else:
nothing collected before `first` is returned.  When every entry of `pre`
resolves without error, `first` is `e` and the error is that of `e`. -/
theorem readSitemap_index_first_error (w : World) (data newBaseURL : GoString)
    (sitemapIndex : SitemapIndex) (pre : List URLEntry)
    (e : URLEntry) (post : List URLEntry) (err : Error)
    (hmark : contains data (bytes "<sitemapindex") = true)
    (hparse : w.unmarshalSitemapIndex data = (sitemapIndex, none))
    (hentries : sitemapIndex.Sitemaps = pre ++ e :: post)
    (hpre : ∀ x ∈ pre, (∃ s, EntryResolves w newBaseURL x s) ∨
      ∃ err', EntryFails w newBaseURL x err')
    (hfail : EntryFails w newBaseURL e err) :
    ∃ pre1 first post1 done err1,
      sitemapIndex.Sitemaps = pre1 ++ first :: post1 ∧ pre1.length ≤ pre.length ∧
      List.Forall₂ (EntryResolves w newBaseURL) pre1 done ∧
      EntryFails w newBaseURL first err1 ∧
      Returns w data newBaseURL (none, some err1) ∧
      (∀ r, Returns w data newBaseURL r → r = (none, some err1)) ∧
      ((∀ x ∈ pre, ∃ s, EntryResolves w newBaseURL x s) →
        pre1 = pre ∧ first = e ∧ err1 = err) := by
  obtain ⟨pre1, first, post1, done, err1, heq, hlen, hres, hf⟩ :=
    first_failure_exists w newBaseURL pre e post err hpre hfail
  have hret := readSitemap_index_error_after_resolved w data newBaseURL sitemapIndex pre1 done
    first post1 err1 hmark hparse (hentries.trans heq) hres hf
  refine ⟨pre1, first, post1, done, err1, hentries.trans heq, hlen, hres, hf, hret.1,
    hret.2, ?_⟩
  intro hall
  have hge : pre.length ≤ pre1.length := by
    by_contra hlt
    have hlt' : pre1.length < pre.length := by omega
    have hmem : first ∈ pre := by
      have h1 : (pre ++ e :: post)[pre1.length]? = some first := by
        rw [heq, List.getElem?_append_right (le_refl _)]
        simp
      rw [List.getElem?_append_left hlt'] at h1
      exact List.getElem?_mem h1
    obtain ⟨s, hs⟩ := hall first hmem
    exact entry_resolves_not_fails w newBaseURL first s err1 hs hf
  have hleq : pre.length = pre1.length := by omega
  have hsplit := List.append_inj heq hleq
  have h1 : pre1 = pre := hsplit.1.symm
  have h2 : first = e := by
    have := hsplit.2
    simp only [List.cons.injEq] at this
    exact this.1.symm
  refine ⟨h1, h2, ?_⟩
  subst h2
  exact entry_fails_unique w newBaseURL first err1 err hf hfail

set_option maxRecDepth 4000 in
/-- C7 (amended), on the example web: the first entry of the index resolves
to the sitemap `[/a]`, the second entry is not served, and the call returns
the nil sitemap and the status error 404 of the second entry; the URL `/a`
read from the first entry is not returned. -/
theorem readSitemap_index_first_error_witness :
    readRemoteFile exampleWeb (bytes "https://example.com/gone.xml") = .error (.status 404) ∧
    Returns exampleWeb pageS0.body [] (some ⟨[⟨bytes "/a"⟩]⟩, none) ∧
    Returns exampleWeb pageBroken.body [] (none, some (.status 404)) ∧
    ∀ r, Returns exampleWeb pageBroken.body [] r → r = (none, some (.status 404)) := by
  have hs0 : EntryResolves exampleWeb [] ⟨pageS0.url⟩ ⟨[⟨bytes "/a"⟩]⟩ :=
    ⟨pageS0.body, by decide, by decide, returns_of_eq exampleWeb 1 _ _ _ (by decide)⟩
  have hall : ∀ x ∈ [(⟨pageS0.url⟩ : URLEntry)], ∃ s, EntryResolves exampleWeb [] x s := by
    intro x hx
    simp only [List.mem_singleton] at hx
    subst hx
    exact ⟨_, hs0⟩
  obtain ⟨pre1, first, post1, done, err1, _, _, _, _, hret, huniq, hlast⟩ :=
    readSitemap_index_first_error exampleWeb pageBroken.body []
      ⟨[⟨pageS0.url⟩, ⟨bytes "https://example.com/gone.xml"⟩, ⟨pageS1.url⟩]⟩
      [⟨pageS0.url⟩] ⟨bytes "https://example.com/gone.xml"⟩ [⟨pageS1.url⟩]
      (.status 404) (by decide) (by decide) rfl
      (fun x hx => Or.inl (hall x hx))
      (Or.inr (Or.inl ⟨by decide, by decide⟩))
  obtain ⟨_, _, herr⟩ := hlast hall
  subst herr
  exact ⟨by decide, returns_of_eq exampleWeb 1 _ _ _ (by decide), hret, huniq⟩

/-- C10 (as stated, refuted). On the web that serves one sitemap index
referencing itself, `readSitemap` on that index returns at no recursion
depth: the recursion does not terminate. -/
theorem readSitemap_self_index_diverges :
    (∀ fuel, readSitemap loopWeb fuel pageLoop.body [] = none) ∧
    ¬ ∃ r, Returns loopWeb pageLoop.body [] r := by
  have hall : ∀ fuel, readSitemap loopWeb fuel pageLoop.body [] = none := by
    intro fuel
    induction fuel with
    | zero => rfl
    | succ n ih =>
      have h1 : contains pageLoop.body (bytes "<sitemapindex") = true := by decide
      have h2 : loopWeb.unmarshalSitemapIndex pageLoop.body =
          (⟨[⟨pageLoop.url⟩]⟩, none) := by decide
      have h3 : replaceURL pageLoop.url [] = (pageLoop.url, none) := by decide
      have h4 : readRemoteFile loopWeb pageLoop.url = .ok pageLoop.body := by decide
      unfold readSitemap
      rw [if_pos h1, h2]
      simp only
      unfold mergeLoop
      simp only [h3, h4, ih]
  refine ⟨hall, ?_⟩
  rintro ⟨r, n, hn⟩
  have := hn n (le_refl n)
  rw [hall n] at this
  exact Option.noConfusion this

/-- C10 (amended). The call `readSitemap(data, newBaseURL)` returns exactly
when the recursive calls made from `data` admit a rank that decreases at
every call (from each document reached from `data` to each document on which
resolving it makes a recursive call); and every URL of a sitemap it returns
is a URL entry read from a simple sitemap (a document without the index
marker) reached from `data`, never an entry of an index. -/
theorem readSitemap_terminates_iff_rank (w : World) (data newBaseURL : GoString) :
    ((∃ r, Returns w data newBaseURL r) ↔
      ∃ rank : GoString → Nat, ∀ d c, Reaches w newBaseURL data d →
        Calls w newBaseURL d c → rank c < rank d) ∧
    (∀ s err, Returns w data newBaseURL (some s, err) →
      ∀ e ∈ s.URLs, ∃ doc, Reaches w newBaseURL data doc ∧
        contains doc (bytes "<sitemapindex") = false ∧
        e ∈ (w.unmarshalSitemap doc).1.URLs) := by
  refine ⟨⟨?_, ?_⟩, ?_⟩
  · rintro ⟨r, n, hn⟩
    have hdata : ∃ n, (readSitemap w n data newBaseURL).isSome = true :=
      ⟨n, by rw [hn n (le_refl n)]; rfl⟩
    classical
    refine ⟨fun d => if h : ∃ n, (readSitemap w n d newBaseURL).isSome = true
      then Nat.find h else 0, ?_⟩
    intro d c hd hc
    have hd' := reaches_returns w newBaseURL data d hdata hd
    have hspec := Nat.find_spec hd'
    simp only [dif_pos hd']
    cases hk : Nat.find hd' with
    | zero => rw [hk] at hspec; simp [readSitemap] at hspec
    | succ m =>
      rw [hk] at hspec
      obtain ⟨r1, hr1⟩ := Option.isSome_iff_exists.mp hspec
      obtain ⟨r2, hr2⟩ := calls_returns w newBaseURL d c m r1 hc hr1
      have hc' : ∃ n, (readSitemap w n c newBaseURL).isSome = true := ⟨m, by rw [hr2]; rfl⟩
      simp only [dif_pos hc']
      have := Nat.find_min' hc' (show (readSitemap w m c newBaseURL).isSome = true by
        rw [hr2]; rfl)
      omega
  · rintro ⟨rank, hrank⟩
    obtain ⟨r, hr⟩ := readSitemap_isSome_of_call_rank w newBaseURL data rank hrank
      (rank data + 1) data Reaches.self (by omega)
    exact ⟨r, returns_of_eq w _ _ _ _ hr⟩
  · rintro s err ⟨n, hn⟩
    exact readSitemap_from_reached_leaves w n data newBaseURL s err (hn n (le_refl n))

set_option maxRecDepth 4000 in
/-- On `tangledWeb` the documents reached from the index over `s0.xml` and
`s1.xml` are that index and the two simple sitemaps. -/
theorem tangledWeb_reaches (d : GoString) (h : Reaches tangledWeb [] pageIndex.body d) :
    d = pageIndex.body ∨ d = pageS0.body ∨ d = pageS1.body := by
  induction h with
  | self => exact Or.inl rfl
  | @call content doc _ hc ih =>
    obtain ⟨hmark, idx, pre, e, post, done, hparse, hsplit, _, _, hfetch⟩ := hc
    rcases ih with rfl | rfl | rfl
    · have h1 : tangledWeb.unmarshalSitemapIndex pageIndex.body =
          (⟨[⟨pageS0.url⟩, ⟨pageS1.url⟩]⟩, none) := by decide
      rw [h1] at hparse
      have hidx : idx = ⟨[⟨pageS0.url⟩, ⟨pageS1.url⟩]⟩ := (Prod.mk.inj hparse).1.symm
      have he : e ∈ idx.Sitemaps := by rw [hsplit]; simp
      rw [hidx] at he
      simp only [List.mem_cons, List.mem_singleton, List.not_mem_nil, or_false] at he
      rcases he with rfl | rfl
      · have h2 : readRemoteFile tangledWeb (replaceURL pageS0.url []).1 = .ok pageS0.body := by
          decide
        rw [h2] at hfetch
        exact Or.inr (Or.inl (Except.ok.inj hfetch).symm)
      · have h2 : readRemoteFile tangledWeb (replaceURL pageS1.url []).1 = .ok pageS1.body := by
          decide
        rw [h2] at hfetch
        exact Or.inr (Or.inr (Except.ok.inj hfetch).symm)
    · exact absurd hmark (by decide)
    · exact absurd hmark (by decide)

set_option maxRecDepth 4000 in
/-- C10 (amended), on a web that also serves a self-referencing index: the
calls made from the index over `s0.xml` and `s1.xml` never reach the
self-referencing one, the rank "one for an index, zero for a simple sitemap"
decreases at each of them, so the call returns; it returns the sitemap
`[/a, /b]`, each URL of which is read from a simple sitemap reached from the
index. -/
theorem readSitemap_terminates_iff_rank_witness :
    (∃ r, Returns tangledWeb pageIndex.body [] r) ∧
    Returns tangledWeb pageIndex.body [] (some ⟨[⟨bytes "/a"⟩, ⟨bytes "/b"⟩]⟩, none) ∧
    (∀ e ∈ [(⟨bytes "/a"⟩ : URLEntry), ⟨bytes "/b"⟩], ∃ doc,
      Reaches tangledWeb [] pageIndex.body doc ∧
      contains doc (bytes "<sitemapindex") = false ∧
      e ∈ (tangledWeb.unmarshalSitemap doc).1.URLs) ∧
    ¬ ∃ rank : GoString → Nat, ∀ d c, Reaches tangledWeb [] pageLoop.body d →
      Calls tangledWeb [] d c → rank c < rank d :=
  ⟨(readSitemap_terminates_iff_rank tangledWeb pageIndex.body []).1.2 ⟨exampleRank, by
      intro d c hd hc
      have hc' := tangledWeb_reaches c (Reaches.call hd hc)
      have hmark := hc.1
      have hd1 : exampleRank d = 1 := by simp [exampleRank, hmark]
      have hc0 : exampleRank c = 0 := by
        rcases hc' with rfl | rfl | rfl
        · exfalso
          rcases tangledWeb_reaches d hd with rfl | rfl | rfl
          · obtain ⟨_, idx, pre, e, post, done, hparse, hsplit, _, _, hfetch⟩ := hc
            have h1 : tangledWeb.unmarshalSitemapIndex pageIndex.body =
                (⟨[⟨pageS0.url⟩, ⟨pageS1.url⟩]⟩, none) := by decide
            rw [h1] at hparse
            have hidx : idx = ⟨[⟨pageS0.url⟩, ⟨pageS1.url⟩]⟩ := (Prod.mk.inj hparse).1.symm
            have he : e ∈ idx.Sitemaps := by rw [hsplit]; simp
            rw [hidx] at he
            simp only [List.mem_cons, List.mem_singleton, List.not_mem_nil, or_false] at he
            rcases he with rfl | rfl
            · exact absurd hfetch (by decide)
            · exact absurd hfetch (by decide)
          · exact absurd hmark (by decide)
          · exact absurd hmark (by decide)
        · decide
        · decide
      omega⟩,
   returns_of_eq tangledWeb 2 _ _ _ (by decide),
   (readSitemap_terminates_iff_rank tangledWeb pageIndex.body []).2 _ none
     (returns_of_eq tangledWeb 2 _ _ _ (by decide)),
   fun hrank => by
     obtain ⟨r, n, hn⟩ := (readSitemap_terminates_iff_rank tangledWeb pageLoop.body []).1.2 hrank
     have h := hn n (le_refl n)
     rw [tangledWeb_loop_diverges n] at h
     exact Option.noConfusion h⟩

/-! ## Theorems: the report -/

theorem main_excludesConfigured (w : World) (fuel : Nat) (flags : Flags) (r : Report)
    (h : main w fuel flags = some (.report r)) : r.excludesConfigured = 1 := by
  unfold main at h
  repeat' split at h
  all_goals first
    | (simp only [Option.some.injEq, Exit.report.injEq] at h; rw [← h]; rfl)
    | simp at h

/-- C9 (the code departs from it). With no `--exclude` option the report
prints "Excludes configured: 1"; with two `--exclude` options, both applied
by the comparator (two URLs are skipped), it prints 1 as well: the printed
number is the length of the fixed list `excludesF`, not the number of
patterns supplied. -/
theorem main_excludes_configured_is_one :
    main exampleWeb 2 ⟨pageIndex.url, pageNew.url, [], []⟩ =
      some (.report
        { sourceSitemap := pageIndex.url, urlsChecked := 2, newSitemap := pageNew.url,
          excludesConfigured := 1, excluded := 0, missing := 0, missingURLs := [] }) ∧
    main exampleWeb 2 ⟨pageIndex.url, pageNew.url, [], [bytes "a", bytes "b"]⟩ =
      some (.report
        { sourceSitemap := pageIndex.url, urlsChecked := 2, newSitemap := pageNew.url,
          excludesConfigured := 1, excluded := 2, missing := 0, missingURLs := [] }) := by
  decide

/-! ## Theorems: strings -/

theorem byte_forall (P : UInt8 → Prop) (h : ∀ n : Fin 256, P ⟨⟨n⟩⟩) : ∀ c, P c :=
  fun c => h c.toBitVec.toFin

theorem isPrefixOf_single (c x : UInt8) (rest : GoString) :
    [c].isPrefixOf (x :: rest) = (c == x) := by
  simp [List.isPrefixOf]

theorem index_single_not_mem (c : UInt8) (a : GoString) (h : c ∉ a) :
    index a [c] = none := by
  induction a with
  | nil => simp [index]
  | cons x rest ih =>
    simp only [List.mem_cons, not_or] at h
    unfold index
    rw [isPrefixOf_single]
    have hx : (c == x) = false := by simpa using h.1
    simp [hx, ih h.2]

theorem index_single_append (c : UInt8) (a b : GoString) (h : c ∉ a) :
    index (a ++ c :: b) [c] = some a.length := by
  induction a with
  | nil => simp [index, isPrefixOf_single]
  | cons x rest ih =>
    simp only [List.mem_cons, not_or] at h
    simp only [List.cons_append]
    unfold index
    rw [isPrefixOf_single]
    have hx : (c == x) = false := by simpa using h.1
    simp [hx, ih h.2]

theorem cut_single_not_mem (c : UInt8) (a : GoString) (h : c ∉ a) :
    cut a [c] = (a, [], false) := by
  unfold cut
  rw [index_single_not_mem c a h]

theorem cut_single_append (c : UInt8) (a b : GoString) (h : c ∉ a) :
    cut (a ++ c :: b) [c] = (a, b, true) := by
  unfold cut
  rw [index_single_append c a b h]
  simp

theorem index_single_some (c : UInt8) (s : GoString) (i : Nat) (h : index s [c] = some i) :
    c ∉ s.take i ∧ ∃ b, s = s.take i ++ c :: b ∧ s.drop (i + 1) = b := by
  induction s generalizing i with
  | nil => simp [index] at h
  | cons x rest ih =>
    unfold index at h
    rw [isPrefixOf_single] at h
    by_cases hx : c = x
    · subst hx
      simp at h
      subst h
      simp
    · have hx' : (c == x) = false := by simpa using hx
      simp only [hx', Bool.false_eq_true, if_false, Option.map_eq_some'] at h
      obtain ⟨j, hj, rfl⟩ := h
      obtain ⟨h1, b, h2, h3⟩ := ih j hj
      refine ⟨?_, b, ?_, ?_⟩
      · simp only [List.take_succ_cons, List.mem_cons, not_or]
        exact ⟨hx, h1⟩
      · simp only [List.take_succ_cons, List.cons_append]
        rw [← h2]
      · simpa using h3

theorem index_single_none (c : UInt8) (s : GoString) (h : index s [c] = none) : c ∉ s := by
  induction s with
  | nil => simp
  | cons x rest ih =>
    unfold index at h
    rw [isPrefixOf_single] at h
    by_cases hx : c = x
    · subst hx; simp at h
    · have hx' : (c == x) = false := by simpa using hx
      simp only [hx', Bool.false_eq_true, if_false, Option.map_eq_none'] at h
      simp only [List.mem_cons, not_or]
      exact ⟨hx, ih h⟩

/-- The two shapes of `cut s [c]`. -/
theorem cut_single_cases (c : UInt8) (s : GoString) :
    (c ∉ s ∧ cut s [c] = (s, [], false)) ∨
    (∃ a b, c ∉ a ∧ s = a ++ c :: b ∧ cut s [c] = (a, b, true)) := by
  cases h : index s [c] with
  | none =>
    have hn := index_single_none c s h
    exact Or.inl ⟨hn, cut_single_not_mem c s hn⟩
  | some i =>
    obtain ⟨h1, b, h2, _⟩ := index_single_some c s i h
    refine Or.inr ⟨s.take i, b, h1, h2, ?_⟩
    have := cut_single_append c (s.take i) b h1
    rw [← h2] at this
    exact this

theorem lastIndex_single_not_mem (c : UInt8) (a : GoString) (h : c ∉ a) :
    lastIndex a [c] = none := by
  induction a with
  | nil => simp [lastIndex]
  | cons x rest ih =>
    simp only [List.mem_cons, not_or] at h
    unfold lastIndex
    rw [isPrefixOf_single, ih h.2]
    have hx : (c == x) = false := by simpa using h.1
    simp [hx]

theorem lastIndex_single_append (c : UInt8) (a b : GoString) (h : c ∉ b) :
    lastIndex (a ++ c :: b) [c] = some a.length := by
  induction a with
  | nil =>
    simp only [List.nil_append, List.length_nil]
    unfold lastIndex
    rw [lastIndex_single_not_mem c b h, isPrefixOf_single]
    simp
  | cons x rest ih =>
    simp only [List.cons_append, List.length_cons]
    unfold lastIndex
    rw [ih]

theorem contains_single (c : UInt8) (s : GoString) : contains s [c] = true ↔ c ∈ s := by
  induction s with
  | nil => simp [contains, List.isPrefixOf]
  | cons x rest ih =>
    unfold contains
    rw [isPrefixOf_single, Bool.or_eq_true, ih]
    simp

theorem contains_single_false (c : UInt8) (s : GoString) (h : c ∉ s) :
    contains s [c] = false := by
  cases hc : contains s [c]
  · rfl
  · exact absurd ((contains_single c s).mp hc) h

theorem hasPrefix_single (c : UInt8) (s : GoString) :
    hasPrefix s [c] = true ↔ s.head? = some c := by
  cases s with
  | nil => simp [hasPrefix, List.isPrefixOf]
  | cons x rest =>
    simp only [hasPrefix, isPrefixOf_single, List.head?_cons, Option.some.injEq, beq_iff_eq]
    exact eq_comm


/-! ## Theorems: escaping -/

set_option maxRecDepth 4000 in
theorem upperhex_mem : ∀ c : UInt8,
    upperhex (c >>> 4) ∈ bytes "0123456789ABCDEF" ∧
    upperhex (c &&& 15) ∈ bytes "0123456789ABCDEF" := by
  apply byte_forall
  decide

set_option maxRecDepth 4000 in
theorem upperhex_ishex : ∀ c : UInt8,
    ishex (upperhex (c >>> 4)) = true ∧ ishex (upperhex (c &&& 15)) = true := by
  apply byte_forall
  decide

set_option maxRecDepth 4000 in
theorem unhex_upperhex : ∀ c : UInt8,
    (unhex (upperhex (c >>> 4)) <<< 4 ||| unhex (upperhex (c &&& 15))) = c := by
  apply byte_forall
  decide

set_option maxRecDepth 4000 in
theorem upperhex_ne_percent : ∀ c : UInt8,
    upperhex (c >>> 4) ≠ '%'.toUInt8 ∧ upperhex (c &&& 15) ≠ '%'.toUInt8 ∧
    upperhex (c >>> 4) ≠ '+'.toUInt8 ∧ upperhex (c &&& 15) ≠ '+'.toUInt8 := by
  apply byte_forall
  decide

/-- The test that `validEncoded` applies to each byte. -/
theorem validEncoded_cons (c : UInt8) (s : GoString) (m : Encoding) :
    validEncoded (c :: s) m = (validEncoded [c] m && validEncoded s m) := by
  simp [validEncoded]

theorem validEncoded_nil (m : Encoding) : validEncoded [] m = true := rfl

theorem validEncoded_append (a b : GoString) (m : Encoding) :
    validEncoded (a ++ b) m = (validEncoded a m && validEncoded b m) := by
  simp [validEncoded]

theorem validEncoded_of_not_shouldEscape (c : UInt8) (m : Encoding)
    (h : shouldEscape c m = false) : validEncoded [c] m = true := by
  simp only [validEncoded, List.all_cons, List.all_nil, Bool.and_true]
  split
  · rfl
  · split
    · rfl
    · split
      · rfl
      · simp [h]

set_option maxRecDepth 4000 in
theorem validEncoded_upperhex : ∀ c : UInt8, ∀ m : Encoding,
    validEncoded [upperhex (c >>> 4)] m = true ∧
    validEncoded [upperhex (c &&& 15)] m = true := by
  apply byte_forall
  intro n m
  cases m <;> revert n <;> decide

theorem validEncoded_escapeBuild (s : GoString) (m : Encoding) :
    validEncoded (escapeBuild m s) m = true := by
  induction s with
  | nil => rfl
  | cons c rest ih =>
    unfold escapeBuild
    split
    · rw [validEncoded_cons _ (escapeBuild m rest) m, ih]
      cases m <;> decide
    · split
      · rw [validEncoded_cons _ (_ :: _ :: escapeBuild m rest) m,
          validEncoded_cons _ (_ :: escapeBuild m rest) m,
          validEncoded_cons _ (escapeBuild m rest) m, ih,
          (validEncoded_upperhex c m).1, (validEncoded_upperhex c m).2]
        cases m <;> decide
      · rename_i h
        rw [validEncoded_cons _ (escapeBuild m rest) m, ih,
          validEncoded_of_not_shouldEscape c m (by simpa using h)]
        rfl

theorem validEncoded_of_all (s : GoString) (m : Encoding)
    (h : s.all (fun c => !shouldEscape c m) = true) : validEncoded s m = true := by
  induction s with
  | nil => rfl
  | cons c rest ih =>
    simp only [List.all_cons, Bool.and_eq_true, Bool.not_eq_true'] at h
    rw [validEncoded_cons c rest m, validEncoded_of_not_shouldEscape c m h.1, ih h.2]
    rfl

theorem validEncoded_escape (s : GoString) (m : Encoding) :
    validEncoded (escape s m) m = true := by
  unfold escape
  split
  · rename_i h
    exact validEncoded_of_all s m h
  · exact validEncoded_escapeBuild s m

theorem validEncoded_not_mem (s : GoString) (m : Encoding) (x : UInt8)
    (h : validEncoded s m = true) (hx : validEncoded [x] m = false) : x ∉ s := by
  induction s with
  | nil => simp
  | cons c rest ih =>
    rw [validEncoded_cons c rest m, Bool.and_eq_true] at h
    simp only [List.mem_cons, not_or]
    refine ⟨?_, ih h.2⟩
    rintro rfl
    rw [h.1] at hx
    exact Bool.noConfusion hx

theorem mem_escapeBuild (m : Encoding) (s : GoString) (x : UInt8)
    (hx : x ∈ escapeBuild m s) :
    shouldEscape x m = false ∨ x = '%'.toUInt8 ∨ x ∈ bytes "0123456789ABCDEF" ∨
      (x = '+'.toUInt8 ∧ m = encodeQueryComponent) := by
  induction s with
  | nil => simp [escapeBuild] at hx
  | cons c rest ih =>
    unfold escapeBuild at hx
    split at hx
    · rename_i h
      simp only [List.mem_cons] at hx
      rcases hx with rfl | hx
      · exact Or.inr (Or.inr (Or.inr ⟨rfl, h.2⟩))
      · exact ih hx
    · split at hx
      · simp only [List.mem_cons] at hx
        rcases hx with rfl | rfl | rfl | hx
        · exact Or.inr (Or.inl rfl)
        · exact Or.inr (Or.inr (Or.inl (upperhex_mem c).1))
        · exact Or.inr (Or.inr (Or.inl (upperhex_mem c).2))
        · exact ih hx
      · rename_i h
        simp only [List.mem_cons] at hx
        rcases hx with rfl | hx
        · exact Or.inl (by simpa using h)
        · exact ih hx

theorem mem_escape (m : Encoding) (s : GoString) (x : UInt8) (hx : x ∈ escape s m) :
    shouldEscape x m = false ∨ x = '%'.toUInt8 ∨ x ∈ bytes "0123456789ABCDEF" ∨
      (x = '+'.toUInt8 ∧ m = encodeQueryComponent) := by
  unfold escape at hx
  split at hx
  · rename_i h
    rw [List.all_eq_true] at h
    exact Or.inl (by simpa using h x hx)
  · exact mem_escapeBuild m s x hx

/-- A byte that must be escaped in `m`, other than `%`, `+` and the
hexadecimal digits, does not occur in an escaped string. -/
theorem not_mem_escape (m : Encoding) (s : GoString) (x : UInt8)
    (h1 : shouldEscape x m = true) (h2 : x ≠ '%'.toUInt8)
    (h3 : x ∉ bytes "0123456789ABCDEF") (h4 : x ≠ '+'.toUInt8) : x ∉ escape s m := by
  intro hx
  rcases mem_escape m s x hx with h | h | h | ⟨h, _⟩
  · rw [h1] at h; exact Bool.noConfusion h
  · exact h2 h
  · exact h3 h
  · exact h4 h

theorem escapeBuild_eq_nil (m : Encoding) (s : GoString) (h : escapeBuild m s = []) :
    s = [] := by
  cases s with
  | nil => rfl
  | cons c rest =>
    unfold escapeBuild at h
    split at h
    · simp at h
    · split at h <;> simp at h

theorem escape_eq_nil (m : Encoding) (s : GoString) (h : escape s m = []) : s = [] := by
  unfold escape at h
  split at h
  · exact h
  · exact escapeBuild_eq_nil m s h


theorem shouldEscape_percent (m : Encoding) : shouldEscape '%'.toUInt8 m = true := by
  cases m <;> decide

theorem escapeBuild_of_all (m : Encoding) (s : GoString)
    (h : s.all (fun c => !shouldEscape c m) = true) : escapeBuild m s = s := by
  induction s with
  | nil => rfl
  | cons c rest ih =>
    simp only [List.all_cons, Bool.and_eq_true, Bool.not_eq_true'] at h
    unfold escapeBuild
    have hsp : ¬ (c = ' '.toUInt8 ∧ m = encodeQueryComponent) := by
      rintro ⟨rfl, rfl⟩
      exact absurd h.1 (by decide)
    rw [if_neg hsp, h.1, ih h.2]
    simp

theorem escape_eq_escapeBuild (s : GoString) (m : Encoding) :
    escape s m = escapeBuild m s := by
  unfold escape
  split
  · rename_i h
    exact (escapeBuild_of_all m s h).symm
  · rfl

theorem unescapeBuild_escapeBuild (m : Encoding) (hm : m ≠ encodeQueryComponent)
    (s : GoString) : unescapeBuild m (escapeBuild m s) = s := by
  induction s with
  | nil => rfl
  | cons c rest ih =>
    unfold escapeBuild
    have hsp : ¬ (c = ' '.toUInt8 ∧ m = encodeQueryComponent) := fun h => hm h.2
    rw [if_neg hsp]
    split
    · unfold unescapeBuild
      simp only [if_true]
      rw [unhex_upperhex c, ih]
    · rename_i h
      have hc : c ≠ '%'.toUInt8 := by
        rintro rfl
        exact h (shouldEscape_percent m)
      unfold unescapeBuild
      rw [if_neg hc, ih]
      split
      · rename_i hplus
        simp [hm, hplus]
      · rfl

theorem unescapeScan_escapeBuild (m : Encoding) (hm : m ≠ encodeQueryComponent)
    (hh : m ≠ encodeHost) (hz : m ≠ encodeZone) (s : GoString) (n : Nat) :
    ∃ k, unescapeScan m (escapeBuild m s) n false = .ok (k, false) ∧ n ≤ k ∧
      (s.all (fun c => !shouldEscape c m) = false → n < k) := by
  induction s generalizing n with
  | nil => exact ⟨n, rfl, le_refl n, by simp⟩
  | cons c rest ih =>
    unfold escapeBuild
    have hsp : ¬ (c = ' '.toUInt8 ∧ m = encodeQueryComponent) := fun h => hm h.2
    rw [if_neg hsp]
    split
    · obtain ⟨k, hk, hle, _⟩ := ih (n + 1)
      refine ⟨k, ?_, by omega, fun _ => by omega⟩
      unfold unescapeScan
      simp only [if_true, (upperhex_ishex c).1, (upperhex_ishex c).2, Bool.not_true,
        Bool.or_self, Bool.false_eq_true, if_false, hh, hz, false_and]
      exact hk
    · rename_i h
      have hc : c ≠ '%'.toUInt8 := by
        rintro rfl
        exact h (shouldEscape_percent m)
      obtain ⟨k, hk, hle, hlt⟩ := ih n
      refine ⟨k, ?_, hle, ?_⟩
      · unfold unescapeScan
        rw [if_neg hc]
        split
        · simp only [hm, decide_False]
          exact hk
        · simp only [hh, hz, or_self, false_and, if_false]
          exact hk
      · intro hall
        apply hlt
        simp only [List.all_cons, Bool.and_eq_false_iff] at hall
        rcases hall with hall | hall
        · simp at hall
          exact absurd hall h
        · exact hall

/-- Unescaping an escaped string gives the string back (in the modes
without the special rules of hosts, zones and query components). -/
theorem unescape_escape (m : Encoding) (hm : m ≠ encodeQueryComponent)
    (hh : m ≠ encodeHost) (hz : m ≠ encodeZone) (s : GoString) :
    unescape (escape s m) m = .ok s := by
  rw [escape_eq_escapeBuild]
  obtain ⟨k, hk, _, hlt⟩ := unescapeScan_escapeBuild m hm hh hz s 0
  unfold unescape
  rw [hk]
  simp only
  split
  · rename_i h0
    have hall : s.all (fun c => !shouldEscape c m) = true := by
      cases hs : s.all (fun c => !shouldEscape c m)
      · have := hlt hs
        omega
      · rfl
    rw [escapeBuild_of_all m s hall]
  · rw [unescapeBuild_escapeBuild m hm s]

theorem unescapeBuild_ne_nil (m : Encoding) (c : UInt8) (rest : GoString) (n : Nat)
    (hp : Bool) (r : Nat × Bool) (h : unescapeScan m (c :: rest) n hp = .ok r) :
    unescapeBuild m (c :: rest) ≠ [] := by
  unfold unescapeBuild
  split
  · rename_i hc
    unfold unescapeScan at h
    rw [if_pos hc] at h
    match rest, h with
    | [], h => simp at h
    | [_], h => simp at h
    | a :: b :: rest', _ => simp
  · split <;> simp

theorem unescape_ne_nil (m : Encoding) (s p : GoString) (h : unescape s m = .ok p)
    (hs : s ≠ []) : p ≠ [] := by
  unfold unescape at h
  cases hscan : unescapeScan m s 0 false with
  | error e => rw [hscan] at h; simp at h
  | ok r =>
    rw [hscan] at h
    simp only at h
    split at h
    · simp only [Except.ok.injEq] at h
      rw [← h]; exact hs
    · simp only [Except.ok.injEq] at h
      rw [← h]
      cases s with
      | nil => exact absurd rfl hs
      | cons c rest => exact unescapeBuild_ne_nil m c rest 0 false r hscan

theorem unescape_nil (m : Encoding) : unescape [] m = .ok [] := by
  simp [unescape, unescapeScan]

theorem unescape_head_slash (m : Encoding) (s p : GoString)
    (h : unescape ('/'.toUInt8 :: s) m = .ok p) : p.head? = some '/'.toUInt8 := by
  unfold unescape at h
  cases hscan : unescapeScan m ('/'.toUInt8 :: s) 0 false with
  | error e => rw [hscan] at h; simp at h
  | ok r =>
    rw [hscan] at h
    simp only at h
    split at h
    · simp only [Except.ok.injEq] at h
      rw [← h]; rfl
    · simp only [Except.ok.injEq] at h
      rw [← h]
      unfold unescapeBuild
      have h1 : ¬ ('/'.toUInt8 = '%'.toUInt8) := by decide
      have h2 : ¬ ('/'.toUInt8 = '+'.toUInt8) := by decide
      rw [if_neg h1, if_neg h2]
      rfl

/-! ## Theorems: escaped path and fragment -/

theorem EscapedPath_valid (u : URL) : validEncoded u.EscapedPath encodePath = true := by
  unfold URL.EscapedPath
  split
  · rename_i h
    exact h.2.1
  · split
    · decide
    · exact validEncoded_escape _ _

theorem EscapedFragment_valid (u : URL) :
    validEncoded u.EscapedFragment encodeFragment = true := by
  unfold URL.EscapedFragment
  split
  · rename_i h
    exact h.2.1
  · exact validEncoded_escape _ _

theorem EscapedFragment_ne_nil (u : URL) (h : u.Fragment ≠ []) : u.EscapedFragment ≠ [] := by
  unfold URL.EscapedFragment
  split
  · rename_i h'
    exact h'.1
  · intro he
    exact h (escape_eq_nil _ _ he)

theorem unescapesTo_self (s : GoString) (m : Encoding) (p : GoString)
    (h : unescape s m = .ok p) : unescapesTo s m p = true := by
  unfold unescapesTo
  rw [h]
  simp

/-- After `setPath p` with a validly encoded `p` that is empty or starts
with `/`, `EscapedPath` is `p`. -/
theorem setPath_EscapedPath (u w : URL) (p : GoString) (h : u.setPath p = .ok w)
    (hv : validEncoded p encodePath = true) (hp : p = [] ∨ p.head? = some '/'.toUInt8) :
    w.EscapedPath = p ∧ w = { u with Path := w.Path, RawPath := w.RawPath } := by
  unfold URL.setPath at h
  cases hun : unescape p encodePath with
  | error e => rw [hun] at h; simp at h
  | ok path =>
    rw [hun] at h
    simp only at h
    have hstar : path ≠ bytes "*" := by
      rcases hp with rfl | hp
      · rw [unescape_nil] at hun
        simp only [Except.ok.injEq] at hun
        rw [← hun]; decide
      · cases p with
        | nil => simp at hp
        | cons c rest =>
          simp only [List.head?_cons, Option.some.injEq] at hp
          subst hp
          have := unescape_head_slash _ _ _ hun
          intro hx
          rw [hx] at this
          revert this
          decide
    split at h
    · rename_i heq
      simp only [Except.ok.injEq] at h
      subst h
      refine ⟨?_, rfl⟩
      unfold URL.EscapedPath
      simp only [ne_eq, not_true_eq_false, false_and, if_false, hstar]
      exact heq.symm
    · rename_i hne
      simp only [Except.ok.injEq] at h
      subst h
      refine ⟨?_, rfl⟩
      have hpne : p ≠ [] := by
        rintro rfl
        rw [unescape_nil] at hun
        simp only [Except.ok.injEq] at hun
        subst hun
        exact hne (by decide)
      unfold URL.EscapedPath
      simp only [ne_eq, hpne, not_false_eq_true, hv, unescapesTo_self p encodePath path hun,
        and_self, if_true]

/-- After `setFragment f` with a validly encoded `f`, `EscapedFragment` is
`f`, and the fragment is empty only if `f` is. -/
theorem setFragment_EscapedFragment (u w : URL) (f : GoString)
    (h : u.setFragment f = .ok w) (hv : validEncoded f encodeFragment = true) :
    w.EscapedFragment = f ∧ (f ≠ [] → w.Fragment ≠ []) ∧
      w = { u with Fragment := w.Fragment, RawFragment := w.RawFragment } := by
  unfold URL.setFragment at h
  cases hun : unescape f encodeFragment with
  | error e => rw [hun] at h; simp at h
  | ok frag =>
    rw [hun] at h
    simp only at h
    split at h
    · rename_i heq
      simp only [Except.ok.injEq] at h
      subst h
      refine ⟨?_, fun hf => unescape_ne_nil _ _ _ hun hf, rfl⟩
      unfold URL.EscapedFragment
      simp only [ne_eq, not_true_eq_false, false_and, if_false]
      exact heq.symm
    · rename_i hne
      simp only [Except.ok.injEq] at h
      subst h
      refine ⟨?_, fun hf => unescape_ne_nil _ _ _ hun hf, rfl⟩
      have hfne : f ≠ [] := by
        rintro rfl
        rw [unescape_nil] at hun
        simp only [Except.ok.injEq] at hun
        subst hun
        exact hne (by decide)
      unfold URL.EscapedFragment
      simp only [ne_eq, hfne, not_false_eq_true, hv,
        unescapesTo_self f encodeFragment frag hun, and_self, if_true]


/-! ## Theorems: `getScheme` -/

set_option maxRecDepth 4000 in
theorem schemeByte_cases : ∀ c : UInt8,
    (isLetter c = true ↔
      (('a'.toUInt8 ≤ c ∧ c ≤ 'z'.toUInt8) ∨ ('A'.toUInt8 ≤ c ∧ c ≤ 'Z'.toUInt8))) ∧
    (isSchemeTail c = true ↔
      (('0'.toUInt8 ≤ c ∧ c ≤ '9'.toUInt8) ∨ c = '+'.toUInt8 ∨ c = '-'.toUInt8 ∨
        c = '.'.toUInt8)) ∧
    (isLetter c = true → isSchemeTail c = false) ∧
    (isLetter c = true ∨ isSchemeTail c = true → c ≠ ':'.toUInt8) := by
  intro c
  refine ⟨by simp [isLetter], by simp [isSchemeTail], ?_, ?_⟩
  · revert c
    apply byte_forall
    decide
  · revert c
    apply byte_forall
    decide

theorem getSchemeLoop_scheme (t pre rest : GoString)
    (ht : t.all (fun x => isLetter x || isSchemeTail x) = true)
    (hpre : pre ≠ [] ∨ ∃ c t', t = c :: t' ∧ isLetter c = true) :
    getSchemeLoop (pre ++ t ++ ':'.toUInt8 :: rest) (t ++ ':'.toUInt8 :: rest) pre.length =
      .ok (pre ++ t, rest) := by
  induction t generalizing pre with
  | nil =>
    have hne : pre ≠ [] := by
      rcases hpre with h | ⟨c, t', h, _⟩
      · exact h
      · simp at h
    have hlen : pre.length ≠ 0 := by
      intro h
      exact hne (List.length_eq_zero.mp h)
    simp only [List.append_nil, List.nil_append]
    unfold getSchemeLoop
    have h1 : ¬ (('a'.toUInt8 ≤ ':'.toUInt8 ∧ ':'.toUInt8 ≤ 'z'.toUInt8) ∨
        ('A'.toUInt8 ≤ ':'.toUInt8 ∧ ':'.toUInt8 ≤ 'Z'.toUInt8)) := by decide
    have h2 : ¬ (('0'.toUInt8 ≤ ':'.toUInt8 ∧ ':'.toUInt8 ≤ '9'.toUInt8) ∨
        ':'.toUInt8 = '+'.toUInt8 ∨ ':'.toUInt8 = '-'.toUInt8 ∨
        ':'.toUInt8 = '.'.toUInt8) := by decide
    rw [if_neg h1, if_neg h2, if_pos rfl, if_neg hlen]
    simp
  | cons c t' ih =>
    simp only [List.all_cons, Bool.and_eq_true, Bool.or_eq_true] at ht
    have hrec : getSchemeLoop (pre ++ c :: t' ++ ':'.toUInt8 :: rest)
        (t' ++ ':'.toUInt8 :: rest) (pre.length + 1) = .ok (pre ++ c :: t', rest) := by
      have := ih (pre ++ [c]) (by simpa using ht.2) (Or.inl (by simp))
      simpa using this
    simp only [List.cons_append]
    unfold getSchemeLoop
    obtain ⟨hl, hs, hls, _⟩ := schemeByte_cases c
    by_cases h1 : isLetter c = true
    · rw [if_pos (hl.mp h1)]
      simpa using hrec
    · rw [if_neg (fun h => h1 (hl.mpr h))]
      have h2 : isSchemeTail c = true := by
        rcases ht.1 with h | h
        · exact absurd h h1
        · exact h
      rw [if_pos (hs.mp h2)]
      have hlen : pre.length ≠ 0 := by
        intro h
        have hnil := List.length_eq_zero.mp h
        rcases hpre with h' | ⟨c', t'', h', hc'⟩
        · exact h' hnil
        · simp only [List.cons.injEq] at h'
          rw [← h'.1] at hc'
          exact h1 hc'
      rw [if_neg hlen]
      simpa using hrec

/-- On a scheme followed by a colon, `getScheme` splits at that colon. -/
theorem getScheme_scheme (sc rest : GoString) (h : isRawScheme sc = true) :
    getScheme (sc ++ ':'.toUInt8 :: rest) = .ok (sc, rest) := by
  cases sc with
  | nil => simp [isRawScheme] at h
  | cons c t =>
    simp only [isRawScheme, Bool.and_eq_true] at h
    have := getSchemeLoop_scheme (c :: t) [] rest
      (by simp only [List.all_cons, Bool.and_eq_true, Bool.or_eq_true]
          exact ⟨Or.inl h.1, by simpa using h.2⟩)
      (Or.inr ⟨c, t, rfl, h.1⟩)
    simpa [getScheme] using this

theorem getSchemeLoop_ok (rawURL s pre scheme rest : GoString) (hraw : rawURL = pre ++ s)
    (hpre : pre = [] ∨ isRawScheme pre = true)
    (h : getSchemeLoop rawURL s pre.length = .ok (scheme, rest)) :
    (scheme = [] ∧ rest = rawURL) ∨
    (isRawScheme scheme = true ∧ rawURL = scheme ++ ':'.toUInt8 :: rest) := by
  induction s generalizing pre with
  | nil =>
    unfold getSchemeLoop at h
    simp only [Except.ok.injEq, Prod.mk.injEq] at h
    exact Or.inl ⟨h.1.symm, h.2.symm⟩
  | cons c s' ih =>
    obtain ⟨hl, hs, _, _⟩ := schemeByte_cases c
    have hlen : pre.length = 0 ↔ pre = [] := List.length_eq_zero
    have hrec : (pre = [] → isLetter c = true) →
        getSchemeLoop rawURL s' (pre.length + 1) = .ok (scheme, rest) →
        isLetter c = true ∨ isSchemeTail c = true →
        (scheme = [] ∧ rest = rawURL) ∨
        (isRawScheme scheme = true ∧ rawURL = scheme ++ ':'.toUInt8 :: rest) := by
      intro hfirst hloop hc
      apply ih (pre ++ [c]) (by simp [hraw])
      · right
        rcases hpre with hp | hp
        · subst hp
          simp [isRawScheme, hfirst rfl]
        · cases pre with
          | nil => simp [isRawScheme] at hp
          | cons p ps =>
            simp only [isRawScheme, Bool.and_eq_true] at hp
            simp only [List.cons_append, isRawScheme, hp.1, List.all_append, hp.2,
              List.all_cons, List.all_nil, Bool.and_true, Bool.true_and]
            simpa using hc
      · simpa using hloop
    unfold getSchemeLoop at h
    split at h
    · rename_i h1
      exact hrec (fun _ => hl.mpr h1) h (Or.inl (hl.mpr h1))
    · split at h
      · rename_i h2
        split at h
        · simp only [Except.ok.injEq, Prod.mk.injEq] at h
          exact Or.inl ⟨h.1.symm, h.2.symm⟩
        · rename_i h0
          exact hrec (fun hp => absurd (hlen.mpr hp) h0) h (Or.inr (hs.mpr h2))
      · split at h
        · rename_i hcolon
          split at h
          · simp at h
          · rename_i h0
            simp only [Except.ok.injEq, Prod.mk.injEq] at h
            have hp : isRawScheme pre = true := by
              rcases hpre with hp | hp
              · exact absurd (hlen.mpr hp) h0
              · exact hp
            right
            rw [hraw] at h
            have h1 : scheme = pre := by
              rw [← h.1, List.take_left' rfl]
            have h2 : rest = s' := by
              rw [← h.2]
              have : (pre ++ c :: s').drop (pre.length + 1) = s' := by
                rw [show pre ++ c :: s' = (pre ++ [c]) ++ s' by simp]
                exact List.drop_left' (by simp)
              exact this
            rw [h1, h2, hraw, hcolon]
            exact ⟨hp, rfl⟩
        · simp only [Except.ok.injEq, Prod.mk.injEq] at h
          exact Or.inl ⟨h.1.symm, h.2.symm⟩

theorem getScheme_ok (rawURL scheme rest : GoString)
    (h : getScheme rawURL = .ok (scheme, rest)) :
    (scheme = [] ∧ rest = rawURL) ∨
    (isRawScheme scheme = true ∧ rawURL = scheme ++ ':'.toUInt8 :: rest) :=
  getSchemeLoop_ok rawURL rawURL [] scheme rest rfl (Or.inl rfl) h

set_option maxRecDepth 4000 in
theorem toLower_byte : ∀ c : UInt8,
    (isLetter c = true →
      isLetter (if 'A'.toUInt8 ≤ c ∧ c ≤ 'Z'.toUInt8 then c + ('a'.toUInt8 - 'A'.toUInt8)
        else c) = true) ∧
    (isSchemeTail c = true →
      isSchemeTail (if 'A'.toUInt8 ≤ c ∧ c ≤ 'Z'.toUInt8 then c + ('a'.toUInt8 - 'A'.toUInt8)
        else c) = true) ∧
    ¬ ('A'.toUInt8 ≤ (if 'A'.toUInt8 ≤ c ∧ c ≤ 'Z'.toUInt8 then
        c + ('a'.toUInt8 - 'A'.toUInt8) else c) ∧
      (if 'A'.toUInt8 ≤ c ∧ c ≤ 'Z'.toUInt8 then c + ('a'.toUInt8 - 'A'.toUInt8) else c) ≤
        'Z'.toUInt8) := by
  apply byte_forall
  decide

theorem toLower_isScheme (s : GoString) (h : isRawScheme s = true) :
    isScheme (toLower s) = true := by
  cases s with
  | nil => simp [isRawScheme] at h
  | cons c t =>
    simp only [isRawScheme, Bool.and_eq_true, List.all_eq_true, Bool.or_eq_true] at h
    simp only [isScheme, toLower, List.map_cons, isRawScheme, Bool.and_eq_true,
      List.all_eq_true, List.mem_map, Bool.or_eq_true, List.mem_cons,
      Bool.not_eq_true', decide_eq_false_iff_not, forall_exists_index, and_imp,
      forall_eq_or_imp, forall_apply_eq_imp_iff₂]
    refine ⟨⟨(toLower_byte c).1 h.1, ?_⟩, (toLower_byte c).2.2, ?_⟩
    · intro x hx
      rcases h.2 x hx with hl | hs
      · exact Or.inl ((toLower_byte x).1 hl)
      · exact Or.inr ((toLower_byte x).2.1 hs)
    · intro x _
      exact (toLower_byte x).2.2

theorem toLower_of_isScheme (s : GoString) (h : isScheme s = true) : toLower s = s := by
  simp only [isScheme, Bool.and_eq_true, List.all_eq_true, Bool.not_eq_true',
    decide_eq_false_iff_not] at h
  unfold toLower
  conv_rhs => rw [← List.map_id s]
  apply List.map_congr_left
  intro c hc
  rw [if_neg (h.2 c hc)]
  rfl

theorem isScheme_isRawScheme (s : GoString) (h : isScheme s = true) :
    isRawScheme s = true := by
  simp only [isScheme, Bool.and_eq_true] at h
  exact h.1

theorem isRawScheme_ne_nil (s : GoString) (h : isRawScheme s = true) : s ≠ [] := by
  rintro rfl
  simp [isRawScheme] at h

set_option maxRecDepth 4000 in
theorem schemeByte_not_special : ∀ c : UInt8, isLetter c = true ∨ isSchemeTail c = true →
    c ≠ '#'.toUInt8 ∧ c ≠ '?'.toUInt8 ∧ c ≠ '/'.toUInt8 ∧ c ≠ '*'.toUInt8 := by
  apply byte_forall
  decide

theorem isRawScheme_mem (s : GoString) (h : isRawScheme s = true) (x : UInt8) (hx : x ∈ s) :
    isLetter x = true ∨ isSchemeTail x = true := by
  cases s with
  | nil => simp at hx
  | cons c t =>
    simp only [isRawScheme, Bool.and_eq_true, List.all_eq_true, Bool.or_eq_true] at h
    simp only [List.mem_cons] at hx
    rcases hx with rfl | hx
    · exact Or.inl h.1
    · exact h.2 x hx


/-! ## Theorems: `parse` -/

theorem setPath_eq (u w : URL) (p : GoString) (h : u.setPath p = .ok w) :
    w = { u with Path := w.Path, RawPath := w.RawPath } := by
  unfold URL.setPath at h
  cases hun : unescape p encodePath with
  | error e => rw [hun] at h; simp at h
  | ok path =>
    rw [hun] at h
    simp only at h
    split at h <;> (simp only [Except.ok.injEq] at h; subst h; rfl)

theorem setFragment_eq (u w : URL) (f : GoString) (h : u.setFragment f = .ok w) :
    w = { u with Fragment := w.Fragment, RawFragment := w.RawFragment } := by
  unfold URL.setFragment at h
  cases hun : unescape f encodeFragment with
  | error e => rw [hun] at h; simp at h
  | ok frag =>
    rw [hun] at h
    simp only at h
    split at h <;> (simp only [Except.ok.injEq] at h; subst h; rfl)

/-- The successful runs of `parse rawURL false`. -/
theorem parse_inv (rawURL : GoString) (url : URL) (h : parse rawURL false = .ok url) :
    (rawURL = bytes "*" ∧ url = { URL.zero with Path := bytes "*" }) ∨
    ∃ scheme rest rest1 fq rq, getScheme rawURL = .ok (scheme, rest) ∧
      QuerySplit rest rest1 fq rq ∧
      ((hasPrefix rest1 (bytes "/") = false ∧ toLower scheme ≠ [] ∧
          url = { URL.zero with Scheme := toLower scheme, ForceQuery := fq, RawQuery := rq,
                                Opaque := rest1 }) ∨
        (hasPrefix rest1 (bytes "//") = true ∧ ∃ user host,
          parseAuthority (splitAuthority (rest1.drop 2)).1 = .ok (user, host) ∧
          URL.setPath { URL.zero with Scheme := toLower scheme, ForceQuery := fq,
                                      RawQuery := rq, User := user, Host := host }
            (splitAuthority (rest1.drop 2)).2 = .ok url) ∨
        (¬ (hasPrefix rest1 (bytes "/") = false ∧ toLower scheme ≠ []) ∧
          ¬ (toLower scheme ≠ [] ∧ hasPrefix rest1 (bytes "//") = true) ∧
          ∃ oh, URL.setPath { URL.zero with Scheme := toLower scheme, ForceQuery := fq,
                                            RawQuery := rq, OmitHost := oh } rest1 = .ok url)) := by
  unfold parse at h
  split at h
  · simp at h
  · split at h
    · rename_i h2
      simp at h2
    · split at h
      · rename_i hstar
        simp only [Except.ok.injEq] at h
        exact Or.inl ⟨hstar, h.symm⟩
      · right
        cases hgs : getScheme rawURL with
        | error e => rw [hgs] at h; simp at h
        | ok sr =>
          obtain ⟨scheme, rest⟩ := sr
          rw [hgs] at h
          simp only at h
          by_cases hq : hasSuffix rest (bytes "?") = true ∧ rest.count '?'.toUInt8 = 1
          on_goal 1 =>
            rw [if_pos hq] at h
            simp only at h
            refine ⟨scheme, rest, rest.take (rest.length - 1), true, [], rfl,
              Or.inl ⟨hq.1, hq.2, rfl, rfl, rfl⟩, ?_⟩
            generalize rest.take (rest.length - 1) = rest1 at h ⊢
          on_goal 2 =>
            rw [if_neg hq] at h
            simp only at h
            refine ⟨scheme, rest, (cut rest (bytes "?")).1, false, (cut rest (bytes "?")).2.1,
              rfl, Or.inr ⟨hq, rfl, rfl, rfl⟩, ?_⟩
            generalize (cut rest (bytes "?")).1 = rest1 at h ⊢
          all_goals
            split at h
            · rename_i hb
              simp only [Except.ok.injEq] at h
              exact Or.inl ⟨by simpa using hb.1, hb.2, h.symm⟩
            · rename_i hb1
              have hn1 : ¬ (hasPrefix rest1 (bytes "/") = false ∧ toLower scheme ≠ []) := by
                simpa using hb1
              split at h
              · rename_i hb
                simp at hb
              · split at h
                · simp at h
                · split at h
                  · rename_i hb
                    refine Or.inr (Or.inl ⟨hb.2, ?_⟩)
                    cases hpa : parseAuthority (splitAuthority (List.drop 2 rest1)).1 with
                    | error e =>
                      simp only [splitAuthority] at hpa
                      rw [hpa] at h
                      simp at h
                    | ok uh =>
                      obtain ⟨user, host⟩ := uh
                      simp only [splitAuthority] at hpa
                      rw [hpa] at h
                      exact ⟨user, host, rfl, h⟩
                  · rename_i hb4
                    have hn4 : ¬ (toLower scheme ≠ [] ∧ hasPrefix rest1 (bytes "//") = true) :=
                      fun hx => hb4 ⟨Or.inl hx.1, hx.2⟩
                    split at h
                    · exact Or.inr (Or.inr ⟨hn1, hn4, true, h⟩)
                    · exact Or.inr (Or.inr ⟨hn1, hn4, false, h⟩)


theorem bytes_question : bytes "?" = ['?'.toUInt8] := by decide

theorem bytes_hash : bytes "#" = ['#'.toUInt8] := by decide

theorem bytes_slash : bytes "/" = ['/'.toUInt8] := by decide

theorem bytes_at : bytes "@" = ['@'.toUInt8] := by decide

theorem bytes_colon : bytes ":" = [':'.toUInt8] := by decide

theorem bytes_slashes : bytes "//" = ['/'.toUInt8, '/'.toUInt8] := by decide

theorem hasSuffix_single (c : UInt8) (s : GoString) (h : hasSuffix s [c] = true) :
    ∃ a, s = a ++ [c] := by
  unfold hasSuffix at h
  rw [List.isSuffixOf_iff_suffix] at h
  obtain ⟨a, ha⟩ := h
  exact ⟨a, ha.symm⟩

theorem hasSuffix_append_single (c : UInt8) (a : GoString) : hasSuffix (a ++ [c]) [c] = true := by
  unfold hasSuffix
  rw [List.isSuffixOf_iff_suffix]
  exact ⟨a, rfl⟩

/-- What the query split keeps: `rest1` and `rq` are made of bytes of `rest`,
and `rest1` holds no `?`. -/
theorem QuerySplit_mem (rest rest1 : GoString) (fq : Bool) (rq : GoString)
    (h : QuerySplit rest rest1 fq rq) :
    (∀ x ∈ rest1, x ∈ rest) ∧ (∀ x ∈ rq, x ∈ rest) ∧ '?'.toUInt8 ∉ rest1 := by
  rcases h with ⟨hs, hc, h1, _, hrq⟩ | ⟨_, h1, _, hrq⟩
  · rw [bytes_question] at hs
    obtain ⟨a, ha⟩ := hasSuffix_single _ _ hs
    have hlen : rest.length - 1 = a.length := by rw [ha]; simp
    have htake : rest1 = a := by
      rw [h1, hlen, ha, List.take_left' rfl]
    refine ⟨?_, ?_, ?_⟩
    · intro x hx
      rw [htake] at hx
      rw [ha]
      exact List.mem_append_left _ hx
    · intro x hx
      rw [hrq] at hx
      simp at hx
    · rw [htake]
      rw [ha, List.count_append] at hc
      have h0 : List.count '?'.toUInt8 a = 0 := by
        have : List.count '?'.toUInt8 ['?'.toUInt8] = 1 := by decide
        omega
      exact List.count_eq_zero.mp h0
  · rw [bytes_question] at h1 hrq
    rcases cut_single_cases '?'.toUInt8 rest with ⟨hn, hcut⟩ | ⟨a, b, hn, hab, hcut⟩
    · rw [hcut] at h1 hrq
      simp only at h1 hrq
      subst h1 hrq
      exact ⟨fun _ hx => hx, fun _ hx => by simp at hx, hn⟩
    · rw [hcut] at h1 hrq
      simp only at h1 hrq
      subst h1 hrq
      refine ⟨fun x hx => ?_, fun x hx => ?_, hn⟩
      · rw [hab]; exact List.mem_append_left _ hx
      · rw [hab]; exact List.mem_append_right _ (List.mem_cons_of_mem _ hx)

/-- The query split of a string without `?` followed by a printed query
gives the string back, and a query that prints the same. -/
theorem QuerySplit_queryPart (body rest1 : GoString) (fq0 : Bool) (rq0 : GoString)
    (fq : Bool) (rq : GoString) (hbody : '?'.toUInt8 ∉ body)
    (h : QuerySplit (body ++ queryPart fq0 rq0) rest1 fq rq) :
    rest1 = body ∧ queryPart fq rq = queryPart fq0 rq0 := by
  unfold QuerySplit at h
  unfold queryPart at h ⊢
  simp only [bytes_question] at h ⊢
  by_cases hq0 : fq0 = true ∨ rq0 ≠ []
  · rw [if_pos hq0] at h ⊢
    have hcut : cut (body ++ (['?'.toUInt8] ++ rq0)) ['?'.toUInt8] = (body, rq0, true) :=
      cut_single_append _ body rq0 hbody
    rcases h with ⟨hs, hc, h1, hfq, hrq⟩ | ⟨hn, h1, hfq, hrq⟩
    · obtain ⟨a, ha⟩ := hasSuffix_single _ _ hs
      have hcb : List.count '?'.toUInt8 body = 0 := List.count_eq_zero.mpr hbody
      rw [List.count_append, List.count_append, hcb] at hc
      have h1c : List.count '?'.toUInt8 ['?'.toUInt8] = 1 := by decide
      have hrq0 : '?'.toUInt8 ∉ rq0 := List.count_eq_zero.mp (by omega)
      have hnil : rq0 = [] := by
        by_contra hne
        have hlast : (body ++ (['?'.toUInt8] ++ rq0)).getLast? = rq0.getLast? := by
          rw [← List.append_assoc, List.getLast?_append_of_ne_nil _ hne]
        rw [ha, List.getLast?_append_of_ne_nil _ (by simp)] at hlast
        simp only [List.getLast?_singleton] at hlast
        exact hrq0 (List.mem_of_getLast?_eq_some hlast.symm)
      rw [hnil] at h1
      rw [h1, hfq, hrq, hnil, if_pos (Or.inl rfl)]
      refine ⟨?_, rfl⟩
      have hl : (body ++ (['?'.toUInt8] ++ [])).length - 1 = body.length := by
        simp only [List.length_append, List.length_cons, List.length_nil]
        omega
      rw [hl]
      exact List.take_left' rfl
    · rw [hcut] at h1 hrq
      simp only at h1 hrq
      have hne : rq0 ≠ [] := by
        rintro rfl
        apply hn
        refine ⟨hasSuffix_append_single _ _, ?_⟩
        rw [List.count_append, List.count_eq_zero.mpr hbody]
        decide
      rw [h1, hfq, hrq, if_pos (Or.inr hne)]
      exact ⟨rfl, rfl⟩
  · rw [if_neg hq0] at h ⊢
    simp only [List.append_nil] at h
    have hcut : cut body ['?'.toUInt8] = (body, [], false) := cut_single_not_mem _ body hbody
    rcases h with ⟨hs, _⟩ | ⟨_, h1, hfq, hrq⟩
    · obtain ⟨a, ha⟩ := hasSuffix_single _ _ hs
      exact absurd (by rw [ha]; exact List.mem_append_right _ (List.mem_singleton_self _)) hbody
    · rw [hcut] at h1 hrq
      simp only at h1 hrq
      rw [h1, hfq, hrq, if_neg (by simp)]
      exact ⟨rfl, rfl⟩

/-- The successful runs of `Parse`. -/
theorem Parse_inv (rawURL : GoString) (w : URL) (h : Parse rawURL = .ok w) :
    ∃ url, parse (cut rawURL (bytes "#")).1 false = .ok url ∧
      (((cut rawURL (bytes "#")).2.1 = [] ∧ w = url) ∨
       ((cut rawURL (bytes "#")).2.1 ≠ [] ∧
          url.setFragment (cut rawURL (bytes "#")).2.1 = .ok w)) := by
  unfold Parse at h
  simp only at h
  cases hp : parse (cut rawURL (bytes "#")).1 false with
  | error e => rw [hp] at h; simp at h
  | ok url =>
    rw [hp] at h
    simp only at h
    refine ⟨url, rfl, ?_⟩
    split at h
    · rename_i hnil
      simp only [Except.ok.injEq] at h
      exact Or.inl ⟨hnil, h.symm⟩
    · rename_i hne
      cases hf : url.setFragment (cut rawURL (bytes "#")).2.1 with
      | error e => rw [hf] at h; simp at h
      | ok w' =>
        rw [hf] at h
        simp only [Except.ok.injEq] at h
        subst h
        exact Or.inr ⟨hne, rfl⟩

theorem getScheme_rest_mem (rawURL scheme rest : GoString)
    (h : getScheme rawURL = .ok (scheme, rest)) : ∀ x ∈ rest, x ∈ rawURL := by
  intro x hx
  rcases getScheme_ok rawURL scheme rest h with ⟨_, h2⟩ | ⟨_, h2⟩
  · rw [← h2]; exact hx
  · rw [h2]; exact List.mem_append_right _ (List.mem_cons_of_mem _ hx)

/-- What `parse` guarantees about the URL it returns. -/
theorem parse_facts (rawURL : GoString) (url : URL) (h : parse rawURL false = .ok url)
    (hhash : '#'.toUInt8 ∉ rawURL) :
    (url.Scheme = [] ∨ isScheme url.Scheme = true) ∧
    '#'.toUInt8 ∉ url.RawQuery ∧
    (url.Opaque ≠ [] → '?'.toUInt8 ∉ url.Opaque ∧ '#'.toUInt8 ∉ url.Opaque ∧
      hasPrefix url.Opaque (bytes "/") = false) := by
  rcases parse_inv rawURL url h with ⟨_, hu⟩ | ⟨scheme, rest, rest1, fq, rq, hgs, hqs, hcase⟩
  · subst hu
    exact ⟨Or.inl rfl, by simp [URL.zero], fun hne => absurd rfl hne⟩
  · have hrest := getScheme_rest_mem rawURL scheme rest hgs
    obtain ⟨hm1, hm2, hq1⟩ := QuerySplit_mem rest rest1 fq rq hqs
    have hsch : toLower scheme = [] ∨ isScheme (toLower scheme) = true := by
      rcases getScheme_ok rawURL scheme rest hgs with ⟨h1, _⟩ | ⟨h1, _⟩
      · left; rw [h1]; rfl
      · right; exact toLower_isScheme scheme h1
    have hrq : '#'.toUInt8 ∉ rq := fun hx => hhash (hrest _ (hm2 _ hx))
    rcases hcase with ⟨hpre, _, hu⟩ | ⟨_, user, host, _, hsp⟩ | ⟨_, _, oh, hsp⟩
    · subst hu
      refine ⟨hsch, hrq, fun _ => ⟨hq1, fun hx => hhash (hrest _ (hm1 _ hx)), hpre⟩⟩
    · have := setPath_eq _ _ _ hsp
      rw [this]
      exact ⟨hsch, hrq, fun hne => absurd rfl hne⟩
    · have := setPath_eq _ _ _ hsp
      rw [this]
      exact ⟨hsch, hrq, fun hne => absurd rfl hne⟩

theorem cut_hash_fst (rawURL : GoString) : '#'.toUInt8 ∉ (cut rawURL (bytes "#")).1 := by
  rw [bytes_hash]
  rcases cut_single_cases '#'.toUInt8 rawURL with ⟨hn, hcut⟩ | ⟨a, b, hn, _, hcut⟩
  · rw [hcut]; exact hn
  · rw [hcut]; exact hn

/-- What `Parse` guarantees about the URL it returns: the scheme is empty or
well formed, the query holds no `#`, and a non-empty opaque part holds no
`?` and no `#` and does not start with `/`. -/
theorem Parse_facts (rawURL : GoString) (w : URL) (h : Parse rawURL = .ok w) :
    (w.Scheme = [] ∨ isScheme w.Scheme = true) ∧
    '#'.toUInt8 ∉ w.RawQuery ∧
    (w.Opaque ≠ [] → '?'.toUInt8 ∉ w.Opaque ∧ '#'.toUInt8 ∉ w.Opaque ∧
      hasPrefix w.Opaque (bytes "/") = false) := by
  obtain ⟨url, hp, hw⟩ := Parse_inv rawURL w h
  have hf := parse_facts _ url hp (cut_hash_fst rawURL)
  rcases hw with ⟨_, rfl⟩ | ⟨_, hsf⟩
  · exact hf
  · have := setFragment_eq _ _ _ hsf
    rw [this]
    exact hf


/-! ## Theorems: `String` and the second parse -/

/-- The string form of a URL with a scheme and a host. -/
theorem String_eq (v : URL) (hs : v.Scheme ≠ []) (hh : v.Host ≠ []) :
    v.String = v.Scheme ++ bytes ":" ++
      (hierPart v ++ (queryPart v.ForceQuery v.RawQuery ++ fragmentPart v)) := by
  have hlen : ∀ (x : GoString), ((v.Scheme ++ x).length = 0) = False := by
    intro x
    apply eq_false
    intro h
    rw [List.length_eq_zero, List.append_eq_nil] at h
    exact hs h.1
  unfold URL.String hierPart queryPart fragmentPart pathPart
  simp only [hs, hh, ne_eq, not_false_eq_true, if_true, true_or, or_true, false_and,
    and_false, if_false, and_true]
  by_cases ho : v.Opaque = []
  · simp only [ho, not_true_eq_false, if_false]
    by_cases hp : ¬v.EscapedPath = [] ∧ ¬List.head? v.EscapedPath = some '/'.toUInt8
    · cases hu : v.User with
      | none =>
        simp only [userPart, List.append_nil, hp, not_false_eq_true, and_self, if_true,
          List.append_assoc, hlen, false_and, if_false]
        split <;> split <;> simp only [List.append_assoc, List.append_nil, List.nil_append]
      | some ui =>
        simp only [userPart, List.append_nil, hp, not_false_eq_true, and_self, if_true,
          List.append_assoc, hlen, false_and, if_false]
        split <;> split <;> simp only [List.append_assoc, List.append_nil, List.nil_append]
    · cases hu : v.User with
      | none =>
        simp only [userPart, List.append_nil, hp, if_false,
          List.append_assoc, hlen, false_and]
        split <;> split <;> simp only [List.append_assoc, List.append_nil, List.nil_append]
      | some ui =>
        simp only [userPart, List.append_nil, hp, if_false,
          List.append_assoc, hlen, false_and]
        split <;> split <;> simp only [List.append_assoc, List.append_nil, List.nil_append]
  · simp only [ho, not_false_eq_true, if_true]
    split <;> split <;> simp only [List.append_assoc, List.append_nil, List.nil_append]


theorem not_mem_escape_host (h : GoString) :
    '@'.toUInt8 ∉ escape h encodeHost ∧ '/'.toUInt8 ∉ escape h encodeHost ∧
    '?'.toUInt8 ∉ escape h encodeHost ∧ '#'.toUInt8 ∉ escape h encodeHost :=
  ⟨not_mem_escape _ _ _ (by decide) (by decide) (by decide) (by decide),
   not_mem_escape _ _ _ (by decide) (by decide) (by decide) (by decide),
   not_mem_escape _ _ _ (by decide) (by decide) (by decide) (by decide),
   not_mem_escape _ _ _ (by decide) (by decide) (by decide) (by decide)⟩

theorem not_mem_escape_user (s : GoString) :
    '@'.toUInt8 ∉ escape s encodeUserPassword ∧ '/'.toUInt8 ∉ escape s encodeUserPassword ∧
    '?'.toUInt8 ∉ escape s encodeUserPassword ∧ '#'.toUInt8 ∉ escape s encodeUserPassword ∧
    ':'.toUInt8 ∉ escape s encodeUserPassword :=
  ⟨not_mem_escape _ _ _ (by decide) (by decide) (by decide) (by decide),
   not_mem_escape _ _ _ (by decide) (by decide) (by decide) (by decide),
   not_mem_escape _ _ _ (by decide) (by decide) (by decide) (by decide),
   not_mem_escape _ _ _ (by decide) (by decide) (by decide) (by decide),
   not_mem_escape _ _ _ (by decide) (by decide) (by decide) (by decide)⟩

/-- The bytes `/`, `?` and `#` do not occur in what `String` writes for the
user-info. -/
theorem not_mem_userPart (ui : Option Userinfo) :
    '/'.toUInt8 ∉ userPart ui ∧ '?'.toUInt8 ∉ userPart ui ∧ '#'.toUInt8 ∉ userPart ui := by
  cases ui with
  | none => simp [userPart]
  | some u =>
    obtain ⟨_, h2, h3, h4, _⟩ := not_mem_escape_user u.username
    obtain ⟨_, p2, p3, p4, _⟩ := not_mem_escape_user u.password
    simp only [userPart, Userinfo.String, bytes_at, bytes_colon]
    split
    · simp only [List.mem_append, List.mem_singleton, not_or]
      exact ⟨⟨⟨⟨h2, by decide⟩, p2⟩, by decide⟩, ⟨⟨⟨h3, by decide⟩, p3⟩, by decide⟩,
        ⟨⟨⟨h4, by decide⟩, p4⟩, by decide⟩⟩
    · simp only [List.mem_append, List.mem_singleton, not_or]
      exact ⟨⟨h2, by decide⟩, ⟨h3, by decide⟩, ⟨h4, by decide⟩⟩

/-- `parseAuthority` reads back the user-info that `String` wrote. -/
theorem parseAuthority_userPart (ui : Option Userinfo) (h : GoString)
    (user : Option Userinfo) (host : GoString)
    (hpa : parseAuthority (userPart ui ++ escape h encodeHost) = .ok (user, host)) :
    userPart user = userPart ui := by
  have hat := (not_mem_escape_host h).1
  cases ui with
  | none =>
    simp only [userPart, List.nil_append] at hpa ⊢
    unfold parseAuthority at hpa
    rw [bytes_at, lastIndex_single_not_mem _ _ hat] at hpa
    simp only at hpa
    cases hph : parseHost (escape h encodeHost) with
    | error e => rw [hph] at hpa; simp at hpa
    | ok host' =>
      rw [hph] at hpa
      simp only [Except.ok.injEq, Prod.mk.injEq] at hpa
      rw [← hpa.1]
  | some u =>
    have hidx : lastIndex (u.String ++ '@'.toUInt8 :: escape h encodeHost) ['@'.toUInt8] =
        some u.String.length := lastIndex_single_append _ _ _ hat
    simp only [userPart, bytes_at, List.append_assoc, List.singleton_append] at hpa ⊢
    unfold parseAuthority at hpa
    rw [bytes_at, hidx] at hpa
    simp only at hpa
    cases hph : parseHost (List.drop (u.String.length + 1)
        (u.String ++ '@'.toUInt8 :: escape h encodeHost)) with
    | error e => rw [hph] at hpa; simp at hpa
    | ok host' =>
      rw [hph] at hpa
      simp only [List.take_left' rfl] at hpa
      split at hpa
      · simp at hpa
      · obtain ⟨_, _, _, _, hcolon⟩ := not_mem_escape_user u.username
        have hrt1 := unescape_escape encodeUserPassword (by decide) (by decide) (by decide)
          u.username
        have hrt2 := unescape_escape encodeUserPassword (by decide) (by decide) (by decide)
          u.password
        by_cases hps : u.passwordSet = true
        · have hstr : u.String = escape u.username encodeUserPassword ++
              ':'.toUInt8 :: escape u.password encodeUserPassword := by
            simp only [Userinfo.String, hps, if_true, bytes_colon, List.append_assoc,
              List.singleton_append]
          have hc : contains u.String (bytes ":") = true := by
            rw [bytes_colon, contains_single, hstr]
            exact List.mem_append_right _ (List.mem_cons_self _ _)
          have hcut : cut u.String (bytes ":") = (escape u.username encodeUserPassword,
              escape u.password encodeUserPassword, true) := by
            rw [bytes_colon, hstr]
            exact cut_single_append _ _ _ hcolon
          rw [hc, hcut] at hpa
          simp only [Bool.not_true, Bool.false_eq_true, if_false, hrt1, hrt2, Except.ok.injEq,
            Prod.mk.injEq] at hpa
          rw [← hpa.1]
          simp only [Userinfo.String, hps, if_true]
        · have hstr : u.String = escape u.username encodeUserPassword := by
            simp only [Userinfo.String, hps, Bool.false_eq_true, if_false]
          have hc : contains u.String (bytes ":") = false := by
            rw [bytes_colon, hstr]
            exact contains_single_false _ _ hcolon
          rw [hc] at hpa
          simp only [Bool.not_false, if_true] at hpa
          rw [hstr, hrt1] at hpa
          simp only [Except.ok.injEq, Prod.mk.injEq] at hpa
          rw [← hpa.1]
          simp only [Userinfo.String, Bool.false_eq_true, if_false, hps]

theorem splitAuthority_append (a p : GoString) (ha : '/'.toUInt8 ∉ a)
    (hp : p = [] ∨ p.head? = some '/'.toUInt8) : splitAuthority (a ++ p) = (a, p) := by
  unfold splitAuthority
  rw [bytes_slash]
  rcases hp with rfl | hp
  · rw [List.append_nil, index_single_not_mem _ _ ha]
  · cases p with
    | nil => simp at hp
    | cons c rest =>
      simp only [List.head?_cons, Option.some.injEq] at hp
      subst hp
      rw [index_single_append _ _ _ ha]
      simp only [List.take_left' rfl, List.drop_left' rfl]

theorem pathPart_head (p : GoString) :
    pathPart p = [] ∨ (pathPart p).head? = some '/'.toUInt8 := by
  unfold pathPart
  split
  · right; rw [bytes_slash]; rfl
  · rename_i h
    by_cases hp : p = []
    · left; rw [hp]; rfl
    · right
      have : ¬ (p.head? ≠ some '/'.toUInt8) := fun hx => h ⟨hp, hx⟩
      simpa using this

theorem pathPart_idem (p : GoString) (h : p = [] ∨ p.head? = some '/'.toUInt8) :
    pathPart p = p := by
  unfold pathPart
  rcases h with rfl | h
  · simp
  · rw [if_neg (fun hx => hx.2 h)]
    rfl

theorem validEncoded_pathPart (p : GoString) (h : validEncoded p encodePath = true) :
    validEncoded (pathPart p) encodePath = true := by
  unfold pathPart
  rw [validEncoded_append, h]
  split
  · decide
  · rfl


theorem hasPrefix_slashes (s : GoString) (h : hasPrefix s (bytes "//") = true) :
    hasPrefix s (bytes "/") = true := by
  rw [bytes_slashes] at h
  rw [bytes_slash]
  unfold hasPrefix at h ⊢
  rw [List.isPrefixOf_iff_prefix] at h ⊢
  obtain ⟨t, ht⟩ := h
  exact ⟨'/'.toUInt8 :: t, by rw [← ht]; rfl⟩

theorem isScheme_not_mem (sc : GoString) (h : isScheme sc = true) :
    '#'.toUInt8 ∉ sc ∧ '?'.toUInt8 ∉ sc := by
  have hr := isScheme_isRawScheme sc h
  constructor
  · intro hx
    exact (schemeByte_not_special _ (isRawScheme_mem sc hr _ hx)).1 rfl
  · intro hx
    exact (schemeByte_not_special _ (isRawScheme_mem sc hr _ hx)).2.1 rfl

/-- The bytes `?` and `#` do not occur in what `String` writes between the
scheme and the query. -/
theorem not_mem_hierPart (v : URL)
    (ho : v.Opaque ≠ [] → '?'.toUInt8 ∉ v.Opaque ∧ '#'.toUInt8 ∉ v.Opaque ∧
      hasPrefix v.Opaque (bytes "/") = false) :
    '?'.toUInt8 ∉ hierPart v ∧ '#'.toUInt8 ∉ hierPart v := by
  unfold hierPart
  split
  · rename_i hne
    exact ⟨(ho hne).1, (ho hne).2.1⟩
  · obtain ⟨_, u2, u3⟩ := not_mem_userPart v.User
    obtain ⟨_, _, h3, h4⟩ := not_mem_escape_host v.Host
    have hv := validEncoded_pathPart _ (EscapedPath_valid v)
    have p3 : '?'.toUInt8 ∉ pathPart v.EscapedPath :=
      validEncoded_not_mem _ _ _ hv (by decide)
    have p4 : '#'.toUInt8 ∉ pathPart v.EscapedPath :=
      validEncoded_not_mem _ _ _ hv (by decide)
    rw [bytes_slashes]
    simp only [List.mem_append, List.mem_cons, List.mem_singleton, List.not_mem_nil,
      or_false, not_or]
    exact ⟨⟨⟨⟨⟨by decide, by decide⟩, u2⟩, h3⟩, p3⟩, ⟨⟨⟨by decide, by decide⟩, u3⟩, h4⟩, p4⟩

theorem EscapedPath_congr (a b : URL) (h1 : a.Path = b.Path) (h2 : a.RawPath = b.RawPath) :
    a.EscapedPath = b.EscapedPath := by
  unfold URL.EscapedPath
  rw [h1, h2]

theorem EscapedFragment_congr (a b : URL) (h1 : a.Fragment = b.Fragment)
    (h2 : a.RawFragment = b.RawFragment) : a.EscapedFragment = b.EscapedFragment := by
  unfold URL.EscapedFragment
  rw [h1, h2]

theorem hasPrefix_append (p x : GoString) : hasPrefix (p ++ x) p = true := by
  unfold hasPrefix
  rw [List.isPrefixOf_iff_prefix]
  exact ⟨x, rfl⟩

/-- What `parse` reads from the string form (without fragment) of a URL with
a well-formed scheme and a host: the same query, and either the same opaque
part, or the same user-info and path as printed. -/
theorem parse_String (v url : URL) (hsc : isScheme v.Scheme = true)
    (ho : v.Opaque ≠ [] → '?'.toUInt8 ∉ v.Opaque ∧ '#'.toUInt8 ∉ v.Opaque ∧
      hasPrefix v.Opaque (bytes "/") = false)
    (hp : parse (v.Scheme ++ bytes ":" ++
      (hierPart v ++ queryPart v.ForceQuery v.RawQuery)) false = .ok url) :
    queryPart url.ForceQuery url.RawQuery = queryPart v.ForceQuery v.RawQuery ∧
    url.Fragment = [] ∧
    ((v.Opaque ≠ [] ∧ url.Opaque = v.Opaque) ∨
     (v.Opaque = [] ∧ url.Opaque = [] ∧ userPart url.User = userPart v.User ∧
       pathPart url.EscapedPath = pathPart v.EscapedPath)) := by
  have hraw := isScheme_isRawScheme _ hsc
  have hs : v.Scheme ≠ [] := isRawScheme_ne_nil _ hraw
  obtain ⟨hh3, _⟩ := not_mem_hierPart v ho
  have hform : v.Scheme ++ bytes ":" ++ (hierPart v ++ queryPart v.ForceQuery v.RawQuery) =
      v.Scheme ++ ':'.toUInt8 :: (hierPart v ++ queryPart v.ForceQuery v.RawQuery) := by
    rw [bytes_colon]
    simp only [List.append_assoc, List.singleton_append]
  rw [hform] at hp
  rcases parse_inv _ url hp with ⟨hstar, _⟩ | ⟨scheme, rest, rest1, fq, rq, hgs, hqs, hcase⟩
  · exfalso
    have hlen := congrArg List.length hstar
    have h1 : (bytes "*").length = 1 := by decide
    have h2 : v.Scheme.length ≠ 0 := fun hx => hs (List.length_eq_zero.mp hx)
    rw [h1] at hlen
    simp only [List.length_append, List.length_cons] at hlen
    omega
  · rw [getScheme_scheme _ _ hraw] at hgs
    simp only [Except.ok.injEq, Prod.mk.injEq] at hgs
    obtain ⟨hg1, hg2⟩ := hgs
    subst hg1 hg2
    rw [toLower_of_isScheme _ hsc] at hcase
    obtain ⟨hr1, hqp⟩ := QuerySplit_queryPart _ rest1 _ _ fq rq hh3 hqs
    subst hr1
    by_cases hop : v.Opaque = []
    · have hhier : hierPart v = bytes "//" ++
          ((userPart v.User ++ escape v.Host encodeHost) ++ pathPart v.EscapedPath) := by
        unfold hierPart
        rw [if_neg (fun hx => hx hop)]
        simp only [List.append_assoc]
      have hpre2 : hasPrefix (hierPart v) (bytes "//") = true := by
        rw [hhier]; exact hasPrefix_append _ _
      rcases hcase with ⟨hpre, _, _⟩ | ⟨_, user, host, hpa, hsp⟩ | ⟨_, hn4, _⟩
      · rw [hasPrefix_slashes _ hpre2] at hpre
        exact Bool.noConfusion hpre
      · have hdrop : List.drop 2 (hierPart v) =
            (userPart v.User ++ escape v.Host encodeHost) ++ pathPart v.EscapedPath := by
          rw [hhier, bytes_slashes]
          rfl
        have hA : '/'.toUInt8 ∉ userPart v.User ++ escape v.Host encodeHost := by
          simp only [List.mem_append, not_or]
          exact ⟨(not_mem_userPart v.User).1, (not_mem_escape_host v.Host).2.1⟩
        rw [hdrop, splitAuthority_append _ _ hA (pathPart_head _)] at hpa hsp
        simp only at hpa hsp
        have huser := parseAuthority_userPart _ _ _ _ hpa
        obtain ⟨hep, hurl⟩ := setPath_EscapedPath _ _ _ hsp
          (validEncoded_pathPart _ (EscapedPath_valid v)) (pathPart_head _)
        refine ⟨?_, ?_, Or.inr ⟨hop, ?_, ?_, ?_⟩⟩
        · rw [hurl]; exact hqp
        · rw [hurl]; rfl
        · rw [hurl]; rfl
        · rw [hurl]; exact huser
        · rw [hep]; exact pathPart_idem _ (pathPart_head _)
      · exact absurd ⟨hs, hpre2⟩ hn4
    · have hhier : hierPart v = v.Opaque := by
        unfold hierPart
        rw [if_pos hop]
      rw [hhier] at hcase
      rcases hcase with ⟨_, _, hu⟩ | ⟨hp2, _⟩ | ⟨hn1, _, _⟩
      · subst hu
        exact ⟨hqp, rfl, Or.inl ⟨hop, rfl⟩⟩
      · have h1 := hasPrefix_slashes _ hp2
        rw [(ho hop).2.2] at h1
        exact Bool.noConfusion h1
      · exact absurd ⟨(ho hop).2.2, hs⟩ hn1

/-- Two URLs with the same scheme and host print the same when their
queries and fragments print the same and they have either the same opaque
part or, without one, user-info and paths that print the same. -/
theorem String_congr (v w : URL) (hs : v.Scheme ≠ []) (hh : v.Host ≠ [])
    (hq : queryPart w.ForceQuery w.RawQuery = queryPart v.ForceQuery v.RawQuery)
    (hf : fragmentPart w = fragmentPart v)
    (hc : (v.Opaque ≠ [] ∧ w.Opaque = v.Opaque) ∨
     (v.Opaque = [] ∧ w.Opaque = [] ∧ userPart w.User = userPart v.User ∧
       pathPart w.EscapedPath = pathPart v.EscapedPath)) :
    URL.String { w with Scheme := v.Scheme, Host := v.Host } = v.String := by
  rw [String_eq v hs hh, String_eq { w with Scheme := v.Scheme, Host := v.Host } hs hh]
  have hfrag : fragmentPart { w with Scheme := v.Scheme, Host := v.Host } = fragmentPart w := by
    unfold fragmentPart
    rw [EscapedFragment_congr { w with Scheme := v.Scheme, Host := v.Host } w rfl rfl]
  have hpath : URL.EscapedPath { w with Scheme := v.Scheme, Host := v.Host } =
      w.EscapedPath := EscapedPath_congr _ _ rfl rfl
  have hhier : hierPart { w with Scheme := v.Scheme, Host := v.Host } = hierPart v := by
    unfold hierPart
    rw [hpath]
    simp only
    rcases hc with ⟨h1, h2⟩ | ⟨h1, h2, h3, h4⟩
    · rw [h2, if_pos h1, if_pos h1]
    · rw [h2, h1, h3, h4]
  rw [hfrag, hhier, hf]
  simp only
  rw [hq]

/-- Parsing the string form of a URL with a well-formed scheme and a host,
and giving the result that scheme and host again, prints the same string. -/
theorem String_Parse_String (v w : URL) (hsc : isScheme v.Scheme = true) (hh : v.Host ≠ [])
    (hq : '#'.toUInt8 ∉ v.RawQuery)
    (ho : v.Opaque ≠ [] → '?'.toUInt8 ∉ v.Opaque ∧ '#'.toUInt8 ∉ v.Opaque ∧
      hasPrefix v.Opaque (bytes "/") = false)
    (hw : Parse v.String = .ok w) :
    URL.String { w with Scheme := v.Scheme, Host := v.Host } = v.String := by
  have hraw := isScheme_isRawScheme _ hsc
  have hs : v.Scheme ≠ [] := isRawScheme_ne_nil _ hraw
  obtain ⟨hh3, hh4⟩ := not_mem_hierPart v ho
  have hS := String_eq v hs hh
  have hpre : '#'.toUInt8 ∉ v.Scheme ++ bytes ":" ++
      (hierPart v ++ queryPart v.ForceQuery v.RawQuery) := by
    have hqp : '#'.toUInt8 ∉ queryPart v.ForceQuery v.RawQuery := by
      unfold queryPart
      split
      · rw [bytes_question]
        simp only [List.mem_append, List.mem_singleton, not_or]
        exact ⟨by decide, hq⟩
      · simp
    rw [bytes_colon]
    simp only [List.mem_append, List.mem_singleton, not_or]
    exact ⟨⟨(isScheme_not_mem _ hsc).1, by decide⟩, hh4, hqp⟩
  have hS2 : v.String = (v.Scheme ++ bytes ":" ++
      (hierPart v ++ queryPart v.ForceQuery v.RawQuery)) ++ fragmentPart v := by
    rw [hS]
    simp only [List.append_assoc]
  rw [hS2] at hw
  obtain ⟨url, hp, halt⟩ := Parse_inv _ w hw
  by_cases hf : v.Fragment = []
  · have hfp : fragmentPart v = [] := by
      unfold fragmentPart
      rw [if_neg (fun hx => hx hf)]
    rw [hfp, List.append_nil, bytes_hash, cut_single_not_mem _ _ hpre] at hp halt
    simp only at hp halt
    rcases halt with ⟨_, hwu⟩ | ⟨hne, _⟩
    · subst hwu
      obtain ⟨h1, h2, h3⟩ := parse_String v w hsc ho hp
      refine String_congr v w hs hh h1 ?_ h3
      rw [hfp]
      unfold fragmentPart
      rw [if_neg (fun hx => hx h2)]
    · exact absurd rfl hne
  · have hfp : fragmentPart v = '#'.toUInt8 :: v.EscapedFragment := by
      unfold fragmentPart
      rw [if_pos hf, bytes_hash]
      rfl
    rw [hfp, bytes_hash, cut_single_append _ _ _ hpre] at hp halt
    simp only at hp halt
    rcases halt with ⟨hnil, _⟩ | ⟨_, hsf⟩
    · exact absurd hnil (EscapedFragment_ne_nil v hf)
    · obtain ⟨h1, _, h3⟩ := parse_String v url hsc ho hp
      obtain ⟨hef, hfne, hweq⟩ := setFragment_EscapedFragment _ _ _ hsf
        (EscapedFragment_valid v)
      have hwq : queryPart w.ForceQuery w.RawQuery = queryPart v.ForceQuery v.RawQuery := by
        rw [hweq]; exact h1
      have hwp : w.EscapedPath = url.EscapedPath :=
        EscapedPath_congr _ _ (by rw [hweq]) (by rw [hweq])
      have hwo : w.Opaque = url.Opaque := by rw [hweq]
      have hwu : w.User = url.User := by rw [hweq]
      refine String_congr v w hs hh hwq ?_ ?_
      · rw [hfp]
        unfold fragmentPart
        rw [if_pos (hfne (EscapedFragment_ne_nil v hf)), hef, bytes_hash]
        rfl
      · rw [hwo, hwu, hwp]
        exact h3


/-! ## Theorems: what `unescape` returns -/

/-- The first loop of `unescape` counts upwards, and it leaves the count
unchanged only on a string without `%`. -/
theorem unescapeScan_count (m : Encoding) (l : Nat) : ∀ (s : GoString) (n : Nat) (hp : Bool)
    (r : Nat × Bool), s.length ≤ l → unescapeScan m s n hp = .ok r →
    n ≤ r.1 ∧ (r.1 = n → '%'.toUInt8 ∉ s) := by
  induction l with
  | zero =>
    intro s n hp r hl h
    have hs : s = [] := List.length_eq_zero.mp (Nat.le_zero.mp hl)
    subst hs
    simp only [unescapeScan, Except.ok.injEq] at h
    subst h
    simp
  | succ l ih =>
    intro s n hp r hl h
    cases s with
    | nil =>
      simp only [unescapeScan, Except.ok.injEq] at h
      subst h
      simp
    | cons c rest =>
      simp only [List.length_cons] at hl
      unfold unescapeScan at h
      split at h
      · match rest, h, hl with
        | [], h, _ => simp at h
        | [_], h, _ => simp at h
        | a :: b :: rest', h, hl =>
          simp only at h
          split at h
          · simp at h
          · split at h
            · simp at h
            · split at h
              · simp at h
              · simp only [List.length_cons] at hl
                have := ih rest' (n + 1) hp r (by omega) h
                exact ⟨by omega, fun hx => by omega⟩
      · rename_i hc
        split at h
        · obtain ⟨h1, h2⟩ := ih rest n _ r (by omega) h
          refine ⟨h1, fun hx => ?_⟩
          simp only [List.mem_cons, not_or]
          exact ⟨fun hy => hc hy.symm, h2 hx⟩
        · split at h
          · simp at h
          · obtain ⟨h1, h2⟩ := ih rest n _ r (by omega) h
            refine ⟨h1, fun hx => ?_⟩
            simp only [List.mem_cons, not_or]
            exact ⟨fun hy => hc hy.symm, h2 hx⟩

theorem unescapeBuild_cons_of_ne (m : Encoding) (c : UInt8) (rest : GoString)
    (hc : c ≠ '%'.toUInt8) :
    unescapeBuild m (c :: rest) =
      (if c = '+'.toUInt8 then (if m = encodeQueryComponent then ' '.toUInt8 else '+'.toUInt8)
        else c) :: unescapeBuild m rest := by
  conv_lhs => unfold unescapeBuild
  rw [if_neg hc]
  split <;> rfl

theorem unescapeBuild_percent (m : Encoding) (a b : UInt8) (rest : GoString) :
    unescapeBuild m ('%'.toUInt8 :: a :: b :: rest) =
      (unhex a <<< 4 ||| unhex b) :: unescapeBuild m rest := by
  conv_lhs => unfold unescapeBuild
  simp

/-- Outside query components the second loop of `unescape` leaves a string
without `%` as it is. -/
theorem unescapeBuild_of_not_mem (m : Encoding) (hm : m ≠ encodeQueryComponent)
    (s : GoString) (h : '%'.toUInt8 ∉ s) : unescapeBuild m s = s := by
  induction s with
  | nil => rfl
  | cons c rest ih =>
    simp only [List.mem_cons, not_or] at h
    unfold unescapeBuild
    rw [if_neg (fun hx => h.1 hx.symm), ih h.2]
    split
    · rename_i hplus
      simp [hm, hplus]
    · rfl

/-- Outside query components `unescape`, when it succeeds, returns what its
second loop builds. -/
theorem unescape_ok_decode (m : Encoding) (hm : m ≠ encodeQueryComponent) (s p : GoString)
    (h : unescape s m = .ok p) : p = unescapeBuild m s := by
  unfold unescape at h
  cases hscan : unescapeScan m s 0 false with
  | error e => rw [hscan] at h; simp at h
  | ok r =>
    rw [hscan] at h
    simp only at h
    split at h
    · rename_i h0
      simp only [Except.ok.injEq] at h
      rw [← h]
      exact (unescapeBuild_of_not_mem m hm s
        ((unescapeScan_count m s.length s 0 false r (le_refl _) hscan).2 h0.1)).symm
    · simp only [Except.ok.injEq] at h
      exact h.symm

/-- Outside query components the second loop of `unescape` does not depend
on the mode. -/
theorem unescapeBuild_mode (m m' : Encoding) (hm : m ≠ encodeQueryComponent)
    (hm' : m' ≠ encodeQueryComponent) (l : Nat) :
    ∀ s : GoString, s.length ≤ l → unescapeBuild m s = unescapeBuild m' s := by
  induction l with
  | zero =>
    intro s hl
    have hs : s = [] := List.length_eq_zero.mp (Nat.le_zero.mp hl)
    subst hs
    rfl
  | succ l ih =>
    intro s hl
    cases s with
    | nil => rfl
    | cons c rest =>
      simp only [List.length_cons] at hl
      by_cases hc : c = '%'.toUInt8
      · subst hc
        match rest, hl with
        | [], _ => rfl
        | [_], _ => rfl
        | a :: b :: rest', hl =>
          simp only [List.length_cons] at hl
          rw [unescapeBuild_percent, unescapeBuild_percent, ih rest' (by omega)]
      · rw [unescapeBuild_cons_of_ne m c rest hc, unescapeBuild_cons_of_ne m' c rest hc,
          ih rest (by omega)]
        simp only [hm, hm', if_false]

/-- The second loop of `unescape` works through a string piece by piece,
when the first piece is one that the first loop accepts. -/
theorem unescapeBuild_append (m m' : Encoding) (l : Nat) : ∀ (a b : GoString) (n : Nat)
    (hp : Bool) (r : Nat × Bool), a.length ≤ l → unescapeScan m a n hp = .ok r →
    unescapeBuild m' (a ++ b) = unescapeBuild m' a ++ unescapeBuild m' b := by
  induction l with
  | zero =>
    intro a b n hp r hl _
    have hs : a = [] := List.length_eq_zero.mp (Nat.le_zero.mp hl)
    subst hs
    rfl
  | succ l ih =>
    intro a b n hp r hl h
    cases a with
    | nil => rfl
    | cons c rest =>
      simp only [List.length_cons] at hl
      unfold unescapeScan at h
      split at h
      · rename_i hc
        match rest, h, hl with
        | [], h, _ => simp at h
        | [_], h, _ => simp at h
        | x :: y :: rest', h, hl =>
          simp only at h
          split at h
          · simp at h
          · split at h
            · simp at h
            · split at h
              · simp at h
              · simp only [List.length_cons] at hl
                have := ih rest' b (n + 1) hp r (by omega) h
                subst hc
                simp only [List.cons_append]
                rw [unescapeBuild_percent, unescapeBuild_percent, this]
                rfl
      · rename_i hc
        have hrest : ∃ n' hp' , unescapeScan m rest n' hp' = .ok r := by
          split at h
          · exact ⟨_, _, h⟩
          · split at h
            · simp at h
            · exact ⟨_, _, h⟩
        obtain ⟨n', hp', hr⟩ := hrest
        have := ih rest b n' hp' r (by omega) hr
        simp only [List.cons_append]
        rw [unescapeBuild_cons_of_ne m' c _ hc, unescapeBuild_cons_of_ne m' c _ hc, this]
        rfl

theorem unescape_ok_scan (m : Encoding) (s p : GoString) (h : unescape s m = .ok p) :
    ∃ r, unescapeScan m s 0 false = .ok r := by
  unfold unescape at h
  cases hscan : unescapeScan m s 0 false with
  | error e => rw [hscan] at h; simp at h
  | ok r => exact ⟨r, rfl⟩

theorem index_le (s sub : GoString) (z : Nat) (h : index s sub = some z) : z ≤ s.length := by
  induction s generalizing z with
  | nil =>
    unfold index at h
    split at h
    · simp only [Option.some.injEq] at h
      omega
    · simp at h
  | cons c rest ih =>
    unfold index at h
    split at h
    · simp only [Option.some.injEq] at h
      omega
    · simp only [Option.map_eq_some'] at h
      obtain ⟨j, hj, rfl⟩ := h
      have := ih j hj
      simp only [List.length_cons]
      omega

/-- What `parseHost` returns, when it succeeds, is what the second loop of
`unescape` builds from the whole host. -/
theorem parseHost_decode (host p : GoString) (h : parseHost host = .ok p) :
    p = unescapeBuild encodeHost host := by
  have hplain : unescape host encodeHost = .ok p → p = unescapeBuild encodeHost host :=
    unescape_ok_decode encodeHost (by decide) host p
  unfold parseHost at h
  simp only at h
  split at h
  · cases hli : lastIndex host (bytes "]") with
    | none => rw [hli] at h; simp at h
    | some i =>
      rw [hli] at h
      simp only at h
      split at h
      · simp at h
      · cases hz : index (host.take i) (bytes "%25") with
        | none => rw [hz] at h; exact hplain h
        | some zone =>
          rw [hz] at h
          simp only at h
          cases h1 : unescape (host.take zone) encodeHost with
          | error e => rw [h1] at h; simp at h
          | ok host1 =>
            rw [h1] at h
            simp only at h
            cases h2 : unescape ((host.take i).drop zone) encodeZone with
            | error e => rw [h2] at h; simp at h
            | ok host2 =>
              rw [h2] at h
              simp only at h
              cases h3 : unescape (host.drop i) encodeHost with
              | error e => rw [h3] at h; simp at h
              | ok host3 =>
                rw [h3] at h
                simp only [Except.ok.injEq] at h
                obtain ⟨r1, hs1⟩ := unescape_ok_scan _ _ _ h1
                obtain ⟨r2, hs2⟩ := unescape_ok_scan _ _ _ h2
                have e1 := unescape_ok_decode encodeHost (by decide) _ _ h1
                have e2 := unescape_ok_decode encodeZone (by decide) _ _ h2
                have e3 := unescape_ok_decode encodeHost (by decide) _ _ h3
                have hsplit : host = (host.take i).take zone ++
                    ((host.take i).drop zone ++ host.drop i) := by
                  rw [← List.append_assoc, List.take_append_drop, List.take_append_drop]
                have hzi : zone ≤ i := by
                  have := index_le _ _ _ hz
                  rw [List.length_take] at this
                  omega
                have htt : (host.take i).take zone = host.take zone := by
                  rw [List.take_take, Nat.min_eq_left hzi]
                rw [← h, e1, e2, e3]
                conv_rhs => rw [hsplit, htt]
                rw [unescapeBuild_append encodeHost encodeHost _ _ _ 0 false r1 (le_refl _) hs1,
                  unescapeBuild_append encodeZone encodeHost _ _ _ 0 false r2 (le_refl _) hs2,
                  unescapeBuild_mode encodeZone encodeHost (by decide) (by decide) _ _
                    (le_refl _)]
                simp only [List.append_assoc]
  · cases hli : lastIndex host (bytes ":") with
    | none => rw [hli] at h; exact hplain h
    | some i =>
      rw [hli] at h
      simp only at h
      split at h
      · simp at h
      · exact hplain h


/-- When `parseHost` accepts the escaped form of a host, it returns that
host. -/
theorem parseHost_escape (h p : GoString)
    (hp : parseHost (escape h encodeHost) = .ok p) : p = h := by
  rw [parseHost_decode _ _ hp, escape_eq_escapeBuild,
    unescapeBuild_escapeBuild encodeHost (by decide)]

/-! ## Theorems: what `Parse` reads from an escaped path and fragment -/

/-- Unescaping the escaped path of a URL gives its path. -/
theorem EscapedPath_decode (u : URL) : unescape u.EscapedPath encodePath = .ok u.Path := by
  unfold URL.EscapedPath
  split
  · rename_i h
    have h3 := h.2.2
    unfold unescapesTo at h3
    cases hun : unescape u.RawPath encodePath with
    | error e => rw [hun] at h3; simp at h3
    | ok p =>
      rw [hun] at h3
      simp only [decide_eq_true_eq] at h3
      rw [h3]
  · split
    · rename_i hstar
      rw [hstar]
      decide
    · exact unescape_escape encodePath (by decide) (by decide) (by decide) _

/-- Unescaping the escaped fragment of a URL gives its fragment. -/
theorem EscapedFragment_decode (u : URL) :
    unescape u.EscapedFragment encodeFragment = .ok u.Fragment := by
  unfold URL.EscapedFragment
  split
  · rename_i h
    have h3 := h.2.2
    unfold unescapesTo at h3
    cases hun : unescape u.RawFragment encodeFragment with
    | error e => rw [hun] at h3; simp at h3
    | ok p =>
      rw [hun] at h3
      simp only [decide_eq_true_eq] at h3
      rw [h3]
  · exact unescape_escape encodeFragment (by decide) (by decide) (by decide) _

/-- Outside hosts and zones, unescaping a string after a `/` gives the `/`
and the unescaped string. -/
theorem unescape_slash_cons (m : Encoding) (hh : m ≠ encodeHost) (hz : m ≠ encodeZone)
    (s p : GoString) (h : unescape s m = .ok p) :
    unescape ('/'.toUInt8 :: s) m = .ok ('/'.toUInt8 :: p) := by
  have h1 : ¬ ('/'.toUInt8 = '%'.toUInt8) := by decide
  have h2 : ¬ ('/'.toUInt8 = '+'.toUInt8) := by decide
  have hscan : unescapeScan m ('/'.toUInt8 :: s) 0 false = unescapeScan m s 0 false := by
    conv_lhs => unfold unescapeScan
    rw [if_neg h1, if_neg h2, if_neg (fun hx => hx.1.elim hh hz)]
  unfold unescape at h ⊢
  rw [hscan]
  cases hs : unescapeScan m s 0 false with
  | error e => rw [hs] at h; simp at h
  | ok r =>
    rw [hs] at h
    simp only at h ⊢
    split
    · rename_i h0
      rw [if_pos h0] at h
      simp only [Except.ok.injEq] at h
      rw [h]
    · rename_i h0
      rw [if_neg h0] at h
      simp only [Except.ok.injEq] at h
      rw [unescapeBuild_cons_of_ne m _ _ (fun hx => h1 hx), if_neg h2, h]

/-- The `/` that `String` writes before a path that does not start with
one. -/
theorem unescape_pathPart (u : URL) :
    unescape (pathPart u.EscapedPath) encodePath = .ok (slashPart u.EscapedPath ++ u.Path) := by
  unfold pathPart slashPart
  split
  · rw [bytes_slash]
    exact unescape_slash_cons encodePath (by decide) (by decide) _ _ (EscapedPath_decode u)
  · exact EscapedPath_decode u

theorem setPath_ok (u : URL) (p path : GoString) (h : unescape p encodePath = .ok path) :
    ∃ w, u.setPath p = .ok w ∧ w.Path = path ∧ w.Scheme = u.Scheme ∧ w.Opaque = u.Opaque ∧
      w.User = u.User ∧ w.Host = u.Host ∧ w.ForceQuery = u.ForceQuery ∧
      w.RawQuery = u.RawQuery ∧ w.Fragment = u.Fragment := by
  unfold URL.setPath
  rw [h]
  simp only
  split
  · exact ⟨_, rfl, rfl, rfl, rfl, rfl, rfl, rfl, rfl, rfl⟩
  · exact ⟨_, rfl, rfl, rfl, rfl, rfl, rfl, rfl, rfl, rfl⟩

theorem setFragment_ok (u : URL) (f frag : GoString)
    (h : unescape f encodeFragment = .ok frag) :
    ∃ w, u.setFragment f = .ok w ∧ w.Fragment = frag ∧ w.Scheme = u.Scheme ∧
      w.Opaque = u.Opaque ∧ w.User = u.User ∧ w.Host = u.Host ∧ w.Path = u.Path ∧
      w.ForceQuery = u.ForceQuery ∧ w.RawQuery = u.RawQuery ∧ w.RawPath = u.RawPath := by
  unfold URL.setFragment
  rw [h]
  simp only
  split
  · exact ⟨_, rfl, rfl, rfl, rfl, rfl, rfl, rfl, rfl, rfl, rfl⟩
  · exact ⟨_, rfl, rfl, rfl, rfl, rfl, rfl, rfl, rfl, rfl, rfl⟩

/-! ## Theorems: control bytes and user-info bytes -/

theorem stringContainsCTLByte_append (a b : GoString) :
    stringContainsCTLByte (a ++ b) = (stringContainsCTLByte a || stringContainsCTLByte b) := by
  simp [stringContainsCTLByte, List.any_append]

theorem stringContainsCTLByte_false (s : GoString) :
    stringContainsCTLByte s = false ↔ ∀ b ∈ s, ¬ (b < ' '.toUInt8 ∨ b = 0x7f) := by
  simp only [stringContainsCTLByte, List.any_eq_false, decide_eq_true_eq]

set_option maxRecDepth 4000 in
theorem shouldEscape_of_ctl : ∀ c : UInt8, ∀ m : Encoding,
    shouldEscape c m = false → ¬ (c < ' '.toUInt8 ∨ c = 0x7f) := by
  apply byte_forall
  intro n m
  cases m <;> revert n <;> decide

set_option maxRecDepth 4000 in
theorem validEncoded_of_ctl : ∀ c : UInt8, ∀ m : Encoding,
    validEncoded [c] m = true → ¬ (c < ' '.toUInt8 ∨ c = 0x7f) := by
  apply byte_forall
  intro n m
  cases m <;> revert n <;> decide

set_option maxRecDepth 4000 in
theorem escapeByte_not_ctl : ∀ c : UInt8,
    (c = '%'.toUInt8 ∨ c ∈ bytes "0123456789ABCDEF" ∨ c = '+'.toUInt8 ∨
      isLetter c = true ∨ isSchemeTail c = true) → ¬ (c < ' '.toUInt8 ∨ c = 0x7f) := by
  apply byte_forall
  decide

set_option maxRecDepth 4000 in
theorem validUserinfo_byte : ∀ c : UInt8,
    (shouldEscape c encodeUserPassword = false ∨ c = '%'.toUInt8 ∨
      c ∈ bytes "0123456789ABCDEF") → validUserinfo [c] = true := by
  apply byte_forall
  decide

theorem stringContainsCTLByte_escape (s : GoString) (m : Encoding) :
    stringContainsCTLByte (escape s m) = false := by
  rw [stringContainsCTLByte_false]
  intro b hb
  rcases mem_escape m s b hb with h | h | h | ⟨h, _⟩
  · exact shouldEscape_of_ctl b m h
  · exact escapeByte_not_ctl b (Or.inl h)
  · exact escapeByte_not_ctl b (Or.inr (Or.inl h))
  · exact escapeByte_not_ctl b (Or.inr (Or.inr (Or.inl h)))

theorem stringContainsCTLByte_validEncoded (s : GoString) (m : Encoding)
    (h : validEncoded s m = true) : stringContainsCTLByte s = false := by
  rw [stringContainsCTLByte_false]
  intro b hb
  apply validEncoded_of_ctl b m
  induction s with
  | nil => simp at hb
  | cons c rest ih =>
    rw [validEncoded_cons c rest m, Bool.and_eq_true] at h
    simp only [List.mem_cons] at hb
    rcases hb with rfl | hb
    · exact h.1
    · exact ih h.2 hb

theorem stringContainsCTLByte_scheme (sc : GoString) (h : isScheme sc = true) :
    stringContainsCTLByte sc = false := by
  rw [stringContainsCTLByte_false]
  intro b hb
  rcases isRawScheme_mem sc (isScheme_isRawScheme sc h) b hb with hl | ht
  · exact escapeByte_not_ctl b (Or.inr (Or.inr (Or.inr (Or.inl hl))))
  · exact escapeByte_not_ctl b (Or.inr (Or.inr (Or.inr (Or.inr ht))))

theorem validUserinfo_append (a b : GoString) :
    validUserinfo (a ++ b) = (validUserinfo a && validUserinfo b) := by
  simp [validUserinfo, List.all_append]

theorem validUserinfo_escape (s : GoString) :
    validUserinfo (escape s encodeUserPassword) = true := by
  have key : ∀ t : GoString, (∀ b ∈ t, validUserinfo [b] = true) → validUserinfo t = true := by
    intro t
    induction t with
    | nil => intro _; rfl
    | cons c rest ih =>
      intro h
      have h1 := h c (List.mem_cons_self _ _)
      have h2 := ih (fun b hb => h b (List.mem_cons_of_mem _ hb))
      have : c :: rest = [c] ++ rest := rfl
      rw [this, validUserinfo_append, h1, h2]
      rfl
  apply key
  intro b hb
  rcases mem_escape _ s b hb with h | h | h | ⟨_, h⟩
  · exact validUserinfo_byte b (Or.inl h)
  · exact validUserinfo_byte b (Or.inr (Or.inl h))
  · exact validUserinfo_byte b (Or.inr (Or.inr h))
  · exact absurd h (by decide)

theorem stringContainsCTLByte_userPart (ui : Option Userinfo) :
    stringContainsCTLByte (userPart ui) = false := by
  cases ui with
  | none => rfl
  | some u =>
    simp only [userPart, Userinfo.String]
    split
    · simp only [stringContainsCTLByte_append, stringContainsCTLByte_escape, Bool.false_or,
        Bool.or_false]
      decide
    · simp only [stringContainsCTLByte_append, stringContainsCTLByte_escape, Bool.false_or]
      decide

theorem validUserinfo_String (u : Userinfo) : validUserinfo u.String = true := by
  simp only [Userinfo.String]
  split
  · simp only [validUserinfo_append, validUserinfo_escape, Bool.true_and, Bool.and_true]
    decide
  · exact validUserinfo_escape _

/-! ## Theorems: what `parse` reads from a printed authority -/

/-- What `parseAuthority` reads from the user-info and host that `String`
wrote: the user-info, and what `parseHost` reads from the escaped host. -/
theorem parseAuthority_printed (ui : Option Userinfo) (h : GoString)
    (hnorm : ∀ x, ui = some x → x.passwordSet = false → x.password = []) :
    parseAuthority (userPart ui ++ escape h encodeHost) =
      match parseHost (escape h encodeHost) with
      | .error err => .error err
      | .ok host => .ok (ui, host) := by
  have hat := (not_mem_escape_host h).1
  cases ui with
  | none =>
    simp only [userPart, List.nil_append]
    unfold parseAuthority
    rw [bytes_at, lastIndex_single_not_mem _ _ hat]
  | some u =>
    have hidx : lastIndex (u.String ++ '@'.toUInt8 :: escape h encodeHost) ['@'.toUInt8] =
        some u.String.length := lastIndex_single_append _ _ _ hat
    have hdrop : List.drop (u.String.length + 1)
        (u.String ++ '@'.toUInt8 :: escape h encodeHost) = escape h encodeHost := by
      have : u.String ++ '@'.toUInt8 :: escape h encodeHost =
          (u.String ++ ['@'.toUInt8]) ++ escape h encodeHost := by simp
      rw [this]
      exact List.drop_left' (by simp)
    simp only [userPart, bytes_at, List.append_assoc, List.singleton_append]
    unfold parseAuthority
    rw [bytes_at, hidx]
    simp only
    rw [hdrop]
    cases hph : parseHost (escape h encodeHost) with
    | error e => rfl
    | ok host' =>
      simp only [List.take_left' rfl, validUserinfo_String, Bool.not_true, Bool.false_eq_true,
        if_false]
      obtain ⟨_, _, _, _, hcolon⟩ := not_mem_escape_user u.username
      have hrt1 := unescape_escape encodeUserPassword (by decide) (by decide) (by decide)
        u.username
      have hrt2 := unescape_escape encodeUserPassword (by decide) (by decide) (by decide)
        u.password
      by_cases hps : u.passwordSet = true
      · have hstr : u.String = escape u.username encodeUserPassword ++
            ':'.toUInt8 :: escape u.password encodeUserPassword := by
          simp only [Userinfo.String, hps, if_true, bytes_colon, List.append_assoc,
            List.singleton_append]
        have hc : contains u.String (bytes ":") = true := by
          rw [bytes_colon, contains_single, hstr]
          exact List.mem_append_right _ (List.mem_cons_self _ _)
        have hcut : cut u.String (bytes ":") = (escape u.username encodeUserPassword,
            escape u.password encodeUserPassword, true) := by
          rw [bytes_colon, hstr]
          exact cut_single_append _ _ _ hcolon
        rw [hc, hcut]
        simp only [Bool.not_true, Bool.false_eq_true, if_false, hrt1, hrt2]
        rw [← hps]
      · have hps' : u.passwordSet = false := by simpa using hps
        have hstr : u.String = escape u.username encodeUserPassword := by
          simp only [Userinfo.String, hps, Bool.false_eq_true, if_false]
        have hc : contains u.String (bytes ":") = false := by
          rw [bytes_colon, hstr]
          exact contains_single_false _ _ hcolon
        rw [hc]
        simp only [Bool.not_false, if_true]
        rw [hstr, hrt1]
        simp only
        have hpw := hnorm u rfl hps'
        rw [← hpw, ← hps']

/-- The user-info that `parseAuthority` returns has an empty password when
no password is set. -/
theorem parseAuthority_normal (authority : GoString) (user : Option Userinfo)
    (host : GoString) (h : parseAuthority authority = .ok (user, host)) :
    ∀ x, user = some x → x.passwordSet = false → x.password = [] := by
  unfold parseAuthority at h
  simp only at h
  split at h
  · simp at h
  · split at h
    · simp only [Except.ok.injEq, Prod.mk.injEq] at h
      intro x hx
      rw [← h.1] at hx
      exact Option.noConfusion hx
    · split at h
      · simp at h
      · split at h
        · split at h
          · simp at h
          · simp only [Except.ok.injEq, Prod.mk.injEq] at h
            intro x hx _
            rw [← h.1] at hx
            simp only [Option.some.injEq] at hx
            rw [← hx]
        · split at h
          · simp at h
          · split at h
            · simp at h
            · simp only [Except.ok.injEq, Prod.mk.injEq] at h
              intro x hx hps
              rw [← h.1] at hx
              simp only [Option.some.injEq] at hx
              rw [← hx] at hps
              exact Bool.noConfusion hps

theorem QuerySplit_exists (rest : GoString) : ∃ rest1 fq rq, QuerySplit rest rest1 fq rq := by
  by_cases hq : hasSuffix rest (bytes "?") = true ∧ rest.count '?'.toUInt8 = 1
  · exact ⟨_, _, _, Or.inl ⟨hq.1, hq.2, rfl, rfl, rfl⟩⟩
  · exact ⟨_, _, _, Or.inr ⟨hq, rfl, rfl, rfl⟩⟩

theorem QuerySplit_normal (rest rest1 : GoString) (fq : Bool) (rq : GoString)
    (h : QuerySplit rest rest1 fq rq) : fq = true → rq = [] := by
  rcases h with ⟨_, _, _, _, hrq⟩ | ⟨_, _, hfq, _⟩
  · exact fun _ => hrq
  · intro hx
    rw [hfq] at hx
    exact Bool.noConfusion hx

/-- What `String` writes for the query determines the query, for a query as
`Parse` stores it. -/
theorem queryPart_inj (fq fq0 : Bool) (rq rq0 : GoString) (hn : fq = true → rq = [])
    (hn0 : fq0 = true → rq0 = []) (h : queryPart fq rq = queryPart fq0 rq0) :
    fq = fq0 ∧ rq = rq0 := by
  unfold queryPart at h
  rw [bytes_question] at h
  cases fq <;> cases fq0
  · simp only [Bool.false_eq_true, false_or] at h
    refine ⟨rfl, ?_⟩
    by_cases h1 : rq = [] <;> by_cases h2 : rq0 = []
    · rw [h1, h2]
    · simp [h1, h2] at h
    · simp [h1, h2] at h
    · simpa [h1, h2] using h
  · have h0 := hn0 rfl
    subst h0
    by_cases h1 : rq = []
    · simp [h1] at h
    · simp [h1] at h
  · have h0 := hn rfl
    subst h0
    by_cases h2 : rq0 = []
    · simp [h2] at h
    · simp [h2] at h
  · exact ⟨rfl, by rw [hn rfl, hn0 rfl]⟩

theorem getScheme_slash (s : GoString) :
    getScheme ('/'.toUInt8 :: s) = .ok ([], '/'.toUInt8 :: s) := by
  unfold getScheme getSchemeLoop
  rw [if_neg (by decide), if_neg (by decide), if_neg (by decide)]

theorem parse_noCTL (rawURL : GoString) (url : URL) (h : parse rawURL false = .ok url) :
    stringContainsCTLByte rawURL = false := by
  unfold parse at h
  split at h
  · simp at h
  · rename_i hc
    simpa using hc

/-- The run of `parse` on a string with an authority: after the scheme and
the query are split off, what remains starts with `//` (and, without a
scheme, not with `///`). -/
theorem parse_authority (rawURL scheme rest rest1 : GoString) (fq : Bool) (rq : GoString)
    (hctl : stringContainsCTLByte rawURL = false) (hstar : rawURL ≠ bytes "*")
    (hgs : getScheme rawURL = .ok (scheme, rest)) (hqs : QuerySplit rest rest1 fq rq)
    (hpre : hasPrefix rest1 (bytes "//") = true)
    (h3 : toLower scheme ≠ [] ∨ hasPrefix rest1 (bytes "///") = false) :
    parse rawURL false =
      match parseAuthority (splitAuthority (rest1.drop 2)).1 with
      | .error err => .error err
      | .ok (user, host) =>
        URL.setPath { URL.zero with Scheme := toLower scheme, ForceQuery := fq, RawQuery := rq,
                                    User := user, Host := host }
          (splitAuthority (rest1.drop 2)).2 := by
  have hp1 : hasPrefix rest1 (bytes "/") = true := hasPrefix_slashes _ hpre
  unfold parse
  rw [if_neg (by simp [hctl]), if_neg (by simp), if_neg hstar, hgs]
  simp only
  rcases hqs with ⟨hs, hc, h1, hfq, hrq⟩ | ⟨hn, h1, hfq, hrq⟩
  · have hq : hasSuffix rest (bytes "?") = true ∧ rest.count '?'.toUInt8 = 1 := ⟨hs, hc⟩
    rw [if_pos hq]
    simp only
    rw [← h1]
    subst hfq hrq
    rw [if_neg (by simp [hp1]), if_neg (by simp), if_neg (by simp [hp1]),
      if_pos ⟨by
        rcases h3 with h3 | h3
        · exact Or.inl h3
        · exact Or.inr (by simp [h3]), hpre⟩]
    rfl
  · rw [if_neg hn]
    simp only
    rw [← h1, ← hrq]
    subst hfq
    rw [if_neg (by simp [hp1]), if_neg (by simp), if_neg (by simp [hp1]),
      if_pos ⟨by
        rcases h3 with h3 | h3
        · exact Or.inl h3
        · exact Or.inr (by simp [h3]), hpre⟩]
    rfl

/-- The string form of a URL with a host and no opaque part. -/
theorem String_eq_host (v : URL) (hh : v.Host ≠ []) (ho : v.Opaque = []) :
    v.String = (schemePart v.Scheme ++
      ((bytes "//" ++ ((userPart v.User ++ escape v.Host encodeHost) ++
        pathPart v.EscapedPath)) ++ queryPart v.ForceQuery v.RawQuery)) ++ fragmentPart v := by
  have hlen : ∀ (x y : GoString), ((x ++ bytes "//" ++ y).length = 0) = False := by
    intro x y
    apply eq_false
    rw [bytes_slashes]
    simp
  have hlen2 : ∀ (x y z : GoString), ((x ++ bytes "//" ++ y ++ z).length = 0) = False := by
    intro x y z
    apply eq_false
    rw [bytes_slashes]
    simp
  have hlen3 : ∀ (x y z t : GoString), ((x ++ bytes "//" ++ y ++ z ++ t).length = 0) = False := by
    intro x y z t
    apply eq_false
    rw [bytes_slashes]
    simp
  have hlen4 : ∀ (x y z t s : GoString),
      ((x ++ bytes "//" ++ y ++ z ++ t ++ s).length = 0) = False := by
    intro x y z t s
    apply eq_false
    rw [bytes_slashes]
    simp
  unfold URL.String schemePart queryPart fragmentPart pathPart
  simp only [hh, ho, ne_eq, not_false_eq_true, not_true_eq_false, if_true, true_or, or_true,
    false_and, and_false, if_false, and_true]
  cases hu : v.User with
  | none =>
    simp only [userPart, List.nil_append]
    by_cases hp : ¬v.EscapedPath = [] ∧ ¬List.head? v.EscapedPath = some '/'.toUInt8
    · simp only [hp, not_false_eq_true, and_self, if_true, hlen, hlen2, hlen3, false_and,
        if_false]
      split <;> split <;> split <;>
        simp only [List.append_assoc, List.append_nil, List.nil_append]
    · simp only [hp, if_false, hlen, hlen2, hlen3, false_and]
      split <;> split <;> split <;>
        simp only [List.append_assoc, List.append_nil, List.nil_append]
  | some ui =>
    simp only [userPart]
    by_cases hp : ¬v.EscapedPath = [] ∧ ¬List.head? v.EscapedPath = some '/'.toUInt8
    · simp only [hp, not_false_eq_true, and_self, if_true, hlen, hlen2, hlen3, hlen4, false_and,
        if_false]
      split <;> split <;> split <;>
        simp only [List.append_assoc, List.append_nil, List.nil_append]
    · simp only [hp, if_false, hlen, hlen2, hlen3, hlen4, false_and]
      split <;> split <;> split <;>
        simp only [List.append_assoc, List.append_nil, List.nil_append]

/-- What `parse` guarantees about the query and the user-info of the URL it
returns, and that it sets no fragment. -/
theorem parse_shape (rawURL : GoString) (url : URL) (h : parse rawURL false = .ok url) :
    (url.ForceQuery = true → url.RawQuery = []) ∧
    (∀ x, url.User = some x → x.passwordSet = false → x.password = []) ∧
    stringContainsCTLByte url.RawQuery = false ∧ url.Fragment = [] := by
  have hctl := (stringContainsCTLByte_false _).mp (parse_noCTL rawURL url h)
  rcases parse_inv rawURL url h with ⟨_, hu⟩ | ⟨scheme, rest, rest1, fq, rq, hgs, hqs, hcase⟩
  · subst hu
    exact ⟨fun _ => rfl, fun x hx => Option.noConfusion hx, rfl, rfl⟩
  · have hrest := getScheme_rest_mem rawURL scheme rest hgs
    obtain ⟨_, hm2, _⟩ := QuerySplit_mem rest rest1 fq rq hqs
    have hn := QuerySplit_normal rest rest1 fq rq hqs
    have hrq : stringContainsCTLByte rq = false :=
      (stringContainsCTLByte_false _).mpr (fun b hb => hctl b (hrest _ (hm2 _ hb)))
    rcases hcase with ⟨_, _, hu⟩ | ⟨_, user, host, hpa, hsp⟩ | ⟨_, _, oh, hsp⟩
    · subst hu
      exact ⟨hn, fun x hx => Option.noConfusion hx, hrq, rfl⟩
    · have := setPath_eq _ _ _ hsp
      rw [this]
      exact ⟨hn, parseAuthority_normal _ _ _ hpa, hrq, rfl⟩
    · have := setPath_eq _ _ _ hsp
      rw [this]
      exact ⟨hn, fun x hx => Option.noConfusion hx, hrq, rfl⟩

/-- What `Parse` guarantees about the query and the user-info of the URL it
returns: with `ForceQuery` the query is empty, a password that is not set is
empty, and the query holds no control byte. -/
theorem Parse_shape (rawURL : GoString) (w : URL) (h : Parse rawURL = .ok w) :
    (w.ForceQuery = true → w.RawQuery = []) ∧
    (∀ x, w.User = some x → x.passwordSet = false → x.password = []) ∧
    stringContainsCTLByte w.RawQuery = false := by
  obtain ⟨url, hp, hw⟩ := Parse_inv rawURL w h
  obtain ⟨h1, h2, h3, _⟩ := parse_shape _ url hp
  rcases hw with ⟨_, rfl⟩ | ⟨_, hsf⟩
  · exact ⟨h1, h2, h3⟩
  · have := setFragment_eq _ _ _ hsf
    rw [this]
    exact ⟨h1, h2, h3⟩

theorem bytes_three_slashes : bytes "///" = ['/'.toUInt8, '/'.toUInt8, '/'.toUInt8] := by
  decide

theorem hasPrefix_three_slashes (a x : GoString) (ha : a ≠ []) (hs : '/'.toUInt8 ∉ a) :
    hasPrefix (bytes "//" ++ (a ++ x)) (bytes "///") = false := by
  cases a with
  | nil => exact absurd rfl ha
  | cons c rest =>
    simp only [List.mem_cons, not_or] at hs
    rw [bytes_slashes, bytes_three_slashes]
    have hc : ('/'.toUInt8 == c) = false := by simpa using hs.1
    simp [hasPrefix, List.isPrefixOf, hc]

theorem stringContainsCTLByte_schemePart (sc : GoString)
    (h : sc = [] ∨ isScheme sc = true) : stringContainsCTLByte (schemePart sc) = false := by
  unfold schemePart
  split
  · rename_i hne
    rcases h with h | h
    · exact absurd h hne
    · rw [stringContainsCTLByte_append, stringContainsCTLByte_scheme sc h]
      decide
  · rfl

theorem stringContainsCTLByte_queryPart (fq : Bool) (rq : GoString)
    (h : stringContainsCTLByte rq = false) : stringContainsCTLByte (queryPart fq rq) = false := by
  unfold queryPart
  split
  · rw [stringContainsCTLByte_append, h]
    decide
  · rfl

theorem not_mem_schemePart (sc : GoString) (h : sc = [] ∨ isScheme sc = true) :
    '#'.toUInt8 ∉ schemePart sc := by
  unfold schemePart
  split
  · rename_i hne
    rcases h with h | h
    · exact absurd h hne
    · rw [bytes_colon]
      simp only [List.mem_append, List.mem_singleton, not_or]
      exact ⟨(isScheme_not_mem sc h).1, by decide⟩
  · simp

theorem not_mem_queryPart (fq : Bool) (rq : GoString) (h : '#'.toUInt8 ∉ rq) :
    '#'.toUInt8 ∉ queryPart fq rq := by
  unfold queryPart
  split
  · rw [bytes_question]
    simp only [List.mem_append, List.mem_singleton, not_or]
    exact ⟨by decide, h⟩
  · simp

/-- The scheme that `getScheme` reads from a printed URL with a host, and
what it leaves. -/
theorem getScheme_schemePart (sc x : GoString) (h : sc = [] ∨ isScheme sc = true) :
    getScheme (schemePart sc ++ (bytes "//" ++ x)) = .ok (sc, bytes "//" ++ x) := by
  unfold schemePart
  split
  · rename_i hne
    rcases h with h | h
    · exact absurd h hne
    · have := getScheme_scheme sc (bytes "//" ++ x) (isScheme_isRawScheme sc h)
      rw [bytes_colon]
      simpa using this
  · rename_i hnil
    have hsc : sc = [] := by simpa using hnil
    rw [hsc, bytes_slashes]
    exact getScheme_slash _

theorem toLower_scheme (sc : GoString) (h : sc = [] ∨ isScheme sc = true) : toLower sc = sc := by
  rcases h with h | h
  · rw [h]; rfl
  · exact toLower_of_isScheme sc h

/-- What `parse` makes of the string form (without fragment) of a URL with a
host and without opaque part: it fails when `parseHost` rejects the escaped
host, and otherwise sets the path that `String` wrote on a URL with the same
scheme, user-info and query and the host read by `parseHost`. -/
theorem parse_String_host (v : URL) (hh : v.Host ≠ [])
    (hsc : v.Scheme = [] ∨ isScheme v.Scheme = true)
    (hfq : v.ForceQuery = true → v.RawQuery = [])
    (huser : ∀ x, v.User = some x → x.passwordSet = false → x.password = [])
    (hctl : stringContainsCTLByte v.RawQuery = false) :
    parse (schemePart v.Scheme ++
      ((bytes "//" ++ ((userPart v.User ++ escape v.Host encodeHost) ++
        pathPart v.EscapedPath)) ++ queryPart v.ForceQuery v.RawQuery)) false =
      match parseHost (escape v.Host encodeHost) with
      | .error err => .error err
      | .ok host =>
        URL.setPath { URL.zero with Scheme := v.Scheme, ForceQuery := v.ForceQuery,
                                    RawQuery := v.RawQuery, User := v.User, Host := host }
          (pathPart v.EscapedPath) := by
  have hA : '/'.toUInt8 ∉ userPart v.User ++ escape v.Host encodeHost := by
    simp only [List.mem_append, not_or]
    exact ⟨(not_mem_userPart v.User).1, (not_mem_escape_host v.Host).2.1⟩
  have hAne : userPart v.User ++ escape v.Host encodeHost ≠ [] := by
    intro hx
    exact hh (escape_eq_nil _ _ (List.append_eq_nil.mp hx).2)
  have hv := validEncoded_pathPart _ (EscapedPath_valid v)
  have hbody : '?'.toUInt8 ∉ bytes "//" ++ ((userPart v.User ++ escape v.Host encodeHost) ++
      pathPart v.EscapedPath) := by
    rw [bytes_slashes]
    simp only [List.mem_append, List.mem_cons, List.mem_singleton, List.not_mem_nil, or_false,
      not_or]
    exact ⟨⟨by decide, by decide⟩, ⟨(not_mem_userPart v.User).2.1,
      (not_mem_escape_host v.Host).2.2.1⟩, validEncoded_not_mem _ _ _ hv (by decide)⟩
  have hgs := getScheme_schemePart v.Scheme (((userPart v.User ++ escape v.Host encodeHost) ++
      pathPart v.EscapedPath) ++ queryPart v.ForceQuery v.RawQuery) hsc
  have hassoc : bytes "//" ++ (((userPart v.User ++ escape v.Host encodeHost) ++
      pathPart v.EscapedPath) ++ queryPart v.ForceQuery v.RawQuery) =
      (bytes "//" ++ ((userPart v.User ++ escape v.Host encodeHost) ++
        pathPart v.EscapedPath)) ++ queryPart v.ForceQuery v.RawQuery := by
    simp only [List.append_assoc]
  rw [hassoc] at hgs
  obtain ⟨rest1, fq, rq, hqs⟩ := QuerySplit_exists ((bytes "//" ++
    ((userPart v.User ++ escape v.Host encodeHost) ++ pathPart v.EscapedPath)) ++
    queryPart v.ForceQuery v.RawQuery)
  obtain ⟨hr1, hqp⟩ := QuerySplit_queryPart _ rest1 _ _ fq rq hbody hqs
  obtain ⟨hfq', hrq'⟩ := queryPart_inj fq v.ForceQuery rq v.RawQuery
    (QuerySplit_normal _ _ _ _ hqs) hfq hqp
  subst hr1 hfq' hrq'
  have hctl' : stringContainsCTLByte (schemePart v.Scheme ++
      ((bytes "//" ++ ((userPart v.User ++ escape v.Host encodeHost) ++
        pathPart v.EscapedPath)) ++ queryPart v.ForceQuery v.RawQuery)) = false := by
    simp only [stringContainsCTLByte_append, stringContainsCTLByte_schemePart _ hsc,
      stringContainsCTLByte_userPart, stringContainsCTLByte_escape,
      stringContainsCTLByte_validEncoded _ _ hv, stringContainsCTLByte_queryPart _ _ hctl,
      Bool.or_false, Bool.false_or]
    decide
  have hstar : schemePart v.Scheme ++
      ((bytes "//" ++ ((userPart v.User ++ escape v.Host encodeHost) ++
        pathPart v.EscapedPath)) ++ queryPart v.ForceQuery v.RawQuery) ≠ bytes "*" := by
    intro hx
    have hmem : '/'.toUInt8 ∈ schemePart v.Scheme ++
        ((bytes "//" ++ ((userPart v.User ++ escape v.Host encodeHost) ++
          pathPart v.EscapedPath)) ++ queryPart v.ForceQuery v.RawQuery) := by
      rw [bytes_slashes]
      simp
    rw [hx] at hmem
    exact absurd hmem (by decide)
  rw [parse_authority _ _ _ _ _ _ hctl' hstar hgs hqs (hasPrefix_append _ _)
    (Or.inr (hasPrefix_three_slashes _ _ hAne hA))]
  have hdrop : List.drop 2 (bytes "//" ++ ((userPart v.User ++ escape v.Host encodeHost) ++
      pathPart v.EscapedPath)) =
      (userPart v.User ++ escape v.Host encodeHost) ++ pathPart v.EscapedPath := by
    rw [bytes_slashes]
    rfl
  rw [hdrop, splitAuthority_append _ _ hA (pathPart_head _)]
  simp only
  rw [parseAuthority_printed _ _ huser, toLower_scheme _ hsc]
  cases parseHost (escape v.Host encodeHost) <;> rfl

/-- What `Parse` makes of the string form of a URL with a host and without
opaque part, as `Parse` and `replaceURL` build it: it fails when `parseHost`
rejects the escaped host, and otherwise it returns a URL with the same
scheme, host, user-info, query and fragment, and with the path after the
`/` that `String` wrote before a path that does not start with one. -/
theorem Parse_String_host (v : URL) (hh : v.Host ≠ []) (ho : v.Opaque = [])
    (hsc : v.Scheme = [] ∨ isScheme v.Scheme = true)
    (hq : '#'.toUInt8 ∉ v.RawQuery)
    (hfq : v.ForceQuery = true → v.RawQuery = [])
    (huser : ∀ x, v.User = some x → x.passwordSet = false → x.password = [])
    (hctl : stringContainsCTLByte v.RawQuery = false) :
    (∀ err, parseHost (escape v.Host encodeHost) = .error err →
      ∃ err', Parse v.String = .error err') ∧
    (∀ host, parseHost (escape v.Host encodeHost) = .ok host →
      ∃ w, Parse v.String = .ok w ∧ w.Scheme = v.Scheme ∧ w.Host = v.Host ∧ w.Opaque = [] ∧
        w.User = v.User ∧ w.Path = slashPart v.EscapedPath ++ v.Path ∧
        w.EscapedPath = pathPart v.EscapedPath ∧
        w.ForceQuery = v.ForceQuery ∧ w.RawQuery = v.RawQuery ∧
        w.Fragment = v.Fragment) := by
  have hp := parse_String_host v hh hsc hfq huser hctl
  have hv := validEncoded_pathPart _ (EscapedPath_valid v)
  have hpre : '#'.toUInt8 ∉ schemePart v.Scheme ++
      ((bytes "//" ++ ((userPart v.User ++ escape v.Host encodeHost) ++
        pathPart v.EscapedPath)) ++ queryPart v.ForceQuery v.RawQuery) := by
    have h1 := not_mem_schemePart v.Scheme hsc
    have h2 := not_mem_queryPart v.ForceQuery v.RawQuery hq
    have h3 : '#'.toUInt8 ∉ bytes "//" := by decide
    simp only [List.mem_append, not_or]
    exact ⟨h1, ⟨h3, ⟨(not_mem_userPart v.User).2.2, (not_mem_escape_host v.Host).2.2.2⟩,
      validEncoded_not_mem _ _ _ hv (by decide)⟩, h2⟩
  have hcut : ∃ frag found, cut v.String (bytes "#") =
      (schemePart v.Scheme ++
        ((bytes "//" ++ ((userPart v.User ++ escape v.Host encodeHost) ++
          pathPart v.EscapedPath)) ++ queryPart v.ForceQuery v.RawQuery), frag, found) ∧
      ((v.Fragment = [] ∧ frag = []) ∨ (v.Fragment ≠ [] ∧ frag = v.EscapedFragment)) := by
    rw [String_eq_host v hh ho, bytes_hash]
    unfold fragmentPart
    by_cases hf : v.Fragment = []
    · rw [if_neg (fun hx => hx hf), List.append_nil, cut_single_not_mem _ _ hpre]
      exact ⟨_, _, rfl, Or.inl ⟨hf, rfl⟩⟩
    · rw [if_pos hf, bytes_hash]
      have := cut_single_append _ _ v.EscapedFragment hpre
      simp only [List.singleton_append]
      rw [this]
      exact ⟨_, _, rfl, Or.inr ⟨hf, rfl⟩⟩
  obtain ⟨frag, found, hcut, hfrag⟩ := hcut
  constructor
  · intro err herr
    rw [herr] at hp
    unfold Parse
    simp only
    rw [hcut]
    simp only
    rw [hp]
    exact ⟨_, rfl⟩
  · intro host hhost
    have hhv : host = v.Host := parseHost_escape _ _ hhost
    rw [hhost] at hp
    simp only at hp
    have hset := setPath_ok
      ({ URL.zero with Scheme := v.Scheme, ForceQuery := v.ForceQuery,
                       RawQuery := v.RawQuery, User := v.User, Host := host } : URL)
      _ _ (unescape_pathPart v)
    obtain ⟨url, hsp, hpath, u1, u2, u3, u4, u5, u6, u7⟩ := hset
    have hep := (setPath_EscapedPath _ url _ hsp hv (pathPart_head _)).1
    rw [hsp] at hp
    unfold Parse
    simp only
    rw [hcut]
    simp only
    rw [hp]
    simp only
    rcases hfrag with ⟨hf, hfr⟩ | ⟨hf, hfr⟩
    · subst hfr
      rw [if_pos rfl]
      exact ⟨url, rfl, u1, u4.trans hhv, u2, u3, hpath, hep, u5, u6, u7.trans hf.symm⟩
    · subst hfr
      rw [if_neg (EscapedFragment_ne_nil v hf)]
      obtain ⟨w, hsf, hfw, w1, w2, w3, w4, w5, w6, w7, w8⟩ :=
        setFragment_ok url _ _ (EscapedFragment_decode v)
      rw [hsf]
      exact ⟨w, rfl, w1.trans u1, w4.trans (u4.trans hhv), w2.trans u2, w3.trans u3,
        w5.trans hpath, (EscapedPath_congr w url w5 w8).trans hep, w6.trans u5, w7.trans u6,
        hfw⟩

/-! ## Theorems: the URL rewriter -/

/-- When the original `u` and the non-empty replacement `r` both parse,
`replaceURL u r` returns, without error, what `String` writes for the parsed
original after its `Scheme` and `Host` are overwritten (lines 256-259). -/
theorem replaceURL_eq_String (u r : GoString) (pu pr : URL)
    (hr : r ≠ []) (hu : Parse u = .ok pu) (hpr : Parse r = .ok pr) :
    replaceURL u r = (URL.String { pu with Scheme := pr.Scheme, Host := pr.Host }, none) := by
  unfold replaceURL
  have hlen : ¬ r.length = 0 := by
    intro h
    exact hr (List.length_eq_zero.mp h)
  rw [if_neg hlen, hu, hpr]

set_option maxRecDepth 4000 in
/-- C4 (as stated, refuted). With the replacement `https://prod.example/`,
the original `mailto:x@y.z` (which parses, with the opaque part `x@y.z`) is
rewritten to `https:x@y.z`, a URL without host: the host of the replacement
is not in the returned string.  With the same replacement the original `a/b`
(which parses, with the path `a/b`) is rewritten to
`https://prod.example/a/b`, a URL with the path `/a/b`: the path is not that
of the original.  With the replacement `/`, which parses to a URL without
host, the original `http://a//b` is rewritten to `//b`, a URL with the host
`b`: the host is not that of the replacement.  With the replacement
`http://[fe80::1%25é]/`, which parses to a URL whose host is an address with
the zone `é`, the original `http://x/` is rewritten to
`http://[fe80::1%25%C3%A9]/`, which does not parse as a URL. -/
theorem replaceURL_scheme_host_not_kept :
    Parse (bytes "https://prod.example/") =
      .ok { URL.zero with Scheme := bytes "https", Host := bytes "prod.example",
                          Path := bytes "/" } ∧
    Parse (bytes "mailto:x@y.z") =
      .ok { URL.zero with Scheme := bytes "mailto", Opaque := bytes "x@y.z" } ∧
    replaceURL (bytes "mailto:x@y.z") (bytes "https://prod.example/") =
      (bytes "https:x@y.z", none) ∧
    Parse (bytes "https:x@y.z") =
      .ok { URL.zero with Scheme := bytes "https", Opaque := bytes "x@y.z" } ∧
    Parse (bytes "a/b") = .ok { URL.zero with Path := bytes "a/b" } ∧
    replaceURL (bytes "a/b") (bytes "https://prod.example/") =
      (bytes "https://prod.example/a/b", none) ∧
    Parse (bytes "https://prod.example/a/b") =
      .ok { URL.zero with Scheme := bytes "https", Host := bytes "prod.example",
                          Path := bytes "/a/b" } ∧
    Parse (bytes "/") = .ok { URL.zero with Path := bytes "/" } ∧
    Parse (bytes "http://a//b") =
      .ok { URL.zero with Scheme := bytes "http", Host := bytes "a", Path := bytes "//b" } ∧
    replaceURL (bytes "http://a//b") (bytes "/") = (bytes "//b", none) ∧
    Parse (bytes "//b") = .ok { URL.zero with Host := bytes "b" } ∧
    Parse (bytes "http://[fe80::1%25é]/") =
      .ok { URL.zero with Scheme := bytes "http", Host := bytes "[fe80::1%é]",
                          Path := bytes "/" } ∧
    Parse (bytes "http://x/") =
      .ok { URL.zero with Scheme := bytes "http", Host := bytes "x", Path := bytes "/" } ∧
    replaceURL (bytes "http://x/") (bytes "http://[fe80::1%25é]/") =
      (bytes "http://[fe80::1%25%C3%A9]/", none) ∧
    Parse (bytes "http://[fe80::1%25%C3%A9]/") =
      .error (.urlError "parse" (bytes "http://[fe80::1%25%C3%A9]/")
        (.escapeError (bytes "%C3"))) := by
  decide

/-- C4 (amended). When the original `u` parses to a URL without opaque part
and the non-empty replacement `r` parses to a URL with a host,
`replaceURL u r` returns, without error, the string made of the scheme of
`r` and `:` (when `r` has a scheme), `//`, the user-info of `u` and `@` (when
`u` has user-info), the escaped host of `r`, the escaped path of `u` after a
`/` when it is not empty and does not start with one, `?` and the query of
`u` (when `u` has one), and `#` and the escaped fragment of `u` (when `u` has
one).  That string parses as a URL exactly when `parseHost` accepts the
escaped host of `r`; and a URL it parses to has the scheme and the host of
`r`, no opaque part, the user-info, the query and the fragment of `u`, and
the path of `u` after the `/` that was written before it. -/
theorem replaceURL_scheme_host_of_base (u r : GoString) (pu pr : URL)
    (hr : r ≠ []) (hu : Parse u = .ok pu) (hpr : Parse r = .ok pr)
    (hnop : pu.Opaque = []) (hhost : pr.Host ≠ []) :
    replaceURL u r =
      (schemePart pr.Scheme ++ bytes "//" ++ userPart pu.User ++ escape pr.Host encodeHost ++
        pathPart pu.EscapedPath ++ queryPart pu.ForceQuery pu.RawQuery ++ fragmentPart pu,
       none) ∧
    ((∃ w, Parse (replaceURL u r).1 = .ok w) ↔
      ∃ host, parseHost (escape pr.Host encodeHost) = .ok host) ∧
    ∀ w, Parse (replaceURL u r).1 = .ok w →
      w.Scheme = pr.Scheme ∧ w.Host = pr.Host ∧ w.Opaque = [] ∧ w.User = pu.User ∧
      w.Path = slashPart pu.EscapedPath ++ pu.Path ∧
      w.EscapedPath = pathPart pu.EscapedPath ∧
      w.ForceQuery = pu.ForceQuery ∧ w.RawQuery = pu.RawQuery ∧
      w.Fragment = pu.Fragment := by
  have h1 := replaceURL_eq_String u r pu pr hr hu hpr
  have hfu := Parse_facts u pu hu
  have hfr := Parse_facts r pr hpr
  obtain ⟨s1, s2, s3⟩ := Parse_shape u pu hu
  have hep : URL.EscapedPath { pu with Scheme := pr.Scheme, Host := pr.Host } =
      pu.EscapedPath := EscapedPath_congr _ _ rfl rfl
  have hfp : fragmentPart { pu with Scheme := pr.Scheme, Host := pr.Host } = fragmentPart pu := by
    unfold fragmentPart
    rw [EscapedFragment_congr { pu with Scheme := pr.Scheme, Host := pr.Host } pu rfl rfl]
  have hS := String_eq_host { pu with Scheme := pr.Scheme, Host := pr.Host } hhost hnop
  rw [hep, hfp] at hS
  obtain ⟨k1, k2⟩ := Parse_String_host { pu with Scheme := pr.Scheme, Host := pr.Host }
    hhost hnop hfr.1 hfu.2.1 s1 s2 s3
  rw [hep] at k2
  rw [h1]
  refine ⟨?_, ⟨?_, ?_⟩, ?_⟩
  · rw [hS]
    simp only [List.append_assoc]
  · rintro ⟨w, hw⟩
    cases hph : parseHost (escape pr.Host encodeHost) with
    | error e =>
      obtain ⟨e', he'⟩ := k1 e hph
      simp only at hw
      rw [he'] at hw
      exact Except.noConfusion hw
    | ok host => exact ⟨host, rfl⟩
  · rintro ⟨host, hhp⟩
    obtain ⟨w, hw, _⟩ := k2 host hhp
    exact ⟨w, hw⟩
  · intro w hw
    cases hph : parseHost (escape pr.Host encodeHost) with
    | error e =>
      obtain ⟨e', he'⟩ := k1 e hph
      simp only at hw
      rw [he'] at hw
      exact Except.noConfusion hw
    | ok host =>
      obtain ⟨w', hw', hall⟩ := k2 host hph
      simp only at hw
      rw [hw'] at hw
      simp only [Except.ok.injEq] at hw
      rw [← hw]
      exact hall

set_option maxRecDepth 4000 in
/-- C4 (amended), scenario 4: `replaceURL("https://staging.example/sub.xml",
"https://prod.example/")` is `"https://prod.example/sub.xml"`, which parses
to the URL with scheme `https`, host `prod.example` and path `/sub.xml`. -/
theorem replaceURL_scheme_host_of_base_witness :
    replaceURL (bytes "https://staging.example/sub.xml") (bytes "https://prod.example/") =
      (bytes "https://prod.example/sub.xml", none) ∧
    Parse (bytes "https://prod.example/sub.xml") =
      .ok { URL.zero with Scheme := bytes "https", Host := bytes "prod.example",
                          Path := bytes "/sub.xml" } ∧
    (∃ w, Parse (replaceURL (bytes "https://staging.example/sub.xml")
      (bytes "https://prod.example/")).1 = .ok w) ∧
    ∀ w, Parse (replaceURL (bytes "https://staging.example/sub.xml")
        (bytes "https://prod.example/")).1 = .ok w →
      w.Scheme = bytes "https" ∧ w.Host = bytes "prod.example" ∧ w.Opaque = [] ∧
      w.User = none ∧ w.Path = bytes "/sub.xml" ∧ w.EscapedPath = bytes "/sub.xml" ∧
      w.ForceQuery = false ∧ w.RawQuery = [] ∧ w.Fragment = [] := by
  have h := replaceURL_scheme_host_of_base (bytes "https://staging.example/sub.xml")
    (bytes "https://prod.example/")
    { URL.zero with Scheme := bytes "https", Host := bytes "staging.example",
                    Path := bytes "/sub.xml" }
    { URL.zero with Scheme := bytes "https", Host := bytes "prod.example",
                    Path := bytes "/" }
    (by decide) (by decide) (by decide) (by decide) (by decide)
  refine ⟨h.1.trans (by decide), by decide, h.2.1.mpr ⟨bytes "prod.example", by decide⟩, ?_⟩
  intro w hw
  obtain ⟨h1, h2, h3, h4, h5, h6, h7, h8, h9⟩ := h.2.2 w hw
  exact ⟨h1, h2, h3, h4, h5.trans (by decide), h6.trans (by decide), h7, h8, h9⟩

/-- C8. `replaceURL u ""` is `u` without error; for a non-empty `r`, when
`u` fails to parse, or `u` parses and `r` fails to parse, `replaceURL u r`
is `u` together with that parse error; and whatever the replacement, the
result either carries no error or is `u` itself. -/
theorem replaceURL_returns_original (u r : GoString) (err : Error) (hr : r ≠ [])
    (hfail : Parse u = .error err ∨ (∃ pu, Parse u = .ok pu ∧ Parse r = .error err)) :
    replaceURL u [] = (u, none) ∧
    replaceURL u r = (u, some err) ∧
    ∀ r', (replaceURL u r').2 = none ∨ (replaceURL u r').1 = u := by
  have hlen : ¬ r.length = 0 := by
    intro h
    exact hr (List.length_eq_zero.mp h)
  refine ⟨rfl, ?_, ?_⟩
  · unfold replaceURL
    rw [if_neg hlen]
    rcases hfail with h | ⟨pu, h, h'⟩
    · rw [h]
    · rw [h, h']
  · intro r'
    unfold replaceURL
    split
    · exact Or.inl rfl
    · cases Parse u with
      | error e => exact Or.inr rfl
      | ok pu =>
        cases Parse r' with
        | error e => exact Or.inr rfl
        | ok pr => exact Or.inl rfl

/-- C8, on an original with a malformed escape and on a replacement with a
malformed port. -/
theorem replaceURL_returns_original_witness :
    (replaceURL (bytes "http://h/%zz") [] = (bytes "http://h/%zz", none) ∧
      replaceURL (bytes "http://h/%zz") (bytes "https://prod.example/") =
        (bytes "http://h/%zz",
          some (.urlError "parse" (bytes "http://h/%zz") (.escapeError (bytes "%zz")))) ∧
      ∀ r', (replaceURL (bytes "http://h/%zz") r').2 = none ∨
        (replaceURL (bytes "http://h/%zz") r').1 = bytes "http://h/%zz") ∧
    replaceURL (bytes "/sub.xml") (bytes "https://prod.example:x/") =
      (bytes "/sub.xml",
        some (.urlError "parse" (bytes "https://prod.example:x/")
          (.invalidPort (bytes ":x")))) :=
  ⟨replaceURL_returns_original (bytes "http://h/%zz") (bytes "https://prod.example/")
      (.urlError "parse" (bytes "http://h/%zz") (.escapeError (bytes "%zz")))
      (by decide) (Or.inl (by decide)),
    (replaceURL_returns_original (bytes "/sub.xml") (bytes "https://prod.example:x/")
      (.urlError "parse" (bytes "https://prod.example:x/") (.invalidPort (bytes ":x")))
      (by decide) (Or.inr ⟨{ URL.zero with Path := bytes "/sub.xml" },
        by decide, by decide⟩)).2.1⟩

/-- C5 (as stated, refuted). With the replacement `/`, which parses to a URL
without scheme and host, `replaceURL("http://a//b", "/")` is `"//b"`, and
rewriting `"//b"` again yields the empty string.  With the replacement
`//prod.example`, which has a host and no scheme,
`replaceURL("mailto:x", "//prod.example")` is `"x"`, and rewriting `"x"`
again yields `"//prod.example/x"`.  With the replacement `x:`, which has a
scheme and no host, `replaceURL("a/b", "x:")` is `"x://a/b"`, and rewriting
that again yields `"x:///b"`. -/
theorem replaceURL_not_idempotent :
    replaceURL (bytes "http://a//b") (bytes "/") = (bytes "//b", none) ∧
    replaceURL (replaceURL (bytes "http://a//b") (bytes "/")).1 (bytes "/") = ([], none) ∧
    replaceURL (replaceURL (bytes "http://a//b") (bytes "/")).1 (bytes "/") ≠
      replaceURL (bytes "http://a//b") (bytes "/") ∧
    replaceURL (bytes "mailto:x") (bytes "//prod.example") = (bytes "x", none) ∧
    replaceURL (replaceURL (bytes "mailto:x") (bytes "//prod.example")).1
      (bytes "//prod.example") = (bytes "//prod.example/x", none) ∧
    replaceURL (bytes "a/b") (bytes "x:") = (bytes "x://a/b", none) ∧
    replaceURL (replaceURL (bytes "a/b") (bytes "x:")).1 (bytes "x:") =
      (bytes "x:///b", none) := by
  decide

/-- C5 (amended). Rewriting the result of `replaceURL u r` again with the same
`r` yields the same string whenever `r` is empty, or `r` fails to parse, or
`u` fails to parse, or `r` parses to a URL with a non-empty scheme and a
non-empty host. -/
theorem replaceURL_idempotent_of_base (u r : GoString)
    (hr : r = [] ∨ (∃ err, Parse r = .error err) ∨ (∃ err, Parse u = .error err) ∨
      ∃ pr, Parse r = .ok pr ∧ pr.Scheme ≠ [] ∧ pr.Host ≠ []) :
    (replaceURL (replaceURL u r).1 r).1 = (replaceURL u r).1 := by
  by_cases hlen : r.length = 0
  · unfold replaceURL
    simp only [hlen, if_true]
  · have hrne : r ≠ [] := fun hx => hlen (by rw [hx]; rfl)
    cases hu : Parse u with
    | error e =>
      have h1 : replaceURL u r = (u, some e) := by
        unfold replaceURL
        rw [if_neg hlen, hu]
      rw [h1]
      simp only
      rw [h1]
    | ok pu =>
      cases hpr : Parse r with
      | error e =>
        have h1 : replaceURL u r = (u, some e) := by
          unfold replaceURL
          rw [if_neg hlen, hu, hpr]
        rw [h1]
        simp only
        rw [h1]
      | ok pr =>
        have hbase : pr.Scheme ≠ [] ∧ pr.Host ≠ [] := by
          rcases hr with h | ⟨e, h⟩ | ⟨e, h⟩ | ⟨pr', h, h2⟩
          · exact absurd h hrne
          · rw [hpr] at h; simp at h
          · rw [hu] at h; simp at h
          · rw [hpr] at h
            simp only [Except.ok.injEq] at h
            rw [h]; exact h2
        have h1 : replaceURL u r =
            (URL.String { pu with Scheme := pr.Scheme, Host := pr.Host }, none) := by
          unfold replaceURL
          rw [if_neg hlen, hu, hpr]
        rw [h1]
        simp only
        cases hw : Parse (URL.String { pu with Scheme := pr.Scheme, Host := pr.Host }) with
        | error e =>
          unfold replaceURL
          rw [if_neg hlen, hw]
        | ok w =>
          have hfu := Parse_facts u pu hu
          have hfr := Parse_facts r pr hpr
          have hsc : isScheme pr.Scheme = true := by
            rcases hfr.1 with h | h
            · exact absurd h hbase.1
            · exact h
          have key := String_Parse_String { pu with Scheme := pr.Scheme, Host := pr.Host } w
            hsc hbase.2 hfu.2.1 hfu.2.2 hw
          unfold replaceURL
          rw [if_neg hlen, hw, hpr]
          exact key

/-- C5 (amended), on a URL with user-info, port, an escaped path, a query and
a fragment, and on scenario 4. -/
theorem replaceURL_idempotent_of_base_witness :
    replaceURL (bytes "http://us:er@staging.example:8080/a%2Fb c?q=1#fr ag")
      (bytes "https://prod.example/") =
      (bytes "https://us:er@prod.example/a/b%20c?q=1#fr%20ag", none) ∧
    (replaceURL (replaceURL (bytes "http://us:er@staging.example:8080/a%2Fb c?q=1#fr ag")
      (bytes "https://prod.example/")).1 (bytes "https://prod.example/")).1 =
      (replaceURL (bytes "http://us:er@staging.example:8080/a%2Fb c?q=1#fr ag")
        (bytes "https://prod.example/")).1 :=
  ⟨by decide,
    replaceURL_idempotent_of_base (bytes "http://us:er@staging.example:8080/a%2Fb c?q=1#fr ag")
      (bytes "https://prod.example/")
      (Or.inr (Or.inr (Or.inr
        ⟨{ URL.zero with Scheme := bytes "https", Host := bytes "prod.example",
                         Path := bytes "/" },
          by decide, by decide, by decide⟩)))⟩


end Sico
